import Mathlib

/-!
# TecnicoFS: the node table, directory primitives and the operation layer

A shallow embedding of `src/fs/state.c` (node table and directory primitives) and
`src/server/fs/operations.c` (path splitter, `create`, `delete`, `move`, `lookup`,
`aux_lookup`), followed by theorems about them.

Conventions of the embedding.

* The global `inode_table` is passed explicitly: every operation takes the table and
  returns the new table together with its C return value.
* C strings are `List Char` (the characters before the terminating NUL).
* `int` values are `Int`.  The table is a `List inode_t`; a directory's entry array is a
  `List DirEntry`.
* The locks (`fsLock`, `inodeLock`, `unlockAll`) do not change the table.  A call sequence
  is the sequential behaviour of the code; the only trace of locking kept is the list of
  ids that `aux_lookup` appends to its `locked` array.
* The header files are not part of the sources at hand.  Array sizes and the numeric value
  of `TECNICOFS_ERROR_FILE_NOT_FOUND` are fields of `Config`; the sentinels are the
  definitions `FREE_INODE`, `FAIL`, `SUCCESS`, `FS_ROOT` below.
* `state.c` and `operations.c` come from two directories: the primitives of `state.c` take a
  trailing `syncstrat` argument that only selects a lock, and `operations.c` calls them
  without it.  The model drops that argument.
* The character buffers of `MAX_FILE_NAME` bytes (`name_copy`, `full_path`, entry names) are
  taken to be large enough for the strings copied into them.
* An array index outside the table is not a defined read in C; `nodeTypeOf` and `dataOf`
  say how the model answers it, and `inode_delete_checked` and `dir_reset_entry_checked`
  return `none` for a run that makes such a read.
-/

namespace TecnicoFS

/-! ## Constants and data model -/

/-- Compile-time constants supplied by the missing headers. -/
structure Config where
  INODE_TABLE_SIZE : Nat
  MAX_DIR_ENTRIES : Nat
  TECNICOFS_ERROR_FILE_NOT_FOUND : Int

/-- Modelled from the spec: the header defining `FREE_INODE` is missing; the spec calls it
the sentinel `FREE` of an unused entry slot, and `dir_reset_entry` compares ids against it
as a lower bound, so it is the negative id `-1`. -/
def FREE_INODE : Int := -1

/-- Modelled from the spec: the header defining `FAIL` is missing; the spec says errors are
negative integers, and `init_fs` passes the literal `-1`. -/
def FAIL : Int := -1

/-- Modelled from the spec: the header defining `SUCCESS` is missing; `aux_lookup` compares
the result of `linear_search` with the literal `0`. -/
def SUCCESS : Int := 0

/-- Modelled from the spec: the header defining `FS_ROOT` is missing; the spec reserves id
`0` for the root directory. -/
def FS_ROOT : Int := 0

/-- The enum `type` of a node. -/
inductive type
  | T_FILE
  | T_DIRECTORY
  | T_NONE
deriving DecidableEq, Repr

open type

/-- Modelled from the spec: the header naming the status codes is missing; the spec lists
them by name and leaves the encoding open. -/
inductive Status
  | SUCCESS
  | TECNICOFS_ERROR_INVALID_PARENT_DIR
  | TECNICOFS_ERROR_PARENT_NOT_DIR
  | TECNICOFS_ERROR_FILE_ALREADY_EXISTS
  | TECNICOFS_ERROR_DOESNT_EXIST_IN_DIR
  | TECNICOFS_ERROR_DIR_NOT_EMPTY
  | TECNICOFS_ERROR_COULDNT_ALLOCATE_INODE
  | TECNICOFS_ERROR_COULDNT_ADD_ENTRY
  | TECNICOFS_ERROR_FAILED_REMOVE_FROM_DIR
  | TECNICOFS_ERROR_FAILED_DELETE_INODE
  | TECNICOFS_ERROR_FILE_NOT_FOUND
  | TECNICOFS_ERROR_MOVE_TO_ITSELF
deriving DecidableEq, Repr

/-- A directory entry: `char name[MAX_FILE_NAME]; int inumber`. -/
structure DirEntry where
  name : List Char
  inumber : Int
deriving DecidableEq, Repr

/-- The union `Data`: one pointer, read as `dirEntries` or as `fileContents`.
`none` is the NULL pointer, `some es` an allocated entry array. -/
abbrev Data := Option (List DirEntry)

/-- A slot of the node table. -/
structure inode_t where
  nodeType : type
  data : Data
deriving DecidableEq, Repr

/-- The node table `inode_table[INODE_TABLE_SIZE]`. -/
abbrev Table := List inode_t

/-- The slot `inode_table[inumber]`, if `inumber` indexes the table. -/
def slot (t : Table) (inumber : Int) : Option inode_t :=
  if inumber < 0 then none else t[inumber.toNat]?

/-- The field `inode_table[inumber].nodeType`.  A read outside the table is modelled as
reading `T_NONE`. -/
def nodeTypeOf (t : Table) (inumber : Int) : type :=
  match slot t inumber with
  | some n => n.nodeType
  | none => T_NONE

/-- The field `inode_table[inumber].data`.  A read outside the table is modelled as
reading NULL. -/
def dataOf (t : Table) (inumber : Int) : Data :=
  match slot t inumber with
  | some n => n.data
  | none => none

/-- The assignment `inode_table[inumber] = n`. -/
def setSlot (t : Table) (inumber : Int) (n : inode_t) : Table :=
  if inumber < 0 then t else t.set inumber.toNat n

/-- The guard `(inumber < 0) || (inumber > INODE_TABLE_SIZE) ||
(inode_table[inumber].nodeType == T_NONE)` shared by the primitives of `state.c`. -/
def invalid_inumber (cfg : Config) (t : Table) (inumber : Int) : Bool :=
  decide (inumber < 0) || decide (inumber > (cfg.INODE_TABLE_SIZE : Int)) ||
    decide (nodeTypeOf t inumber = T_NONE)

/-! ## state.c -/

/-- The function `inode_table_init`: every slot is `T_NONE` with NULL data. -/
def inode_table_init (cfg : Config) : Table :=
  List.replicate cfg.INODE_TABLE_SIZE ⟨T_NONE, none⟩

/-- The payload `inode_create` installs: for a directory a fresh array of
`MAX_DIR_ENTRIES` entries with `inumber = FREE_INODE`, otherwise NULL.  `malloc` leaves the
names unset; no code reads the name of an entry whose `inumber` is `FREE_INODE`, and the
model stores the empty name there. -/
def fresh_data (cfg : Config) (nType : type) : Data :=
  if nType = T_DIRECTORY then some (List.replicate cfg.MAX_DIR_ENTRIES ⟨[], FREE_INODE⟩)
  else none

/-- The loop of `inode_create` from index `inumber` on: the index of the first slot whose
`nodeType` is `T_NONE`. -/
def first_none : List inode_t → Nat → Option Nat
  | [], _ => none
  | n :: rest, inumber =>
    if n.nodeType = T_NONE then some inumber else first_none rest (inumber + 1)

/-- The function `inode_create`: takes the first `T_NONE` slot, sets its type and payload
and returns its index; returns `FAIL` when no slot is `T_NONE`. -/
def inode_create (cfg : Config) (t : Table) (nType : type) : Table × Int :=
  match first_none t 0 with
  | some inumber => (t.set inumber ⟨nType, fresh_data cfg nType⟩, (inumber : Int))
  | none => (t, FAIL)

/-- The function `inode_delete`: sets the slot to `T_NONE`.  The entry array is freed and
the pointer keeps its value; a `T_NONE` slot is never read through it. -/
def inode_delete (cfg : Config) (t : Table) (inumber : Int) : Table × Int :=
  if invalid_inumber cfg t inumber then (t, FAIL)
  else (setSlot t inumber ⟨T_NONE, dataOf t inumber⟩, SUCCESS)

/-- The function `inode_get`, with the out-parameters made explicit: `nType` and `data`
are the values held by the caller's variables before the call; on `FAIL` they are
returned untouched. -/
def inode_get (cfg : Config) (t : Table) (inumber : Int) (nType : type) (data : Data) :
    Int × type × Data :=
  if invalid_inumber cfg t inumber then (FAIL, nType, data)
  else (SUCCESS, nodeTypeOf t inumber, dataOf t inumber)

/-- The loop of `dir_reset_entry`: the first entry whose `inumber` is `sub_inumber` gets
`inumber = FREE_INODE` and `name[0] = 0`; `none` when the loop ends without a match. -/
def reset_first (sub_inumber : Int) : List DirEntry → Option (List DirEntry)
  | [] => none
  | e :: es =>
    if e.inumber = sub_inumber then some (⟨[], FREE_INODE⟩ :: es)
    else (reset_first sub_inumber es).map (fun r => e :: r)

/-- The function `dir_reset_entry`. -/
def dir_reset_entry (cfg : Config) (t : Table) (inumber sub_inumber : Int) : Table × Int :=
  if invalid_inumber cfg t inumber then (t, FAIL)
  else if nodeTypeOf t inumber ≠ T_DIRECTORY then (t, FAIL)
  else if decide (sub_inumber < FREE_INODE) || decide (sub_inumber > (cfg.INODE_TABLE_SIZE : Int))
      || decide (nodeTypeOf t sub_inumber = T_NONE) then (t, FAIL)
  else
    match dataOf t inumber with
    | none => (t, FAIL)
    | some es =>
      match reset_first sub_inumber es with
      | some es1 => (setSlot t inumber ⟨T_DIRECTORY, some es1⟩, SUCCESS)
      | none => (t, FAIL)

/-- The loop of `dir_add_entry`: the first entry whose `inumber` is `FREE_INODE` receives
the id and the name; `none` when no entry is free. -/
def add_first (sub_inumber : Int) (sub_name : List Char) : List DirEntry → Option (List DirEntry)
  | [] => none
  | e :: es =>
    if e.inumber = FREE_INODE then some (⟨sub_name, sub_inumber⟩ :: es)
    else (add_first sub_inumber sub_name es).map (fun r => e :: r)

/-- The function `dir_add_entry`. -/
def dir_add_entry (cfg : Config) (t : Table) (inumber sub_inumber : Int)
    (sub_name : List Char) : Table × Int :=
  if invalid_inumber cfg t inumber then (t, FAIL)
  else if nodeTypeOf t inumber ≠ T_DIRECTORY then (t, FAIL)
  else if invalid_inumber cfg t sub_inumber then (t, FAIL)
  else if sub_name.length = 0 then (t, FAIL)
  else
    match dataOf t inumber with
    | none => (t, FAIL)
    | some es =>
      match add_first sub_inumber sub_name es with
      | some es1 => (setSlot t inumber ⟨T_DIRECTORY, some es1⟩, SUCCESS)
      | none => (t, FAIL)

/-- Modelled from the spec: `dir_remove_entry`, which `move` calls, is not in the sources
at hand.  The spec's `remove_entry(dir, id)` finds the entry whose child id is `id`, marks
its slot `FREE`, clears its name, and fails if there is no such entry: the behaviour of
`dir_reset_entry`. -/
def dir_remove_entry (cfg : Config) (t : Table) (inumber sub_inumber : Int) : Table × Int :=
  dir_reset_entry cfg t inumber sub_inumber

/-! ## state.c with the bounds of the array made explicit -/

/-- The read `inode_table[inumber].nodeType` in a table of `t.length` slots: `none` when
`inumber` is not an index of the array, where C leaves the read undefined. -/
def read_nodeType (t : Table) (inumber : Int) : Option type :=
  (slot t inumber).map (fun n => n.nodeType)

/-- The guard `(inumber < lo) || (inumber > INODE_TABLE_SIZE) ||
(inode_table[inumber].nodeType == T_NONE)`, evaluated left to right as `||` does: the table
is indexed only when both comparisons are false.  The bound `lo` is `0` in every guard but
the one on `sub_inumber` in `dir_reset_entry`, where it is `FREE_INODE`.  The result is
`none` when the guard indexes the table outside the array. -/
def guard_checked (cfg : Config) (t : Table) (lo inumber : Int) : Option Bool :=
  if inumber < lo then some true
  else if inumber > (cfg.INODE_TABLE_SIZE : Int) then some true
  else (read_nodeType t inumber).map (fun k => decide (k = T_NONE))

/-- The function `inode_delete`, with `none` for a run that indexes `inode_table` outside
the array.  Once the guard is false the later accesses use the index the guard has read. -/
def inode_delete_checked (cfg : Config) (t : Table) (inumber : Int) : Option (Table × Int) :=
  match guard_checked cfg t 0 inumber with
  | none => none
  | some true => some (t, FAIL)
  | some false => some (setSlot t inumber ⟨T_NONE, dataOf t inumber⟩, SUCCESS)

/-- The function `dir_reset_entry`, with `none` for a run that indexes `inode_table` outside
the array or reads entries through a NULL `dirEntries`. -/
def dir_reset_entry_checked (cfg : Config) (t : Table) (inumber sub_inumber : Int) :
    Option (Table × Int) :=
  match guard_checked cfg t 0 inumber with
  | none => none
  | some true => some (t, FAIL)
  | some false =>
    if nodeTypeOf t inumber ≠ T_DIRECTORY then some (t, FAIL)
    else
      match guard_checked cfg t FREE_INODE sub_inumber with
      | none => none
      | some true => some (t, FAIL)
      | some false =>
        match dataOf t inumber with
        | none => none
        | some es =>
          match reset_first sub_inumber es with
          | some es1 => some (setSlot t inumber ⟨T_DIRECTORY, some es1⟩, SUCCESS)
          | none => some (t, FAIL)

/-! ## operations.c -/

/-- The loop of `split_parent_child_from_path` from index `i` on, over the characters
`path[i], path[i+1], ...` up to the terminating NUL: a `'/'` that is followed by a further
character is counted and its index recorded.  The accumulator is
`(n_slashes, last_slash_location)`. -/
def count_slashes : List Char → Nat → Nat × Nat → Nat × Nat
  | c :: c1 :: rest, i, acc =>
    if c = '/' then count_slashes (c1 :: rest) (i + 1) (acc.1 + 1, i)
    else count_slashes (c1 :: rest) (i + 1) acc
  | _, _, acc => acc

/-- The function `split_parent_child_from_path`; the result is `(parent, child, n_slashes)`.
A trailing `'/'` is overwritten by NUL first.  On the empty string the C code reads
`path[-1]`; the model takes the branch in which that byte is not `'/'`. -/
def split_parent_child_from_path (path : List Char) : List Char × List Char × Nat :=
  let path1 := if path.getLast? = some '/' then path.dropLast else path
  let r := count_slashes path1 0 (0, 0)
  if r.1 = 0 then ([], path1, r.1)
  else (path1.take r.2, path1.drop (r.2 + 1), r.1)

/-- The successive results of `strtok_r` with delimiter `"/"`: the maximal non-empty runs
of characters other than `'/'`, in order.  The second argument is the token being read. -/
def strtok_r : List Char → List Char → List (List Char)
  | [], tok => if tok = [] then [] else [tok]
  | c :: cs, tok =>
    if c = '/' then (if tok = [] then strtok_r cs [] else tok :: strtok_r cs [])
    else strtok_r cs (tok ++ [c])

/-- The function `init_fs`: `none` stands for `exit(EXIT_FAILURE)`. -/
def init_fs (cfg : Config) : Option Table :=
  let r := inode_create cfg (inode_table_init cfg) T_DIRECTORY
  if r.2 ≠ FS_ROOT then none else some r.1

/-- The function `is_dir_empty`. -/
def is_dir_empty (dirEntries : Data) : Int :=
  match dirEntries with
  | none => FAIL
  | some es => if es.all (fun e => decide (e.inumber = FREE_INODE)) then SUCCESS else FAIL

/-- The loop of `lookup_sub_node`. -/
def lookup_sub_node_loop (name : List Char) : List DirEntry → Int
  | [] => FAIL
  | e :: es =>
    if e.inumber ≠ FREE_INODE ∧ e.name = name then e.inumber
    else lookup_sub_node_loop name es

/-- The function `lookup_sub_node`. -/
def lookup_sub_node (name : List Char) (entries : Data) : Int :=
  match entries with
  | none => FAIL
  | some es => lookup_sub_node_loop name es

/-- The function `linear_search` over the first `length` cells of `array`. -/
def linear_search (array : List Int) (length : Nat) (el : Int) : Int :=
  if el ∈ array.take length then SUCCESS else FAIL

/-- The `while` loop of `lookup`: the remaining tokens, `current_inumber` and the copy
`data` of the current node's payload.  When `inode_get` fails, `data` keeps its value. -/
def lookup_loop (cfg : Config) (t : Table) : List (List Char) → Int → Data → Int
  | [], current_inumber, _ => current_inumber
  | path :: rest, _, data =>
    let current_inumber := lookup_sub_node path data
    if current_inumber = FAIL then current_inumber
    else lookup_loop cfg t rest current_inumber
      (inode_get cfg t current_inumber T_NONE data).2.2

/-- The function `lookup`.  The locals `nType` and `data` are unset before the first
`inode_get`; the model starts them as `T_NONE` and NULL. -/
def lookup (cfg : Config) (t : Table) (name : List Char) : Int :=
  let data := (inode_get cfg t FS_ROOT T_NONE none).2.2
  let current_inumber := lookup_loop cfg t (strtok_r name []) FS_ROOT data
  if current_inumber < 0 then cfg.TECNICOFS_ERROR_FILE_NOT_FOUND else current_inumber

/-- The `while` loop of `aux_lookup`: the remaining tokens, `current_inumber`, the copy
`data` and the ids stored in `locked` so far. -/
def aux_lookup_loop (cfg : Config) (t : Table) (already_locked : List Int) :
    List (List Char) → Int → Data → List Int → Int × List Int
  | [], current_inumber, _, locked => (current_inumber, locked)
  | path :: rest, _, data, locked =>
    let current_inumber := lookup_sub_node path data
    if current_inumber = FAIL then (current_inumber, locked)
    else
      let locked1 :=
        if already_locked.length = 0 ∨
            linear_search already_locked already_locked.length current_inumber = 0
        then locked ++ [current_inumber] else locked
      aux_lookup_loop cfg t already_locked rest current_inumber
        (inode_get cfg t current_inumber T_NONE data).2.2 locked1

/-- The function `aux_lookup`; `already_locked` holds the first `already_locked_index`
cells of the array passed in (the empty list for `NULL, 0`).  The result is
`(current_inumber, locked)` with `locked` the ids written to the `locked` array. -/
def aux_lookup (cfg : Config) (t : Table) (name : List Char) (already_locked : List Int) :
    Int × List Int :=
  let locked :=
    if already_locked.length = 0 ∨
        linear_search already_locked already_locked.length FS_ROOT = FAIL
    then [FS_ROOT] else []
  let data := (inode_get cfg t FS_ROOT T_NONE none).2.2
  aux_lookup_loop cfg t already_locked (strtok_r name []) FS_ROOT data locked

open Status in
/-- The function `create`.  The locals `pType`, `pdata` are unset before `inode_get`; the
model starts them as `T_NONE` and NULL. -/
def create (cfg : Config) (t : Table) (name : List Char) (nodeType : type) : Table × Status :=
  let s := split_parent_child_from_path name
  let parent_name := s.1
  let child_name := s.2.1
  let parent_inumber := (aux_lookup cfg t parent_name []).1
  if parent_inumber = FAIL then (t, TECNICOFS_ERROR_INVALID_PARENT_DIR)
  else
    let g := inode_get cfg t parent_inumber T_NONE none
    let pType := g.2.1
    let pdata := g.2.2
    if pType ≠ T_DIRECTORY then (t, TECNICOFS_ERROR_PARENT_NOT_DIR)
    else if lookup_sub_node child_name pdata ≠ FAIL then
      (t, TECNICOFS_ERROR_FILE_ALREADY_EXISTS)
    else
      let c := inode_create cfg t nodeType
      let child_inumber := c.2
      if child_inumber = FAIL then (c.1, TECNICOFS_ERROR_COULDNT_ALLOCATE_INODE)
      else
        let a := dir_add_entry cfg c.1 parent_inumber child_inumber child_name
        if a.2 = FAIL then (a.1, TECNICOFS_ERROR_COULDNT_ADD_ENTRY)
        else (a.1, Status.SUCCESS)

open Status in
/-- The function `delete`. -/
def delete (cfg : Config) (t : Table) (name : List Char) : Table × Status :=
  let s := split_parent_child_from_path name
  let parent_name := s.1
  let child_name := s.2.1
  let parent_inumber := (aux_lookup cfg t parent_name []).1
  if parent_inumber = FAIL then (t, TECNICOFS_ERROR_INVALID_PARENT_DIR)
  else
    let g := inode_get cfg t parent_inumber T_NONE none
    let pType := g.2.1
    let pdata := g.2.2
    if pType ≠ T_DIRECTORY then (t, TECNICOFS_ERROR_PARENT_NOT_DIR)
    else
      let child_inumber := lookup_sub_node child_name pdata
      if child_inumber = FAIL then (t, TECNICOFS_ERROR_DOESNT_EXIST_IN_DIR)
      else
        let gc := inode_get cfg t child_inumber T_NONE none
        let cType := gc.2.1
        let cdata := gc.2.2
        if cType = T_DIRECTORY ∧ is_dir_empty cdata = FAIL then
          (t, TECNICOFS_ERROR_DIR_NOT_EMPTY)
        else
          let r := dir_reset_entry cfg t parent_inumber child_inumber
          if r.2 = FAIL then (r.1, TECNICOFS_ERROR_FAILED_REMOVE_FROM_DIR)
          else
            let d := inode_delete cfg r.1 child_inumber
            if d.2 = FAIL then (d.1, TECNICOFS_ERROR_FAILED_DELETE_INODE)
            else (d.1, Status.SUCCESS)

/-- The two locking traversals of `move` in the order the code runs them; the result is
`(sparent_inumber, slocked, dparent_inumber, dlocked)`. -/
def move_traversals (cfg : Config) (t : Table) (sparent_name dparent_name : List Char)
    (sdepth ddepth : Nat) : Int × List Int × Int × List Int :=
  let src_first :=
    let s := aux_lookup cfg t sparent_name []
    let d := aux_lookup cfg t dparent_name s.2
    (s.1, s.2, d.1, d.2)
  let dest_first :=
    let d := aux_lookup cfg t dparent_name []
    let s := aux_lookup cfg t sparent_name d.2
    (s.1, s.2, d.1, d.2)
  if sdepth < ddepth then src_first
  else if sdepth > ddepth then dest_first
  else if lookup cfg t sparent_name ≥ lookup cfg t dparent_name then src_first
  else dest_first

open Status in
/-- The function `move`.  The results of `dir_remove_entry` and `dir_add_entry` are not
inspected by the code. -/
def move (cfg : Config) (t : Table) (src dest : List Char) : Table × Status :=
  let d := split_parent_child_from_path dest
  let dparent_name := d.1
  let dchild_name := d.2.1
  let ddepth := d.2.2
  let s := split_parent_child_from_path src
  let sparent_name := s.1
  let schild_name := s.2.1
  let sdepth := s.2.2
  if (if dparent_name.head? = some '/' then
        decide (schild_name = dparent_name.tail) && decide (sparent_name = [])
      else decide (schild_name = dparent_name) && decide (sparent_name = [])) then
    (t, TECNICOFS_ERROR_MOVE_TO_ITSELF)
  else
    let tr := move_traversals cfg t sparent_name dparent_name sdepth ddepth
    let sparent_inumber := tr.1
    let dparent_inumber := tr.2.2.1
    if sparent_inumber < 0 ∨ dparent_inumber < 0 then
      (t, TECNICOFS_ERROR_INVALID_PARENT_DIR)
    else
      let gd := inode_get cfg t dparent_inumber T_NONE none
      let dType := gd.2.1
      let ddata := gd.2.2
      if dType ≠ T_DIRECTORY ∨ lookup_sub_node dchild_name ddata ≠ FAIL then
        (t, TECNICOFS_ERROR_FILE_ALREADY_EXISTS)
      else
        let gs := inode_get cfg t sparent_inumber T_NONE none
        let sType := gs.2.1
        let sdata := gs.2.2
        let moved_inumber := lookup_sub_node schild_name sdata
        if sType ≠ T_DIRECTORY ∨ moved_inumber = FAIL then
          (t, TECNICOFS_ERROR_FILE_NOT_FOUND)
        else
          let r := dir_remove_entry cfg t sparent_inumber moved_inumber
          let a := dir_add_entry cfg r.1 dparent_inumber moved_inumber dchild_name
          (a.1, Status.SUCCESS)

/-- The tables reachable from `init_fs` by calls of `create`, `delete` and `move` with
arbitrary arguments, whatever status each call returns. -/
inductive Reachable (cfg : Config) : Table → Prop
  | init (t : Table) : init_fs cfg = some t → Reachable cfg t
  | create (t : Table) (name : List Char) (nodeType : type) :
      Reachable cfg t → Reachable cfg (create cfg t name nodeType).1
  | delete (t : Table) (name : List Char) :
      Reachable cfg t → Reachable cfg (delete cfg t name).1
  | move (t : Table) (src dest : List Char) :
      Reachable cfg t → Reachable cfg (move cfg t src dest).1

open Status in
/-- The part of `move` that follows the two traversals (validation and commit), as a
function of the two parent ids they returned. -/
def move_commit (cfg : Config) (t : Table) (sparent_inumber dparent_inumber : Int)
    (schild_name dchild_name : List Char) : Table × Status :=
  if sparent_inumber < 0 ∨ dparent_inumber < 0 then
    (t, TECNICOFS_ERROR_INVALID_PARENT_DIR)
  else
    let gd := inode_get cfg t dparent_inumber T_NONE none
    let dType := gd.2.1
    let ddata := gd.2.2
    if dType ≠ T_DIRECTORY ∨ lookup_sub_node dchild_name ddata ≠ FAIL then
      (t, TECNICOFS_ERROR_FILE_ALREADY_EXISTS)
    else
      let gs := inode_get cfg t sparent_inumber T_NONE none
      let sType := gs.2.1
      let sdata := gs.2.2
      let moved_inumber := lookup_sub_node schild_name sdata
      if sType ≠ T_DIRECTORY ∨ moved_inumber = FAIL then
        (t, TECNICOFS_ERROR_FILE_NOT_FOUND)
      else
        let r := dir_remove_entry cfg t sparent_inumber moved_inumber
        let a := dir_add_entry cfg r.1 dparent_inumber moved_inumber dchild_name
        (a.1, Status.SUCCESS)

/-- The test of `move` that rejects the root-level self-move. -/
def move_to_itself (sparent_name schild_name dparent_name : List Char) : Bool :=
  if dparent_name.head? = some '/' then
    decide (schild_name = dparent_name.tail) && decide (sparent_name = [])
  else decide (schild_name = dparent_name) && decide (sparent_name = [])

/-! ## Auxiliary definitions for the proofs -/

/-- The ids that the `while` loops of `lookup` and `aux_lookup` step through when every
`inode_get` succeeds: starting at node `cur`, the tokens are looked up one after the other
in the payload of the node reached so far. -/
def resolve (t : Table) : List (List Char) → Int → Int
  | [], cur => cur
  | path :: rest, cur =>
    if lookup_sub_node path (dataOf t cur) = FAIL then FAIL
    else resolve t rest (lookup_sub_node path (dataOf t cur))

open Status in
/-- The part of `create` that follows the traversal, as a function of the parent id it
returned. -/
def create_at (cfg : Config) (t : Table) (parent_inumber : Int) (child_name : List Char)
    (nodeType : type) : Table × Status :=
  if parent_inumber = FAIL then (t, TECNICOFS_ERROR_INVALID_PARENT_DIR)
  else
    let g := inode_get cfg t parent_inumber T_NONE none
    let pType := g.2.1
    let pdata := g.2.2
    if pType ≠ T_DIRECTORY then (t, TECNICOFS_ERROR_PARENT_NOT_DIR)
    else if lookup_sub_node child_name pdata ≠ FAIL then
      (t, TECNICOFS_ERROR_FILE_ALREADY_EXISTS)
    else
      let c := inode_create cfg t nodeType
      let child_inumber := c.2
      if child_inumber = FAIL then (c.1, TECNICOFS_ERROR_COULDNT_ALLOCATE_INODE)
      else
        let a := dir_add_entry cfg c.1 parent_inumber child_inumber child_name
        if a.2 = FAIL then (a.1, TECNICOFS_ERROR_COULDNT_ADD_ENTRY)
        else (a.1, Status.SUCCESS)

open Status in
/-- The part of `delete` that follows the traversal, as a function of the parent id it
returned. -/
def delete_at (cfg : Config) (t : Table) (parent_inumber : Int) (child_name : List Char) :
    Table × Status :=
  if parent_inumber = FAIL then (t, TECNICOFS_ERROR_INVALID_PARENT_DIR)
  else
    let g := inode_get cfg t parent_inumber T_NONE none
    let pType := g.2.1
    let pdata := g.2.2
    if pType ≠ T_DIRECTORY then (t, TECNICOFS_ERROR_PARENT_NOT_DIR)
    else
      let child_inumber := lookup_sub_node child_name pdata
      if child_inumber = FAIL then (t, TECNICOFS_ERROR_DOESNT_EXIST_IN_DIR)
      else
        let gc := inode_get cfg t child_inumber T_NONE none
        let cType := gc.2.1
        let cdata := gc.2.2
        if cType = T_DIRECTORY ∧ is_dir_empty cdata = FAIL then
          (t, TECNICOFS_ERROR_DIR_NOT_EMPTY)
        else
          let r := dir_reset_entry cfg t parent_inumber child_inumber
          if r.2 = FAIL then (r.1, TECNICOFS_ERROR_FAILED_REMOVE_FROM_DIR)
          else
            let d := inode_delete cfg r.1 child_inumber
            if d.2 = FAIL then (d.1, TECNICOFS_ERROR_FAILED_DELETE_INODE)
            else (d.1, Status.SUCCESS)

/-- A path component: a non-empty name without `'/'`. -/
def is_component (c : List Char) : Prop := c ≠ [] ∧ '/' ∉ c

/-- The components joined by single `'/'` characters. -/
def join_components : List (List Char) → List Char
  | [] => []
  | [c] => c
  | c :: c1 :: cs => c ++ '/' :: join_components (c1 :: cs)

/-- The path made of the given components separated by single `'/'` characters, with a
leading `'/'` when `leading` is set. -/
def path_of (leading : Bool) (cs : List (List Char)) : List Char :=
  if leading then '/' :: join_components cs else join_components cs

/-- The facts about a call of `move` in which both `dir_remove_entry` and
`dir_add_entry` succeed: the entry `(schild, m)` sits in cell `j` of the source parent
`ps`, whose array is `es_s`; after its removal the destination parent `pd` has the array
`es_d` with the free cell `i0`; `t1` is the table after the call. -/
structure MoveDone (t : Table) (ps pd : Int) (schild dchild : List Char) (m : Int)
    (es_s : List DirEntry) (j : Nat) (es_d : List DirEntry) (i0 : Nat) (t1 : Table) : Prop where
  hpd : nodeTypeOf t pd = T_DIRECTORY
  hdc : lookup_sub_node dchild (dataOf t pd) = FAIL
  hps : nodeTypeOf t ps = T_DIRECTORY
  hes : dataOf t ps = some es_s
  hj : es_s[j]? = some ⟨schild, m⟩
  hm : m ≠ FREE_INODE
  hesd : dataOf (setSlot t ps ⟨T_DIRECTORY, some (es_s.set j ⟨[], FREE_INODE⟩)⟩) pd = some es_d
  hi0 : ∃ e1, es_d[i0]? = some e1 ∧ e1.inumber = FREE_INODE
  ht1 : t1 = setSlot (setSlot t ps ⟨T_DIRECTORY, some (es_s.set j ⟨[], FREE_INODE⟩)⟩) pd
    ⟨T_DIRECTORY, some (es_d.set i0 ⟨dchild, m⟩)⟩

/-- The path `q` of the specification of the splitter: the path after removal of one
trailing `'/'`. -/
def strip_trailing_slash (p : List Char) : List Char :=
  if p.getLast? = some '/' then p.dropLast else p

/-- The internal separators of `q` in the words of the specification: the indices of a
`'/'` of `q` that is followed by at least one further character, in increasing order. -/
def internal_separators (q : List Char) : List Nat :=
  (List.range q.length).filter (fun i => decide (q[i]? = some '/') && decide (i + 1 < q.length))

/-- The result of the splitter in the words of the specification: without an internal
separator the parent is empty, the child is `q` and the depth is 0; otherwise the parent
is the prefix of `q` before the last internal separator, the child the suffix after it and
the depth the number of internal separators. -/
def split_spec (p : List Char) : List Char × List Char × Nat :=
  match (internal_separators (strip_trailing_slash p)).getLast? with
  | none => ([], strip_trailing_slash p, 0)
  | some last =>
    ((strip_trailing_slash p).take last, (strip_trailing_slash p).drop (last + 1),
      (internal_separators (strip_trailing_slash p)).length)

/-! ## Directory entries of a table and the structural invariant -/

/-- The entry `inode_table[d].data.dirEntries[i]` of a slot `d` that is a directory. -/
def entryAt (t : Table) (d : Int) (i : Nat) : Option DirEntry :=
  if nodeTypeOf t d = T_DIRECTORY then
    match dataOf t d with
    | some es => es[i]?
    | none => none
  else none

/-- Cell `i` of directory `d` holds the live entry `e` (its `inumber` is not
`FREE_INODE`). -/
def LiveEntry (t : Table) (d : Int) (i : Nat) (e : DirEntry) : Prop :=
  entryAt t d i = some e ∧ e.inumber ≠ FREE_INODE

/-- The structural invariant kept by `create`, `delete` and `move`. -/
structure Inv (cfg : Config) (t : Table) : Prop where
  length_eq : t.length = cfg.INODE_TABLE_SIZE
  root_dir : nodeTypeOf t FS_ROOT = T_DIRECTORY
  dir_data : ∀ d, nodeTypeOf t d = T_DIRECTORY →
    ∃ es, dataOf t d = some es ∧ es.length = cfg.MAX_DIR_ENTRIES
  file_data : ∀ d, nodeTypeOf t d = T_FILE → dataOf t d = none
  valid : ∀ d i e, LiveEntry t d i e →
    0 < e.inumber ∧ e.inumber < (cfg.INODE_TABLE_SIZE : Int) ∧ nodeTypeOf t e.inumber ≠ T_NONE
  uniq : ∀ d i e d2 i2 e2, LiveEntry t d i e → LiveEntry t d2 i2 e2 →
    e.inumber = e2.inumber → d = d2 ∧ i = i2
  names : ∀ d i j e e2, LiveEntry t d i e → LiveEntry t d j e2 → e.name = e2.name → i = j
  name_ne : ∀ d i e, LiveEntry t d i e → e.name ≠ []
  free_name : ∀ d i e, entryAt t d i = some e → e.inumber = FREE_INODE → e.name = []

/-- A concrete configuration: 50 slots, 20 entries per directory, and `-2` for
`TECNICOFS_ERROR_FILE_NOT_FOUND`. -/
def cfg0 : Config := ⟨50, 20, -2⟩

/-! ## Concrete tables used to evaluate the code -/

/-- The table `init_fs` leaves behind under `cfg0`. -/
def tInit : Table := (inode_create cfg0 (inode_table_init cfg0) T_DIRECTORY).1

/-- The table after `create("/a", T_FILE)` on `tInit`. -/
def tA : Table := (create cfg0 tInit "/a".toList T_FILE).1

/-- The table after `create("/d", T_DIRECTORY)` and then `create` of the twenty files
`/d/a`, ..., `/d/t`: directory `/d` (slot 1) has `MAX_DIR_ENTRIES` live entries. -/
def tFull : Table :=
  ("abcdefghijklmnopqrst".toList).foldl
    (fun t c => (create cfg0 t ("/d/".toList ++ [c]) T_FILE).1)
    (create cfg0 tInit "/d".toList T_DIRECTORY).1

/-- The table `tFull` after `create("/x", T_FILE)`: the file `/x` is slot 22. -/
def tFullX : Table := (create cfg0 tFull "/x".toList T_FILE).1

/-- The table after `create("/a", T_DIRECTORY)` and `create("/a/b", T_DIRECTORY)` on
`tInit`: `/a` is slot 1 and `/a/b` is slot 2. -/
def tAB : Table :=
  (create cfg0 (create cfg0 tInit "/a".toList T_DIRECTORY).1 "/a/b".toList T_DIRECTORY).1

/-- The table after `create("/x", T_FILE)`, `create("/a", T_FILE)` and `delete("/x")` on
`tInit`: cell 0 of the root is free again and cell 1 holds `("a", 2)`. -/
def tGap : Table :=
  (delete cfg0 (create cfg0 (create cfg0 tInit "/x".toList T_FILE).1 "/a".toList T_FILE).1
    "/x".toList).1

/-- A table without a `T_NONE` slot, built on `tFull` (slots 0 to 21 in use) by
`create("/e", T_DIRECTORY)`, `create` of the twenty files `/e/a`, ..., `/e/t` and `create`
of the seven files `/f`, ..., `/l` in the root. -/
def tAllUsed : Table :=
  ("fghijkl".toList).foldl
    (fun t c => (create cfg0 t ("/".toList ++ [c]) T_FILE).1)
    (("abcdefghijklmnopqrst".toList).foldl
      (fun t c => (create cfg0 t ("/e/".toList ++ [c]) T_FILE).1)
      (create cfg0 tFull "/e".toList T_DIRECTORY).1)

/-- The table after `inode_create(T_FILE)`, `dir_add_entry(0, 1, "a")` and
`inode_delete(1)` on the initial table: the root keeps the entry `("a", 1)` while slot 1
is `T_NONE`. -/
def tDangling : Table :=
  (inode_delete cfg0
    (dir_add_entry cfg0 (inode_create cfg0 tInit T_FILE).1 0 1 "a".toList).1 1).1

end TecnicoFS

/-! ## Entry arrays: the loops of the directory primitives -/

namespace TecnicoFS
open type

theorem add_first_spec (sub : Int) (name : List Char) :
    ∀ (es es1 : List DirEntry), add_first sub name es = some es1 →
      ∃ j e0, es[j]? = some e0 ∧ e0.inumber = FREE_INODE ∧
        (∀ k, k < j → ∀ e, es[k]? = some e → e.inumber ≠ FREE_INODE) ∧
        es1 = es.set j ⟨name, sub⟩ := by
  intro es
  induction es with
  | nil => intro es1 h; simp [add_first] at h
  | cons e es ih =>
    intro es1 h
    unfold add_first at h
    split_ifs at h with hf
    · refine ⟨0, e, by simp, hf, ?_, ?_⟩
      · intro k hk; omega
      · simp at h; simp [h]
    · cases hr : add_first sub name es with
      | none => simp [hr] at h
      | some r =>
        simp [hr] at h
        obtain ⟨j, e0, h1, h2, h3, h4⟩ := ih r hr
        refine ⟨j + 1, e0, by simpa using h1, h2, ?_, ?_⟩
        · intro k hk e1 he1
          cases k with
          | zero => simp at he1; subst he1; exact hf
          | succ k => simp at he1; exact h3 k (by omega) e1 he1
        · simp [← h, h4]

theorem add_first_eq_none (sub : Int) (name : List Char) :
    ∀ (es : List DirEntry), add_first sub name es = none ↔
      ∀ e ∈ es, e.inumber ≠ FREE_INODE := by
  intro es
  induction es with
  | nil => simp [add_first]
  | cons e es ih =>
    unfold add_first
    split_ifs with hf
    · simp [hf]
    · simp [ih, hf]

theorem reset_first_spec (sub : Int) :
    ∀ (es es1 : List DirEntry), reset_first sub es = some es1 →
      ∃ j e0, es[j]? = some e0 ∧ e0.inumber = sub ∧
        (∀ k, k < j → ∀ e, es[k]? = some e → e.inumber ≠ sub) ∧
        es1 = es.set j ⟨[], FREE_INODE⟩ := by
  intro es
  induction es with
  | nil => intro es1 h; simp [reset_first] at h
  | cons e es ih =>
    intro es1 h
    unfold reset_first at h
    split_ifs at h with hf
    · refine ⟨0, e, by simp, hf, ?_, ?_⟩
      · intro k hk; omega
      · simp at h; simp [h]
    · cases hr : reset_first sub es with
      | none => simp [hr] at h
      | some r =>
        simp [hr] at h
        obtain ⟨j, e0, h1, h2, h3, h4⟩ := ih r hr
        refine ⟨j + 1, e0, by simpa using h1, h2, ?_, ?_⟩
        · intro k hk e1 he1
          cases k with
          | zero => simp at he1; subst he1; exact hf
          | succ k => simp at he1; exact h3 k (by omega) e1 he1
        · simp [← h, h4]

theorem reset_first_eq_none (sub : Int) :
    ∀ (es : List DirEntry), reset_first sub es = none ↔ ∀ e ∈ es, e.inumber ≠ sub := by
  intro es
  induction es with
  | nil => simp [reset_first]
  | cons e es ih =>
    unfold reset_first
    split_ifs with hf
    · simp [hf]
    · simp [ih, hf]

theorem lookup_sub_node_loop_eq_FAIL (name : List Char) :
    ∀ (es : List DirEntry), lookup_sub_node_loop name es = FAIL ↔
      ∀ e ∈ es, e.inumber ≠ FREE_INODE → e.name ≠ name := by
  intro es
  induction es with
  | nil => simp [lookup_sub_node_loop]
  | cons e es ih =>
    unfold lookup_sub_node_loop
    split_ifs with hf
    · constructor
      · intro h; exact absurd h hf.1
      · intro h; exact absurd hf.2 (h e (by simp) hf.1)
    · rw [ih]
      constructor
      · intro h e1 he1
        rcases List.mem_cons.1 he1 with rfl | he1
        · intro h1 h2; exact hf ⟨h1, h2⟩
        · exact h e1 he1
      · intro h e1 he1; exact h e1 (List.mem_cons_of_mem _ he1)

theorem lookup_sub_node_loop_found (name : List Char) :
    ∀ (es : List DirEntry), lookup_sub_node_loop name es ≠ FAIL →
      ∃ (j : Nat) (e : DirEntry), es[j]? = some e ∧
        e.inumber = lookup_sub_node_loop name es ∧ e.name = name ∧
        e.inumber ≠ FREE_INODE ∧
        (∀ k, k < j → ∀ e1 : DirEntry, es[k]? = some e1 →
          ¬ (e1.inumber ≠ FREE_INODE ∧ e1.name = name)) := by
  intro es
  induction es with
  | nil => intro h; simp [lookup_sub_node_loop] at h
  | cons e es ih =>
    intro h
    unfold lookup_sub_node_loop at h ⊢
    split_ifs at h ⊢ with hf
    · refine ⟨0, e, by simp, rfl, hf.2, hf.1, ?_⟩
      intro k hk; omega
    · obtain ⟨j, e0, h1, h2, h3, h4, h5⟩ := ih h
      refine ⟨j + 1, e0, by simpa using h1, h2, h3, h4, ?_⟩
      intro k hk e1 he1
      cases k with
      | zero => simp at he1; subst he1; exact hf
      | succ k => simp at he1; exact h5 k (by omega) e1 he1

end TecnicoFS

/-! ## Reading and writing slots -/

namespace TecnicoFS
open type

theorem slot_set (t : Table) (c : Nat) (n : inode_t) (x : Int) :
    slot (t.set c n) x = if x = (c : Int) ∧ c < t.length then some n else slot t x := by
  unfold slot
  by_cases hx : x < 0
  · have : ¬ x = (c : Int) := by omega
    simp [hx, this]
  · simp only [hx, if_false]
    by_cases hc : x = (c : Int)
    · subst hc
      simp only [Int.toNat_ofNat]
      by_cases hl : c < t.length
      · simp [hl]
      · have h1 : t.length ≤ c := by omega
        have h2 : (t.set c n)[c]? = none := List.getElem?_eq_none (by simpa using h1)
        have h3 : t[c]? = none := List.getElem?_eq_none h1
        simp [hl, h2, h3]
    · have : c ≠ x.toNat := by omega
      simp [hc, List.getElem?_set_ne this]

theorem slot_setSlot (t : Table) (p : Int) (n : inode_t) (x : Int) (hp : 0 ≤ p) :
    slot (setSlot t p n) x = if x = p ∧ p.toNat < t.length then some n else slot t x := by
  unfold setSlot
  have h1 : ¬ p < 0 := by omega
  simp only [h1, if_false]
  rw [slot_set]
  have h2 : ((p.toNat : Nat) : Int) = p := Int.toNat_of_nonneg hp
  rw [h2]

theorem length_setSlot (t : Table) (p : Int) (n : inode_t) :
    (setSlot t p n).length = t.length := by
  unfold setSlot; split_ifs <;> simp

theorem nodeTypeOf_eq_of_slot {t : Table} {x : Int} {n : inode_t} (h : slot t x = some n) :
    nodeTypeOf t x = n.nodeType := by
  simp [nodeTypeOf, h]

theorem dataOf_eq_of_slot {t : Table} {x : Int} {n : inode_t} (h : slot t x = some n) :
    dataOf t x = n.data := by
  simp [dataOf, h]

theorem slot_isSome_of_nodeType {t : Table} {x : Int} (h : nodeTypeOf t x ≠ T_NONE) :
    ∃ n, slot t x = some n ∧ 0 ≤ x ∧ x.toNat < t.length := by
  unfold nodeTypeOf at h
  cases hs : slot t x with
  | none => simp [hs] at h
  | some n =>
    refine ⟨n, rfl, ?_⟩
    unfold slot at hs
    split_ifs at hs with hx
    have := List.getElem?_eq_some.1 hs
    obtain ⟨hl, _⟩ := this
    omega

theorem nodeTypeOf_setSlot (t : Table) (p : Int) (n : inode_t) (x : Int) (hp : 0 ≤ p)
    (hl : p.toNat < t.length) :
    nodeTypeOf (setSlot t p n) x = if x = p then n.nodeType else nodeTypeOf t x := by
  unfold nodeTypeOf
  rw [slot_setSlot t p n x hp]
  by_cases hx : x = p <;> simp [hx, hl]

theorem dataOf_setSlot (t : Table) (p : Int) (n : inode_t) (x : Int) (hp : 0 ≤ p)
    (hl : p.toNat < t.length) :
    dataOf (setSlot t p n) x = if x = p then n.data else dataOf t x := by
  unfold dataOf
  rw [slot_setSlot t p n x hp]
  by_cases hx : x = p <;> simp [hx, hl]

theorem set_eq_setSlot (t : Table) (c : Nat) (n : inode_t) :
    t.set c n = setSlot t (c : Int) n := by
  unfold setSlot
  have : ¬ (c : Int) < 0 := by omega
  simp [this]

theorem first_none_spec :
    ∀ (t : List inode_t) (i r : Nat), first_none t i = some r →
      ∃ c n, r = i + c ∧ t[c]? = some n ∧ n.nodeType = T_NONE ∧
        ∀ k, k < c → ∀ m, t[k]? = some m → m.nodeType ≠ T_NONE := by
  intro t
  induction t with
  | nil => intro i r h; simp [first_none] at h
  | cons a t ih =>
    intro i r h
    unfold first_none at h
    split_ifs at h with ha
    · refine ⟨0, a, by simp at h; omega, by simp, ha, ?_⟩
      intro k hk; omega
    · obtain ⟨c, n, h1, h2, h3, h4⟩ := ih (i + 1) r h
      refine ⟨c + 1, n, by omega, by simpa using h2, h3, ?_⟩
      intro k hk m hm
      cases k with
      | zero => simp at hm; subst hm; exact ha
      | succ k => simp at hm; exact h4 k (by omega) m hm

theorem first_none_eq_none :
    ∀ (t : List inode_t) (i : Nat), first_none t i = none ↔ ∀ n ∈ t, n.nodeType ≠ T_NONE := by
  intro t
  induction t with
  | nil => simp [first_none]
  | cons a t ih =>
    intro i
    unfold first_none
    split_ifs with ha
    · simp [ha]
    · simp [ih, ha]

/-- What `inode_create` does: either no slot is `T_NONE`, the table is unchanged and the
result is `FAIL`; or slot `c`, the first `T_NONE` slot, is overwritten. -/
theorem inode_create_spec (cfg : Config) (t : Table) (nType : type) :
    (inode_create cfg t nType = (t, FAIL) ∧ ∀ n ∈ t, n.nodeType ≠ T_NONE) ∨
    (∃ c : Nat, c < t.length ∧ nodeTypeOf t c = T_NONE ∧
      (∀ k : Nat, k < c → nodeTypeOf t k ≠ T_NONE) ∧
      inode_create cfg t nType = (setSlot t c ⟨nType, fresh_data cfg nType⟩, (c : Int))) := by
  unfold inode_create
  cases h : first_none t 0 with
  | none =>
    left
    exact ⟨rfl, (first_none_eq_none t 0).1 h⟩
  | some r =>
    right
    obtain ⟨c, n, h1, h2, h3, h4⟩ := first_none_spec t 0 r h
    have hrc : r = c := by omega
    subst hrc
    have hl : r < t.length := (List.getElem?_eq_some.1 h2).1
    have hs : ∀ k : Nat, slot t (k : Int) = t[k]? := by
      intro k
      unfold slot
      have : ¬ (k : Int) < 0 := by omega
      simp [this]
    refine ⟨r, hl, ?_, ?_, ?_⟩
    · simp [nodeTypeOf, hs, h2, h3]
    · intro k hk
      have hkl : k < t.length := by omega
      have : t[k]? = some t[k] := List.getElem?_eq_getElem hkl
      simp only [nodeTypeOf, hs, this]
      exact h4 k hk _ this
    · simp [set_eq_setSlot]

end TecnicoFS

/-! ## Facts about the invariant -/

namespace TecnicoFS
open type

theorem nodeType_in_range {cfg : Config} {t : Table} (hlen : t.length = cfg.INODE_TABLE_SIZE)
    {x : Int} (h : nodeTypeOf t x ≠ T_NONE) :
    0 ≤ x ∧ x < (cfg.INODE_TABLE_SIZE : Int) ∧ x.toNat < t.length := by
  obtain ⟨n, _, h1, h2⟩ := slot_isSome_of_nodeType h
  refine ⟨h1, ?_, h2⟩
  omega

theorem invalid_inumber_eq_false {cfg : Config} {t : Table} {x : Int}
    (h : invalid_inumber cfg t x = false) :
    0 ≤ x ∧ x.toNat < t.length ∧ nodeTypeOf t x ≠ T_NONE := by
  unfold invalid_inumber at h
  simp at h
  obtain ⟨⟨h1, _⟩, h3⟩ := h
  obtain ⟨n, _, h4, h5⟩ := slot_isSome_of_nodeType h3
  exact ⟨h1, h5, h3⟩

theorem invalid_inumber_of_valid {cfg : Config} {t : Table} {x : Int}
    (hlen : t.length = cfg.INODE_TABLE_SIZE) (h : nodeTypeOf t x ≠ T_NONE) :
    invalid_inumber cfg t x = false := by
  obtain ⟨h1, h2, _⟩ := nodeType_in_range hlen h
  unfold invalid_inumber
  simp [h]
  omega

/-- Writing a new entry array into a directory slot changes no node type. -/
theorem nodeTypeOf_set_entries {t : Table} {p : Int} (hp : nodeTypeOf t p = T_DIRECTORY)
    (es1 : List DirEntry) (x : Int) :
    nodeTypeOf (setSlot t p ⟨T_DIRECTORY, some es1⟩) x = nodeTypeOf t x := by
  obtain ⟨n, _, h1, h2⟩ := @slot_isSome_of_nodeType t p (by simp [hp])
  rw [nodeTypeOf_setSlot t p _ x h1 h2]
  split_ifs with hx
  · subst hx; simp [hp]
  · rfl

theorem dataOf_set_entries {t : Table} {p : Int} (hp : nodeTypeOf t p = T_DIRECTORY)
    (es1 : List DirEntry) (x : Int) :
    dataOf (setSlot t p ⟨T_DIRECTORY, some es1⟩) x =
      if x = p then some es1 else dataOf t x := by
  obtain ⟨n, _, h1, h2⟩ := @slot_isSome_of_nodeType t p (by simp [hp])
  rw [dataOf_setSlot t p _ x h1 h2]

/-- Overwriting cell `j` of directory `p` changes that cell only. -/
theorem entryAt_set_entry {t : Table} {p : Int} {es : List DirEntry} {j : Nat} {e0 : DirEntry}
    (hp : nodeTypeOf t p = T_DIRECTORY) (hes : dataOf t p = some es) (hj : es[j]? = some e0)
    (enew : DirEntry) (d : Int) (i : Nat) :
    entryAt (setSlot t p ⟨T_DIRECTORY, some (es.set j enew)⟩) d i =
      if d = p ∧ i = j then some enew else entryAt t d i := by
  unfold entryAt
  rw [nodeTypeOf_set_entries hp, dataOf_set_entries hp]
  have hjl : j < es.length := (List.getElem?_eq_some.1 hj).1
  by_cases hd : d = p
  · subst hd
    simp only [hp, if_true, hes, true_and]
    by_cases hi : i = j
    · subst hi
      simp [hjl]
    · have : j ≠ i := fun h => hi h.symm
      simp [hi, List.getElem?_set_ne this]
  · simp [hd]

end TecnicoFS

namespace TecnicoFS
open type

theorem liveEntry_set_entry {t : Table} {p : Int} {es : List DirEntry} {j : Nat} {e0 : DirEntry}
    (hp : nodeTypeOf t p = T_DIRECTORY) (hes : dataOf t p = some es) (hj : es[j]? = some e0)
    (enew : DirEntry) (d : Int) (i : Nat) (e : DirEntry) :
    LiveEntry (setSlot t p ⟨T_DIRECTORY, some (es.set j enew)⟩) d i e ↔
      ((d = p ∧ i = j) ∧ e = enew ∧ enew.inumber ≠ FREE_INODE) ∨
      (¬ (d = p ∧ i = j) ∧ LiveEntry t d i e) := by
  unfold LiveEntry
  rw [entryAt_set_entry hp hes hj]
  by_cases h : d = p ∧ i = j
  · simp only [h, and_self, if_true, true_and, not_true_eq_false, false_and, or_false]
    constructor
    · rintro ⟨h1, h2⟩
      have : enew = e := by simpa using h1
      subst this
      exact ⟨rfl, h2⟩
    · rintro ⟨h1, h2⟩
      subst h1
      exact ⟨rfl, h2⟩
  · simp [h]

/-- Overwriting one cell of a directory keeps the invariant when the new content is a
cleared entry, or a live entry with a valid, so far unreferenced id and a name that is new
in that directory. -/
theorem Inv_set_entry {cfg : Config} {t : Table} {p : Int} {es : List DirEntry} {j : Nat}
    {e0 : DirEntry} (hI : Inv cfg t)
    (hp : nodeTypeOf t p = T_DIRECTORY) (hes : dataOf t p = some es) (hj : es[j]? = some e0)
    (enew : DirEntry)
    (hnew : (enew.inumber = FREE_INODE ∧ enew.name = []) ∨
      (0 < enew.inumber ∧ enew.inumber < (cfg.INODE_TABLE_SIZE : Int) ∧
        nodeTypeOf t enew.inumber ≠ T_NONE ∧ enew.name ≠ [] ∧
        ∀ d i e, LiveEntry t d i e → ¬ (d = p ∧ i = j) →
          e.inumber ≠ enew.inumber ∧ (d = p → e.name ≠ enew.name))) :
    Inv cfg (setSlot t p ⟨T_DIRECTORY, some (es.set j enew)⟩) := by
  have hlive := fun d i e => liveEntry_set_entry hp hes hj enew d i e
  have hnt := fun x => nodeTypeOf_set_entries hp (es.set j enew) x
  have hdt := fun x => dataOf_set_entries hp (es.set j enew) x
  have hnewlive : enew.inumber ≠ FREE_INODE →
      0 < enew.inumber ∧ enew.inumber < (cfg.INODE_TABLE_SIZE : Int) ∧
        nodeTypeOf t enew.inumber ≠ T_NONE ∧ enew.name ≠ [] ∧
        ∀ d i e, LiveEntry t d i e → ¬ (d = p ∧ i = j) →
          e.inumber ≠ enew.inumber ∧ (d = p → e.name ≠ enew.name) := by
    intro h
    rcases hnew with h1 | h1
    · exact absurd h1.1 h
    · exact h1
  constructor
  · rw [length_setSlot]; exact hI.length_eq
  · rw [hnt]; exact hI.root_dir
  · intro d hd
    rw [hnt] at hd
    rw [hdt]
    split_ifs with hdp
    · obtain ⟨es0, h1, h2⟩ := hI.dir_data p hp
      rw [hes] at h1
      have : es = es0 := by simpa using h1
      subst this
      exact ⟨_, rfl, by simpa using h2⟩
    · exact hI.dir_data d hd
  · intro d hd
    rw [hnt] at hd
    rw [hdt]
    have : d ≠ p := by
      intro h; subst h; rw [hp] at hd; exact absurd hd (by decide)
    simp [this, hI.file_data d hd]
  · intro d i e h
    rw [hnt]
    rcases (hlive d i e).1 h with ⟨_, h2, h3⟩ | ⟨_, h2⟩
    · subst h2
      obtain ⟨a, b, c, _⟩ := hnewlive h3
      exact ⟨a, b, c⟩
    · exact hI.valid d i e h2
  · intro d i e d2 i2 e2 h h2 heq
    rcases (hlive d i e).1 h with ⟨a1, a2, a3⟩ | ⟨a1, a2⟩
    · rcases (hlive d2 i2 e2).1 h2 with ⟨b1, b2, b3⟩ | ⟨b1, b2⟩
      · exact ⟨by rw [a1.1, b1.1], by rw [a1.2, b1.2]⟩
      · subst a2
        exact absurd heq.symm ((hnewlive a3).2.2.2.2 d2 i2 e2 b2 b1).1
    · rcases (hlive d2 i2 e2).1 h2 with ⟨b1, b2, b3⟩ | ⟨b1, b2⟩
      · subst b2
        exact absurd heq ((hnewlive b3).2.2.2.2 d i e a2 a1).1
      · exact hI.uniq d i e d2 i2 e2 a2 b2 heq
  · intro d i k e e2 h h2 heq
    rcases (hlive d i e).1 h with ⟨a1, a2, a3⟩ | ⟨a1, a2⟩
    · rcases (hlive d k e2).1 h2 with ⟨b1, b2, b3⟩ | ⟨b1, b2⟩
      · rw [a1.2, b1.2]
      · subst a2
        exact absurd heq.symm (((hnewlive a3).2.2.2.2 d k e2 b2 b1).2 a1.1)
    · rcases (hlive d k e2).1 h2 with ⟨b1, b2, b3⟩ | ⟨b1, b2⟩
      · subst b2
        exact absurd heq (((hnewlive b3).2.2.2.2 d i e a2 a1).2 b1.1)
      · exact hI.names d i k e e2 a2 b2 heq
  · intro d i e h
    rcases (hlive d i e).1 h with ⟨_, h2, h3⟩ | ⟨_, h2⟩
    · subst h2
      exact (hnewlive h3).2.2.2.1
    · exact hI.name_ne d i e h2
  · intro d i e h hfree
    rw [entryAt_set_entry hp hes hj] at h
    split_ifs at h with hc
    · have : enew = e := by simpa using h
      subst this
      rcases hnew with h1 | h1
      · exact h1.2
      · have := h1.1
        rw [hfree] at this
        exact absurd this (by decide)
    · exact hI.free_name d i e h hfree

end TecnicoFS

/-! ## The directory primitives on a table -/

namespace TecnicoFS
open type

theorem dir_reset_entry_spec (cfg : Config) (t : Table) (p sub : Int) :
    dir_reset_entry cfg t p sub = (t, FAIL) ∨
    ∃ es j e0, nodeTypeOf t p = T_DIRECTORY ∧ dataOf t p = some es ∧ es[j]? = some e0 ∧
      e0.inumber = sub ∧ (∀ k, k < j → ∀ e, es[k]? = some e → e.inumber ≠ sub) ∧
      dir_reset_entry cfg t p sub =
        (setSlot t p ⟨T_DIRECTORY, some (es.set j ⟨[], FREE_INODE⟩)⟩, SUCCESS) := by
  unfold dir_reset_entry
  split_ifs with h1 h2 h3
  · left; rfl
  · left; rfl
  · left; rfl
  · cases hes : dataOf t p with
    | none => left; rfl
    | some es =>
      cases hr : reset_first sub es with
      | none => left; simp [hr]
      | some es1 =>
        right
        obtain ⟨j, e0, a1, a2, a3, a4⟩ := reset_first_spec sub es es1 hr
        subst a4
        exact ⟨es, j, e0, by simpa using h2, rfl, a1, a2, a3, by simp [hr]⟩

theorem dir_reset_entry_eq {cfg : Config} {t : Table} {p sub : Int} {es : List DirEntry}
    (hlen : t.length = cfg.INODE_TABLE_SIZE)
    (hp : nodeTypeOf t p = T_DIRECTORY) (hes : dataOf t p = some es)
    (hsub : nodeTypeOf t sub ≠ T_NONE) :
    dir_reset_entry cfg t p sub =
      match reset_first sub es with
      | some es1 => (setSlot t p ⟨T_DIRECTORY, some es1⟩, SUCCESS)
      | none => (t, FAIL) := by
  have h1 : invalid_inumber cfg t p = false := invalid_inumber_of_valid hlen (by simp [hp])
  obtain ⟨a, b, _⟩ := nodeType_in_range hlen hsub
  have h3 : ¬ sub < FREE_INODE := by unfold FREE_INODE; omega
  have h4 : ¬ sub > (cfg.INODE_TABLE_SIZE : Int) := by omega
  unfold dir_reset_entry
  simp [h1, hp, hes, h3, h4, hsub]

theorem dir_add_entry_spec (cfg : Config) (t : Table) (p sub : Int) (name : List Char) :
    dir_add_entry cfg t p sub name = (t, FAIL) ∨
    ∃ es j e0, nodeTypeOf t p = T_DIRECTORY ∧ dataOf t p = some es ∧ es[j]? = some e0 ∧
      e0.inumber = FREE_INODE ∧ (∀ k, k < j → ∀ e, es[k]? = some e → e.inumber ≠ FREE_INODE) ∧
      name ≠ [] ∧ 0 ≤ sub ∧ nodeTypeOf t sub ≠ T_NONE ∧
      dir_add_entry cfg t p sub name =
        (setSlot t p ⟨T_DIRECTORY, some (es.set j ⟨name, sub⟩)⟩, SUCCESS) := by
  unfold dir_add_entry
  split_ifs with h1 h2 h3 h4
  · left; rfl
  · left; rfl
  · left; rfl
  · left; rfl
  · cases hes : dataOf t p with
    | none => left; rfl
    | some es =>
      cases hr : add_first sub name es with
      | none => left; simp [hr]
      | some es1 =>
        right
        obtain ⟨j, e0, a1, a2, a3, a4⟩ := add_first_spec sub name es es1 hr
        subst a4
        obtain ⟨b1, _, b3⟩ := invalid_inumber_eq_false (Bool.eq_false_iff.2 h3)
        refine ⟨es, j, e0, by simpa using h2, rfl, a1, a2, a3, ?_, b1, b3, by simp [hr]⟩
        intro hn
        exact h4 (by simp [hn])

theorem dir_add_entry_eq {cfg : Config} {t : Table} {p sub : Int} {name : List Char}
    {es : List DirEntry} (hlen : t.length = cfg.INODE_TABLE_SIZE)
    (hp : nodeTypeOf t p = T_DIRECTORY) (hes : dataOf t p = some es)
    (hsub : nodeTypeOf t sub ≠ T_NONE) (hname : name ≠ []) :
    dir_add_entry cfg t p sub name =
      match add_first sub name es with
      | some es1 => (setSlot t p ⟨T_DIRECTORY, some es1⟩, SUCCESS)
      | none => (t, FAIL) := by
  have h1 : invalid_inumber cfg t p = false := invalid_inumber_of_valid hlen (by simp [hp])
  have h2 : invalid_inumber cfg t sub = false := invalid_inumber_of_valid hlen hsub
  unfold dir_add_entry
  simp [h1, h2, hp, hes, hname]

/-- The function `lookup_sub_node` fails on a directory exactly when no live entry of the
directory carries the name. -/
theorem lookup_sub_node_eq_FAIL {t : Table} {p : Int} (hp : nodeTypeOf t p = T_DIRECTORY)
    (name : List Char) :
    lookup_sub_node name (dataOf t p) = FAIL ↔ ∀ i e, LiveEntry t p i e → e.name ≠ name := by
  unfold lookup_sub_node LiveEntry entryAt
  cases hes : dataOf t p with
  | none => simp [hp]
  | some es =>
    simp only [hp, if_true]
    rw [lookup_sub_node_loop_eq_FAIL]
    constructor
    · rintro h i e ⟨h1, h2⟩
      exact h e (List.getElem?_mem h1) h2
    · intro h e he hfree
      obtain ⟨i, hi⟩ := List.getElem?_of_mem he
      exact h i e ⟨hi, hfree⟩

/-- When `lookup_sub_node` succeeds on a directory, its result is the id of the first live
entry carrying the name. -/
theorem lookup_sub_node_found {t : Table} {p : Int} (hp : nodeTypeOf t p = T_DIRECTORY)
    {name : List Char} (h : lookup_sub_node name (dataOf t p) ≠ FAIL) :
    ∃ es i e, dataOf t p = some es ∧ es[i]? = some e ∧ LiveEntry t p i e ∧
      e.inumber = lookup_sub_node name (dataOf t p) ∧ e.name = name := by
  unfold lookup_sub_node at h ⊢
  cases hes : dataOf t p with
  | none => simp [hes] at h
  | some es =>
    simp only [hes] at h
    obtain ⟨j, e, a1, a2, a3, a4, _⟩ := lookup_sub_node_loop_found name es h
    refine ⟨es, j, e, rfl, a1, ⟨?_, a4⟩, a2, a3⟩
    simp [entryAt, hp, hes, a1]

end TecnicoFS

/-! ## The primitives keep the invariant -/

namespace TecnicoFS
open type

theorem Inv_dir_reset_entry {cfg : Config} {t : Table} (hI : Inv cfg t) (p sub : Int) :
    Inv cfg (dir_reset_entry cfg t p sub).1 := by
  rcases dir_reset_entry_spec cfg t p sub with h | ⟨es, j, e0, hp, hes, hj, _, _, h⟩
  · rw [h]; exact hI
  · rw [h]
    exact Inv_set_entry hI hp hes hj _ (Or.inl ⟨rfl, rfl⟩)

theorem Inv_dir_add_entry {cfg : Config} {t : Table} (hI : Inv cfg t) (p sub : Int)
    (name : List Char) (hsub : 0 < sub)
    (hfresh : ∀ d i e, LiveEntry t d i e → e.inumber ≠ sub)
    (hname : nodeTypeOf t p = T_DIRECTORY → lookup_sub_node name (dataOf t p) = FAIL) :
    Inv cfg (dir_add_entry cfg t p sub name).1 := by
  rcases dir_add_entry_spec cfg t p sub name with h | ⟨es, j, e0, hp, hes, hj, _, _, hn, _, hs, h⟩
  · rw [h]; exact hI
  · rw [h]
    refine Inv_set_entry hI hp hes hj _ (Or.inr ⟨hsub, ?_, hs, hn, ?_⟩)
    · exact (nodeType_in_range hI.length_eq hs).2.1
    · intro d i e hl _
      refine ⟨hfresh d i e hl, ?_⟩
      intro hd
      subst hd
      exact (lookup_sub_node_eq_FAIL hp name).1 (hname hp) i e hl

theorem entryAt_of_none {t : Table} {d : Int} (h : nodeTypeOf t d = T_NONE) (i : Nat) :
    entryAt t d i = none := by
  simp [entryAt, h]

theorem Inv_inode_create {cfg : Config} {t : Table} (hI : Inv cfg t) (nType : type) :
    Inv cfg (inode_create cfg t nType).1 := by
  rcases inode_create_spec cfg t nType with ⟨h, _⟩ | ⟨c, hc, hnone, _, h⟩
  · rw [h]; exact hI
  · rw [h]
    have hc0 : (0 : Int) ≤ (c : Int) := by omega
    have hcl : ((c : Int)).toNat < t.length := by simpa using hc
    have hnt := fun x => nodeTypeOf_setSlot t c ⟨nType, fresh_data cfg nType⟩ x hc0 hcl
    have hdt := fun x => dataOf_setSlot t c ⟨nType, fresh_data cfg nType⟩ x hc0 hcl
    have hent : ∀ d i e,
        entryAt (setSlot t c ⟨nType, fresh_data cfg nType⟩) d i = some e →
        (d = (c : Int) ∧ e = ⟨[], FREE_INODE⟩) ∨ (d ≠ (c : Int) ∧ entryAt t d i = some e) := by
      intro d i e he
      unfold entryAt at he
      rw [hnt, hdt] at he
      by_cases hd : d = (c : Int)
      · left
        refine ⟨hd, ?_⟩
        simp only [hd, if_true] at he
        split_ifs at he with hk
        simp only [fresh_data, hk, if_true] at he
        have := List.getElem?_mem he
        exact (List.eq_of_mem_replicate this)
      · right
        refine ⟨hd, ?_⟩
        simp only [hd, if_false] at he
        unfold entryAt
        exact he
    have hlive : ∀ d i e, LiveEntry (setSlot t c ⟨nType, fresh_data cfg nType⟩) d i e →
        LiveEntry t d i e := by
      rintro d i e ⟨h1, h2⟩
      rcases hent d i e h1 with ⟨_, h3⟩ | ⟨_, h3⟩
      · subst h3; exact absurd rfl h2
      · exact ⟨h3, h2⟩
    constructor
    · rw [length_setSlot]; exact hI.length_eq
    · rw [hnt]
      have : FS_ROOT ≠ (c : Int) := by
        intro h0; rw [← h0, hI.root_dir] at hnone; exact absurd hnone (by decide)
      simp [this, hI.root_dir]
    · intro d hd
      rw [hnt] at hd
      rw [hdt]
      split_ifs at hd ⊢ with hdc
      · simp only at hd
        subst hd
        exact ⟨List.replicate cfg.MAX_DIR_ENTRIES ⟨[], FREE_INODE⟩, by simp [fresh_data],
          by simp⟩
      · exact hI.dir_data d hd
    · intro d hd
      rw [hnt] at hd
      rw [hdt]
      split_ifs at hd ⊢ with hdc
      · simp only at hd
        subst hd
        simp [fresh_data]
      · exact hI.file_data d hd
    · intro d i e hl
      obtain ⟨a, b, c1⟩ := hI.valid d i e (hlive d i e hl)
      refine ⟨a, b, ?_⟩
      rw [hnt]
      have : e.inumber ≠ (c : Int) := by
        intro h0; rw [h0] at c1; exact c1 hnone
      simp [this, c1]
    · intro d i e d2 i2 e2 h1 h2 heq
      exact hI.uniq d i e d2 i2 e2 (hlive _ _ _ h1) (hlive _ _ _ h2) heq
    · intro d i j e e2 h1 h2 heq
      exact hI.names d i j e e2 (hlive _ _ _ h1) (hlive _ _ _ h2) heq
    · intro d i e h1
      exact hI.name_ne d i e (hlive _ _ _ h1)
    · intro d i e h1 hf
      rcases hent d i e h1 with ⟨_, h3⟩ | ⟨_, h3⟩
      · subst h3; rfl
      · exact hI.free_name d i e h3 hf

theorem Inv_inode_delete {cfg : Config} {t : Table} (hI : Inv cfg t) (x : Int)
    (hx : x ≠ FS_ROOT) (hfresh : ∀ d i e, LiveEntry t d i e → e.inumber ≠ x) :
    Inv cfg (inode_delete cfg t x).1 := by
  unfold inode_delete
  split_ifs with hg
  · exact hI
  · obtain ⟨h0, hl, _⟩ := invalid_inumber_eq_false (Bool.eq_false_iff.2 hg)
    simp only
    have hnt := fun y => nodeTypeOf_setSlot t x ⟨T_NONE, dataOf t x⟩ y h0 hl
    have hdt := fun y => dataOf_setSlot t x ⟨T_NONE, dataOf t x⟩ y h0 hl
    have hent : ∀ d i e, entryAt (setSlot t x ⟨T_NONE, dataOf t x⟩) d i = some e →
        d ≠ x ∧ entryAt t d i = some e := by
      intro d i e he
      unfold entryAt at he
      rw [hnt, hdt] at he
      by_cases hd : d = x
      · simp [hd] at he
      · refine ⟨hd, ?_⟩
        simp only [hd, if_false] at he
        unfold entryAt
        exact he
    have hlive : ∀ d i e, LiveEntry (setSlot t x ⟨T_NONE, dataOf t x⟩) d i e →
        LiveEntry t d i e := by
      rintro d i e ⟨h1, h2⟩
      exact ⟨(hent d i e h1).2, h2⟩
    constructor
    · rw [length_setSlot]; exact hI.length_eq
    · rw [hnt]
      simp [Ne.symm hx, hI.root_dir]
    · intro d hd
      rw [hnt] at hd
      rw [hdt]
      by_cases hdc : d = x
      · simp [hdc] at hd
      · simp only [hdc, if_false] at hd ⊢
        exact hI.dir_data d hd
    · intro d hd
      rw [hnt] at hd
      rw [hdt]
      by_cases hdc : d = x
      · simp [hdc] at hd
      · simp only [hdc, if_false] at hd ⊢
        exact hI.file_data d hd
    · intro d i e hl1
      obtain ⟨a, b, c1⟩ := hI.valid d i e (hlive d i e hl1)
      refine ⟨a, b, ?_⟩
      rw [hnt]
      simp [hfresh d i e (hlive d i e hl1), c1]
    · intro d i e d2 i2 e2 h1 h2 heq
      exact hI.uniq d i e d2 i2 e2 (hlive _ _ _ h1) (hlive _ _ _ h2) heq
    · intro d i j e e2 h1 h2 heq
      exact hI.names d i j e e2 (hlive _ _ _ h1) (hlive _ _ _ h2) heq
    · intro d i e h1
      exact hI.name_ne d i e (hlive _ _ _ h1)
    · intro d i e h1 hf
      exact hI.free_name d i e (hent d i e h1).2 hf

end TecnicoFS

/-! ## The operations keep the invariant -/

namespace TecnicoFS
open type

theorem inode_get_dir {cfg : Config} {t : Table} {x : Int}
    (h : (inode_get cfg t x T_NONE none).2.1 = T_DIRECTORY) :
    nodeTypeOf t x = T_DIRECTORY ∧ (inode_get cfg t x T_NONE none).2.2 = dataOf t x := by
  unfold inode_get at h ⊢
  by_cases hg : invalid_inumber cfg t x = true
  · simp [hg] at h
  · simp only [hg] at h ⊢
    exact ⟨h, rfl⟩

theorem inode_get_of_valid {cfg : Config} {t : Table} {x : Int}
    (hlen : t.length = cfg.INODE_TABLE_SIZE) (h : nodeTypeOf t x ≠ T_NONE)
    (nType : type) (data : Data) :
    inode_get cfg t x nType data = (SUCCESS, nodeTypeOf t x, dataOf t x) := by
  unfold inode_get
  rw [invalid_inumber_of_valid hlen h]
  simp

theorem nodeTypeOf_replicate (n : Nat) (x : Int) :
    nodeTypeOf (List.replicate n ⟨T_NONE, none⟩) x = T_NONE := by
  unfold nodeTypeOf slot
  split_ifs with hx
  · rfl
  · cases h : (List.replicate n (⟨T_NONE, none⟩ : inode_t))[x.toNat]? with
    | none => rfl
    | some m =>
      have := List.eq_of_mem_replicate (List.getElem?_mem h)
      subst this
      rfl

theorem inode_create_success {cfg : Config} {t : Table} {nType : type}
    (h : (inode_create cfg t nType).2 ≠ FAIL) :
    ∃ c : Nat, c < t.length ∧ nodeTypeOf t c = T_NONE ∧
      (∀ k : Nat, k < c → nodeTypeOf t k ≠ T_NONE) ∧
      inode_create cfg t nType = (setSlot t c ⟨nType, fresh_data cfg nType⟩, (c : Int)) := by
  rcases inode_create_spec cfg t nType with ⟨h1, _⟩ | h1
  · rw [h1] at h; exact absurd rfl h
  · exact h1

theorem Inv_init {cfg : Config} {t : Table} (h : init_fs cfg = some t) : Inv cfg t := by
  unfold init_fs at h
  simp only at h
  split_ifs at h with h0
  have h1 : (inode_create cfg (inode_table_init cfg) T_DIRECTORY).2 ≠ FAIL := by
    have : (inode_create cfg (inode_table_init cfg) T_DIRECTORY).2 = FS_ROOT := by
      simpa using h0
    rw [this]; decide
  obtain ⟨c, hc, _, _, he⟩ := inode_create_success h1
  rw [he] at h h0
  simp only [Option.some.injEq] at h
  have hc0 : (c : Int) = 0 := by simpa [FS_ROOT] using h0
  subst h
  have hcl : ((c : Int)).toNat < (inode_table_init cfg).length := by simpa using hc
  have hnt := fun x => nodeTypeOf_setSlot (inode_table_init cfg) c
    ⟨T_DIRECTORY, fresh_data cfg T_DIRECTORY⟩ x (by omega) hcl
  have hdt := fun x => dataOf_setSlot (inode_table_init cfg) c
    ⟨T_DIRECTORY, fresh_data cfg T_DIRECTORY⟩ x (by omega) hcl
  have hty : ∀ x, nodeTypeOf (inode_table_init cfg) x = T_NONE := fun x =>
    nodeTypeOf_replicate _ x
  have hent : ∀ d i e, entryAt (setSlot (inode_table_init cfg) c
      ⟨T_DIRECTORY, fresh_data cfg T_DIRECTORY⟩) d i = some e → e = ⟨[], FREE_INODE⟩ := by
    intro d i e he1
    unfold entryAt at he1
    rw [hnt, hdt] at he1
    by_cases hd : d = (c : Int)
    · simp only [hd, if_true, fresh_data] at he1
      exact List.eq_of_mem_replicate (List.getElem?_mem he1)
    · simp [hd, hty] at he1
  have hlive : ∀ d i e, ¬ LiveEntry (setSlot (inode_table_init cfg) c
      ⟨T_DIRECTORY, fresh_data cfg T_DIRECTORY⟩) d i e := by
    rintro d i e ⟨h1, h2⟩
    have := hent d i e h1
    subst this
    exact h2 rfl
  constructor
  · rw [length_setSlot]; simp [inode_table_init]
  · rw [hnt]; simp [FS_ROOT, hc0]
  · intro d hd
    rw [hnt] at hd
    rw [hdt]
    by_cases hdc : d = (c : Int)
    · exact ⟨List.replicate cfg.MAX_DIR_ENTRIES ⟨[], FREE_INODE⟩, by simp [hdc, fresh_data],
        by simp⟩
    · simp [hdc, hty] at hd
  · intro d hd
    rw [hnt] at hd
    by_cases hdc : d = (c : Int)
    · simp [hdc] at hd
    · simp [hdc, hty] at hd
  · intro d i e hl; exact absurd hl (hlive d i e)
  · intro d i e d2 i2 e2 hl; exact absurd hl (hlive d i e)
  · intro d i j e e2 hl; exact absurd hl (hlive d i e)
  · intro d i e hl; exact absurd hl (hlive d i e)
  · intro d i e h1 _
    rw [hent d i e h1]

/-- After `inode_create` took slot `c`, the node types of the other slots are as before. -/
theorem nodeTypeOf_inode_create {cfg : Config} {t : Table} {nType : type} {c : Nat}
    (hc : c < t.length) (x : Int) :
    nodeTypeOf (setSlot t c ⟨nType, fresh_data cfg nType⟩) x =
      if x = (c : Int) then nType else nodeTypeOf t x := by
  rw [nodeTypeOf_setSlot t c _ x (by omega) (by simpa using hc)]

theorem dataOf_inode_create {cfg : Config} {t : Table} {nType : type} {c : Nat}
    (hc : c < t.length) (x : Int) :
    dataOf (setSlot t c ⟨nType, fresh_data cfg nType⟩) x =
      if x = (c : Int) then fresh_data cfg nType else dataOf t x := by
  rw [dataOf_setSlot t c _ x (by omega) (by simpa using hc)]

theorem entryAt_inode_create {cfg : Config} {t : Table} {nType : type} {c : Nat}
    (hc : c < t.length) (d : Int) (i : Nat) (e : DirEntry)
    (he : entryAt (setSlot t c ⟨nType, fresh_data cfg nType⟩) d i = some e) :
    (d = (c : Int) ∧ e = ⟨[], FREE_INODE⟩) ∨ (d ≠ (c : Int) ∧ entryAt t d i = some e) := by
  unfold entryAt at he
  rw [nodeTypeOf_inode_create hc, dataOf_inode_create hc] at he
  by_cases hd : d = (c : Int)
  · left
    refine ⟨hd, ?_⟩
    simp only [hd, if_true] at he
    split_ifs at he with hk
    simp only [fresh_data, hk, if_true] at he
    exact List.eq_of_mem_replicate (List.getElem?_mem he)
  · right
    refine ⟨hd, ?_⟩
    simp only [hd, if_false] at he
    unfold entryAt
    exact he

theorem liveEntry_inode_create {cfg : Config} {t : Table} {nType : type} {c : Nat}
    (hc : c < t.length) (d : Int) (i : Nat) (e : DirEntry)
    (h : LiveEntry (setSlot t c ⟨nType, fresh_data cfg nType⟩) d i e) :
    d ≠ (c : Int) ∧ LiveEntry t d i e := by
  obtain ⟨h1, h2⟩ := h
  rcases entryAt_inode_create hc d i e h1 with ⟨_, h3⟩ | ⟨h4, h3⟩
  · subst h3; exact absurd rfl h2
  · exact ⟨h4, h3, h2⟩

theorem Inv_create_add {cfg : Config} {t : Table} (hI : Inv cfg t) (p : Int)
    (child : List Char) (nodeType : type) (hp : nodeTypeOf t p = T_DIRECTORY)
    (hch : lookup_sub_node child (dataOf t p) = FAIL)
    (h4 : (inode_create cfg t nodeType).2 ≠ FAIL) :
    Inv cfg (dir_add_entry cfg (inode_create cfg t nodeType).1 p
      (inode_create cfg t nodeType).2 child).1 := by
  obtain ⟨c, hc, hnone, _, he⟩ := inode_create_success h4
  have hI1 := Inv_inode_create hI nodeType
  rw [he] at hI1 ⊢
  simp only
  have hc0 : (c : Int) ≠ FS_ROOT := by
    intro h0; rw [h0, hI.root_dir] at hnone; exact absurd hnone (by decide)
  have hpc : p ≠ (c : Int) := by
    intro h0; rw [h0, hnone] at hp; exact absurd hp (by decide)
  refine Inv_dir_add_entry hI1 p c child ?_ ?_ ?_
  · unfold FS_ROOT at hc0; omega
  · intro d i e hl
    obtain ⟨_, hl1⟩ := liveEntry_inode_create hc d i e hl
    intro h0
    have := (hI.valid d i e hl1).2.2
    rw [h0] at this
    exact this hnone
  · intro _
    rw [dataOf_inode_create hc]
    simp [hpc, hch]

theorem Inv_create {cfg : Config} {t : Table} (hI : Inv cfg t) (name : List Char)
    (nodeType : type) : Inv cfg (create cfg t name nodeType).1 := by
  unfold create
  simp only
  split_ifs with h1 h2 h3 h4 h5
  · exact hI
  · exact hI
  · exact hI
  · exact Inv_inode_create hI nodeType
  · obtain ⟨a, b⟩ := inode_get_dir (not_not.1 h2)
    rw [b] at h3
    exact Inv_create_add hI _ _ _ a (not_not.1 h3) h4
  · obtain ⟨a, b⟩ := inode_get_dir (not_not.1 h2)
    rw [b] at h3
    exact Inv_create_add hI _ _ _ a (not_not.1 h3) h4

end TecnicoFS

namespace TecnicoFS
open type

theorem nodeTypeOf_dir_reset_entry (cfg : Config) (t : Table) (p sub x : Int) :
    nodeTypeOf (dir_reset_entry cfg t p sub).1 x = nodeTypeOf t x := by
  rcases dir_reset_entry_spec cfg t p sub with h | ⟨es, j, e0, hp, _, _, _, _, h⟩
  · rw [h]
  · rw [h]; exact nodeTypeOf_set_entries hp _ x

theorem nodeTypeOf_dir_add_entry (cfg : Config) (t : Table) (p sub : Int) (name : List Char)
    (x : Int) : nodeTypeOf (dir_add_entry cfg t p sub name).1 x = nodeTypeOf t x := by
  rcases dir_add_entry_spec cfg t p sub name with h | ⟨es, j, e0, hp, _, _, _, _, _, _, _, h⟩
  · rw [h]
  · rw [h]; exact nodeTypeOf_set_entries hp _ x

theorem liveEntry_of_reset {cfg : Config} {t : Table} {p sub : Int} {d : Int} {i : Nat}
    {e : DirEntry} (h : LiveEntry (dir_reset_entry cfg t p sub).1 d i e) :
    LiveEntry t d i e := by
  rcases dir_reset_entry_spec cfg t p sub with h1 | ⟨es, j, e0, hp, hes, hj, _, _, h1⟩
  · rw [h1] at h; exact h
  · rw [h1] at h
    rcases (liveEntry_set_entry hp hes hj _ d i e).1 h with ⟨_, _, h3⟩ | ⟨_, h3⟩
    · exact absurd rfl h3
    · exact h3

/-- Once `dir_reset_entry` has cleared the entry of `c`, no live entry refers to `c`. -/
theorem no_ref_after_reset {cfg : Config} {t : Table} (hI : Inv cfg t) {p c : Int}
    (hc : c ≠ FAIL) (hr : (dir_reset_entry cfg t p c).2 ≠ FAIL) :
    ∀ d i e, LiveEntry (dir_reset_entry cfg t p c).1 d i e → e.inumber ≠ c := by
  rcases dir_reset_entry_spec cfg t p c with h1 | ⟨es, j, e0, hp, hes, hj, he0, _, h1⟩
  · rw [h1] at hr; exact absurd rfl hr
  · rw [h1]
    intro d i e hl heq
    rcases (liveEntry_set_entry hp hes hj _ d i e).1 hl with ⟨_, _, h3⟩ | ⟨h2, h3⟩
    · exact h3 rfl
    · have hl0 : LiveEntry t p j e0 := by
        refine ⟨by simp [entryAt, hp, hes, hj], ?_⟩
        rw [he0]; exact hc
      exact h2 (hI.uniq d i e p j e0 h3 hl0 (by rw [heq, he0]))

theorem Inv_delete {cfg : Config} {t : Table} (hI : Inv cfg t) (name : List Char) :
    Inv cfg (delete cfg t name).1 := by
  unfold delete
  simp only
  split_ifs with h1 h2 h3 h4 h5 h6
  · exact hI
  · exact hI
  · exact hI
  · exact hI
  · exact Inv_dir_reset_entry hI _ _
  all_goals
    obtain ⟨a, b⟩ := inode_get_dir (not_not.1 h2)
    rw [b] at h3 h5 ⊢
    obtain ⟨es, i, e, _, _, hl, he, _⟩ := lookup_sub_node_found a h3
    refine Inv_inode_delete (Inv_dir_reset_entry hI _ _) _ ?_ (no_ref_after_reset hI h3 h5)
    have := (hI.valid _ i e hl).1
    rw [he] at this
    unfold FS_ROOT
    omega

theorem move_eq (cfg : Config) (t : Table) (src dest : List Char) :
    move cfg t src dest =
      if move_to_itself (split_parent_child_from_path src).1
          (split_parent_child_from_path src).2.1 (split_parent_child_from_path dest).1 then
        (t, Status.TECNICOFS_ERROR_MOVE_TO_ITSELF)
      else
        move_commit cfg t
          (move_traversals cfg t (split_parent_child_from_path src).1
            (split_parent_child_from_path dest).1 (split_parent_child_from_path src).2.2
            (split_parent_child_from_path dest).2.2).1
          (move_traversals cfg t (split_parent_child_from_path src).1
            (split_parent_child_from_path dest).1 (split_parent_child_from_path src).2.2
            (split_parent_child_from_path dest).2.2).2.2.1
          (split_parent_child_from_path src).2.1 (split_parent_child_from_path dest).2.1 := by
  rfl

/-- The removal in `move` succeeds: the id found under the source name is in the array. -/
theorem move_remove_succeeds {cfg : Config} {t : Table} (hI : Inv cfg t) {ps : Int}
    {schild : List Char} (hps : nodeTypeOf t ps = T_DIRECTORY)
    (hm : lookup_sub_node schild (dataOf t ps) ≠ FAIL) :
    (dir_remove_entry cfg t ps (lookup_sub_node schild (dataOf t ps))).2 ≠ FAIL := by
  obtain ⟨es, i, e, hes, hi, hl, he, _⟩ := lookup_sub_node_found hps hm
  have hv := hI.valid _ i e hl
  rw [he] at hv
  unfold dir_remove_entry
  rw [dir_reset_entry_eq hI.length_eq hps hes hv.2.2]
  cases hr : reset_first (lookup_sub_node schild (dataOf t ps)) es with
  | none =>
    exact absurd he ((reset_first_eq_none _ es).1 hr e (List.getElem?_mem hi))
  | some es1 =>
    simp [SUCCESS, FAIL]

theorem Inv_move_commit {cfg : Config} {t : Table} (hI : Inv cfg t) (ps pd : Int)
    (schild dchild : List Char) : Inv cfg (move_commit cfg t ps pd schild dchild).1 := by
  unfold move_commit
  simp only
  split_ifs with h2 h3 h4
  · exact hI
  · exact hI
  · exact hI
  · rw [not_or, not_not, not_not] at h3
    rw [not_or, not_not] at h4
    obtain ⟨a, b⟩ := inode_get_dir h3.1
    obtain ⟨a2, b2⟩ := inode_get_dir h4.1
    have h3b := h3.2
    have h4b := h4.2
    rw [b] at h3b
    rw [b2] at h4b ⊢
    obtain ⟨es, i, e, hes, hi, hl, he, _⟩ := lookup_sub_node_found a2 h4b
    have hv := hI.valid _ i e hl
    rw [he] at hv
    have hrs := @move_remove_succeeds cfg t hI _ _ a2 h4b
    refine Inv_dir_add_entry (Inv_dir_reset_entry hI _ _) _ _ _ hv.1
      (no_ref_after_reset hI h4b hrs) ?_
    intro hd
    rw [nodeTypeOf_dir_reset_entry] at hd
    rw [lookup_sub_node_eq_FAIL (by rw [nodeTypeOf_dir_reset_entry]; exact hd)]
    intro i1 e1 hl1
    exact (lookup_sub_node_eq_FAIL hd _).1 h3b i1 e1 (liveEntry_of_reset hl1)

theorem Inv_move {cfg : Config} {t : Table} (hI : Inv cfg t) (src dest : List Char) :
    Inv cfg (move cfg t src dest).1 := by
  rw [move_eq]
  split_ifs
  · exact hI
  · exact Inv_move_commit hI _ _ _ _

/-- Every table reachable from `init_fs` satisfies the structural invariant. -/
theorem Inv_of_Reachable {cfg : Config} {t : Table} (h : Reachable cfg t) : Inv cfg t := by
  induction h with
  | init t h => exact Inv_init h
  | create t name nodeType _ ih => exact Inv_create ih name nodeType
  | delete t name _ ih => exact Inv_delete ih name
  | move t src dest _ ih => exact Inv_move ih src dest

end TecnicoFS

/-! ## Invariants of the reachable tables (claims C4, C5, C6, C7) -/

namespace TecnicoFS
open type Status

theorem liveEntry_intro {t : Table} {d : Int} {es : List DirEntry} {i : Nat} {e : DirEntry}
    (hd : nodeTypeOf t d = T_DIRECTORY) (hes : dataOf t d = some es) (hi : es[i]? = some e)
    (hlive : e.inumber ≠ FREE_INODE) : LiveEntry t d i e :=
  ⟨by simp [entryAt, hd, hes, hi], hlive⟩

theorem reach_tInit : Reachable cfg0 tInit := Reachable.init _ (by decide)

theorem reach_tA : Reachable cfg0 tA := Reachable.create _ _ _ reach_tInit

theorem reach_foldl_create (cfg : Config) (f : Char → List Char) (nodeType : type) :
    ∀ (cs : List Char) (t : Table), Reachable cfg t →
      Reachable cfg (cs.foldl (fun t c => (create cfg t (f c) nodeType).1) t) := by
  intro cs
  induction cs with
  | nil => intro t h; exact h
  | cons c cs ih => intro t h; exact ih _ (Reachable.create _ _ _ h)

theorem reach_tFull : Reachable cfg0 tFull :=
  reach_foldl_create cfg0 (fun c => "/d/".toList ++ [c]) T_FILE _ _
    (Reachable.create _ _ _ reach_tInit)

theorem reach_tFullX : Reachable cfg0 tFullX := Reachable.create _ _ _ reach_tFull

theorem reach_tAB : Reachable cfg0 tAB :=
  Reachable.create _ _ _ (Reachable.create _ _ _ reach_tInit)

/-- C4: in every table reachable from `init_fs` by `create`, `delete` and `move` calls,
every live entry (its `inumber` differs from `FREE_INODE`) of every directory holds an id
in `[0, INODE_TABLE_SIZE)` whose slot has a type other than `T_NONE`. -/
theorem live_entries_reference_live_slots (cfg : Config) (t : Table)
    (h : Reachable cfg t) (d : Int) (es : List DirEntry) (i : Nat) (e : DirEntry)
    (hd : nodeTypeOf t d = T_DIRECTORY) (hes : dataOf t d = some es) (hi : es[i]? = some e)
    (hlive : e.inumber ≠ FREE_INODE) :
    0 ≤ e.inumber ∧ e.inumber < (cfg.INODE_TABLE_SIZE : Int) ∧
      nodeTypeOf t e.inumber ≠ T_NONE := by
  obtain ⟨a, b, c⟩ := (Inv_of_Reachable h).valid d i e (liveEntry_intro hd hes hi hlive)
  exact ⟨by omega, b, c⟩

theorem live_entries_reference_live_slots_witness :
    0 ≤ (1 : Int) ∧ (1 : Int) < ((50 : Nat) : Int) ∧ nodeTypeOf tA 1 ≠ T_NONE :=
  live_entries_reference_live_slots cfg0 tA reach_tA 0
    (⟨"a".toList, 1⟩ :: List.replicate 19 ⟨[], FREE_INODE⟩) 0 ⟨"a".toList, 1⟩
    (by decide) (by decide) (by decide) (by decide)

/-- C5: in every table reachable from `init_fs` by `create`, `delete` and `move` calls, no
id is held by two live directory entries: two live cells with the same `inumber` are the
same cell of the same directory. -/
theorem no_id_listed_twice (cfg : Config) (t : Table) (h : Reachable cfg t)
    (d1 d2 : Int) (es1 es2 : List DirEntry) (i1 i2 : Nat) (e1 e2 : DirEntry)
    (hd1 : nodeTypeOf t d1 = T_DIRECTORY) (hes1 : dataOf t d1 = some es1)
    (hi1 : es1[i1]? = some e1) (hlive1 : e1.inumber ≠ FREE_INODE)
    (hd2 : nodeTypeOf t d2 = T_DIRECTORY) (hes2 : dataOf t d2 = some es2)
    (hi2 : es2[i2]? = some e2) (hlive2 : e2.inumber ≠ FREE_INODE)
    (heq : e1.inumber = e2.inumber) :
    d1 = d2 ∧ i1 = i2 :=
  (Inv_of_Reachable h).uniq d1 i1 e1 d2 i2 e2 (liveEntry_intro hd1 hes1 hi1 hlive1)
    (liveEntry_intro hd2 hes2 hi2 hlive2) heq

theorem no_id_listed_twice_witness : (0 : Int) = 0 ∧ (0 : Nat) = 0 :=
  no_id_listed_twice cfg0 tA reach_tA 0 0
    (⟨"a".toList, 1⟩ :: List.replicate 19 ⟨[], FREE_INODE⟩)
    (⟨"a".toList, 1⟩ :: List.replicate 19 ⟨[], FREE_INODE⟩) 0 0
    ⟨"a".toList, 1⟩ ⟨"a".toList, 1⟩
    (by decide) (by decide) (by decide) (by decide)
    (by decide) (by decide) (by decide) (by decide) rfl

/-- C6: in every table reachable from `init_fs` by `create`, `delete` and `move` calls, no
directory has two live entries with the same name: two live cells of one directory that
carry the same name are the same cell. -/
theorem live_names_distinct (cfg : Config) (t : Table) (h : Reachable cfg t)
    (d : Int) (es : List DirEntry) (i j : Nat) (e1 e2 : DirEntry)
    (hd : nodeTypeOf t d = T_DIRECTORY) (hes : dataOf t d = some es)
    (hi : es[i]? = some e1) (hlive1 : e1.inumber ≠ FREE_INODE)
    (hj : es[j]? = some e2) (hlive2 : e2.inumber ≠ FREE_INODE)
    (heq : e1.name = e2.name) :
    i = j :=
  (Inv_of_Reachable h).names d i j e1 e2 (liveEntry_intro hd hes hi hlive1)
    (liveEntry_intro hd hes hj hlive2) heq

theorem live_names_distinct_witness : (0 : Nat) = 0 :=
  live_names_distinct cfg0 tA reach_tA 0
    (⟨"a".toList, 1⟩ :: List.replicate 19 ⟨[], FREE_INODE⟩) 0 0
    ⟨"a".toList, 1⟩ ⟨"a".toList, 1⟩
    (by decide) (by decide) (by decide) (by decide) (by decide) (by decide) rfl

/-- C7: in every table reachable from `init_fs` by `create`, `delete` and `move` calls with
arbitrary paths, slot 0 exists and its type is `T_DIRECTORY`: the root is never freed or
retyped. -/
theorem root_stays_directory (cfg : Config) (t : Table) (h : Reachable cfg t) :
    (t[0]?).map inode_t.nodeType = some T_DIRECTORY := by
  have h1 := (Inv_of_Reachable h).root_dir
  unfold nodeTypeOf slot FS_ROOT at h1
  simp only [lt_self_iff_false, if_false, Int.toNat_zero] at h1
  cases h0 : t[0]? with
  | none => simp [h0] at h1
  | some n => simp [h0] at h1; simp [h1]

theorem root_stays_directory_witness :
    (tFullX[0]?).map inode_t.nodeType = some T_DIRECTORY :=
  root_stays_directory cfg0 tFullX reach_tFullX

end TecnicoFS

/-! ## The code at inputs where it departs from the specification (claims C1, C2, C3) -/

namespace TecnicoFS
open type Status

set_option maxRecDepth 100000 in
/-- C1 (evaluation of the code): in the reachable table `tFull` the parent `/d` is a
directory with `MAX_DIR_ENTRIES` live entries, none named `u`, and slot 22 is `T_NONE`.
`create("/d/u", T_FILE)` returns `TECNICOFS_ERROR_COULDNT_ADD_ENTRY`, and the slot it
allocated is still `T_FILE` afterwards.  The same happens for the empty child name:
`create("/", T_FILE)` on the initial table leaves slot 1 allocated. -/
theorem create_add_failure_keeps_slot :
    Reachable cfg0 tFull ∧
    (create cfg0 tFull "/d/u".toList T_FILE).2 = TECNICOFS_ERROR_COULDNT_ADD_ENTRY ∧
    nodeTypeOf tFull 22 = T_NONE ∧
    nodeTypeOf (create cfg0 tFull "/d/u".toList T_FILE).1 22 = T_FILE ∧
    (create cfg0 tInit "/".toList T_FILE).2 = TECNICOFS_ERROR_COULDNT_ADD_ENTRY ∧
    nodeTypeOf tInit 1 = T_NONE ∧
    nodeTypeOf (create cfg0 tInit "/".toList T_FILE).1 1 = T_FILE :=
  ⟨reach_tFull, by decide, by decide, by decide, by decide, by decide, by decide⟩

set_option maxRecDepth 100000 in
/-- C2 (evaluation of the code): in the reachable table `tFullX`, `lookup("/x")` is 22 and
directory `/d` is full.  `move("/x", "/d/x")` returns `SUCCESS`; afterwards `lookup("/d/x")`
is `TECNICOFS_ERROR_FILE_NOT_FOUND`, not 22: the entry was removed from the root and the
failed `dir_add_entry` went unnoticed. -/
theorem move_into_full_directory_loses_node :
    Reachable cfg0 tFullX ∧
    lookup cfg0 tFullX "/x".toList = 22 ∧
    (move cfg0 tFullX "/x".toList "/d/x".toList).2 = Status.SUCCESS ∧
    lookup cfg0 (move cfg0 tFullX "/x".toList "/d/x".toList).1 "/d/x".toList =
      cfg0.TECNICOFS_ERROR_FILE_NOT_FOUND ∧
    lookup cfg0 (move cfg0 tFullX "/x".toList "/d/x".toList).1 "/x".toList =
      cfg0.TECNICOFS_ERROR_FILE_NOT_FOUND ∧
    nodeTypeOf (move cfg0 tFullX "/x".toList "/d/x".toList).1 22 = T_FILE :=
  ⟨reach_tFullX, by decide, by decide, by decide, by decide, by decide⟩

/-- C3 (evaluation of the code): in the reachable table `tAB` (`/a` is slot 1, `/a/b` is
slot 2), `move("/a", "/a/b/c")` returns `SUCCESS`.  Afterwards every entry of the root is
free, slots 1 and 2 are still directories, the only live entry of slot 2 names slot 1 and
the only live entry of slot 1 names slot 2: two live nodes unreachable from the root, on a
cycle of directory entries. -/
theorem move_into_descendant_detaches_cycle :
    Reachable cfg0 tAB ∧
    (move cfg0 tAB "/a".toList "/a/b/c".toList).2 = Status.SUCCESS ∧
    dataOf (move cfg0 tAB "/a".toList "/a/b/c".toList).1 0 =
      some (List.replicate 20 ⟨[], FREE_INODE⟩) ∧
    nodeTypeOf (move cfg0 tAB "/a".toList "/a/b/c".toList).1 1 = T_DIRECTORY ∧
    nodeTypeOf (move cfg0 tAB "/a".toList "/a/b/c".toList).1 2 = T_DIRECTORY ∧
    dataOf (move cfg0 tAB "/a".toList "/a/b/c".toList).1 1 =
      some (⟨"b".toList, 2⟩ :: List.replicate 19 ⟨[], FREE_INODE⟩) ∧
    dataOf (move cfg0 tAB "/a".toList "/a/b/c".toList).1 2 =
      some (⟨"c".toList, 1⟩ :: List.replicate 19 ⟨[], FREE_INODE⟩) :=
  ⟨reach_tAB, by decide, by decide, by decide, by decide, by decide, by decide⟩

end TecnicoFS

/-! ## Path resolution -/

namespace TecnicoFS
open type Status

theorem FAIL_eq_FREE_INODE : FAIL = FREE_INODE := rfl

/-- A successful `lookup_sub_node` in the payload of a live node: the node is a directory
and the result is the id of one of its live entries, hence a valid id. -/
theorem lookup_sub_node_valid {cfg : Config} {t : Table} (hI : Inv cfg t) {cur : Int}
    {tok : List Char} (hcur : nodeTypeOf t cur ≠ T_NONE)
    (h : lookup_sub_node tok (dataOf t cur) ≠ FAIL) :
    nodeTypeOf t cur = T_DIRECTORY ∧ 0 < lookup_sub_node tok (dataOf t cur) ∧
      lookup_sub_node tok (dataOf t cur) < (cfg.INODE_TABLE_SIZE : Int) ∧
      nodeTypeOf t (lookup_sub_node tok (dataOf t cur)) ≠ T_NONE ∧
      ∃ i e, LiveEntry t cur i e ∧ e.inumber = lookup_sub_node tok (dataOf t cur) ∧
        e.name = tok := by
  have hd : nodeTypeOf t cur = T_DIRECTORY := by
    cases hk : nodeTypeOf t cur with
    | T_DIRECTORY => rfl
    | T_NONE => exact absurd hk hcur
    | T_FILE =>
      rw [hI.file_data cur hk] at h
      exact absurd rfl h
  obtain ⟨es, i, e, _, _, hl, he, hn⟩ := lookup_sub_node_found hd h
  have hv := hI.valid cur i e hl
  rw [he] at hv
  exact ⟨hd, hv.1, hv.2.1, hv.2.2, i, e, hl, he, hn⟩

theorem lookup_loop_eq_resolve {cfg : Config} {t : Table} (hI : Inv cfg t) :
    ∀ (toks : List (List Char)) (cur : Int), nodeTypeOf t cur ≠ T_NONE →
      lookup_loop cfg t toks cur (dataOf t cur) = resolve t toks cur := by
  intro toks
  induction toks with
  | nil => intro cur _; rfl
  | cons tok rest ih =>
    intro cur hcur
    unfold lookup_loop resolve
    simp only
    split_ifs with h
    · exact h
    · obtain ⟨_, _, _, hv, _⟩ := lookup_sub_node_valid hI hcur h
      rw [inode_get_of_valid hI.length_eq hv]
      exact ih _ hv

theorem aux_lookup_loop_fst {cfg : Config} {t : Table} (hI : Inv cfg t)
    (already_locked : List Int) :
    ∀ (toks : List (List Char)) (cur : Int) (locked : List Int), nodeTypeOf t cur ≠ T_NONE →
      (aux_lookup_loop cfg t already_locked toks cur (dataOf t cur) locked).1 =
        resolve t toks cur := by
  intro toks
  induction toks with
  | nil => intro cur locked _; rfl
  | cons tok rest ih =>
    intro cur locked hcur
    unfold aux_lookup_loop resolve
    simp only
    split_ifs with h
    all_goals first
      | exact h
      | (obtain ⟨_, _, _, hv, _⟩ := lookup_sub_node_valid hI hcur h
         rw [inode_get_of_valid hI.length_eq hv]
         exact ih _ _ hv)

theorem root_valid {cfg : Config} {t : Table} (hI : Inv cfg t) :
    nodeTypeOf t FS_ROOT ≠ T_NONE := by
  rw [hI.root_dir]; decide

/-- Under the invariant `lookup` returns the id found by `resolve` from the root, or
`TECNICOFS_ERROR_FILE_NOT_FOUND` when that is negative. -/
theorem lookup_eq_resolve {cfg : Config} {t : Table} (hI : Inv cfg t) (name : List Char) :
    lookup cfg t name =
      if resolve t (strtok_r name []) FS_ROOT < 0 then cfg.TECNICOFS_ERROR_FILE_NOT_FOUND
      else resolve t (strtok_r name []) FS_ROOT := by
  unfold lookup
  simp only
  rw [inode_get_of_valid hI.length_eq (root_valid hI)]
  simp only
  rw [lookup_loop_eq_resolve hI _ _ (root_valid hI)]

/-- Under the invariant the id returned by `aux_lookup` is the one found by `resolve`,
whatever `already_locked` holds. -/
theorem aux_lookup_fst {cfg : Config} {t : Table} (hI : Inv cfg t) (name : List Char)
    (already_locked : List Int) :
    (aux_lookup cfg t name already_locked).1 = resolve t (strtok_r name []) FS_ROOT := by
  unfold aux_lookup
  simp only
  rw [inode_get_of_valid hI.length_eq (root_valid hI)]
  simp only
  rw [aux_lookup_loop_fst hI _ _ _ _ (root_valid hI)]

/-- A walk from a live node either fails or ends in a live node. -/
theorem resolve_valid {cfg : Config} {t : Table} (hI : Inv cfg t) :
    ∀ (toks : List (List Char)) (cur : Int), nodeTypeOf t cur ≠ T_NONE →
      resolve t toks cur ≠ FAIL → nodeTypeOf t (resolve t toks cur) ≠ T_NONE := by
  intro toks
  induction toks with
  | nil => intro cur hcur _; exact hcur
  | cons tok rest ih =>
    intro cur hcur h
    unfold resolve at h ⊢
    split_ifs at h ⊢ with h1
    · exact absurd rfl h
    · obtain ⟨_, _, _, hv, _⟩ := lookup_sub_node_valid hI hcur h1
      exact ih _ hv h

theorem resolve_nil (t : Table) (cur : Int) : resolve t [] cur = cur := rfl

theorem resolve_cons (t : Table) (tok : List Char) (rest : List (List Char)) (cur : Int) :
    resolve t (tok :: rest) cur =
      if lookup_sub_node tok (dataOf t cur) = FAIL then FAIL
      else resolve t rest (lookup_sub_node tok (dataOf t cur)) := rfl

theorem resolve_FAIL (t : Table) (toks : List (List Char)) : resolve t toks FAIL = FAIL := by
  cases toks with
  | nil => rfl
  | cons x xs =>
    rw [resolve_cons]
    have : lookup_sub_node x (dataOf t FAIL) = FAIL := by
      simp [dataOf, slot, FAIL, lookup_sub_node]
    simp [this]

theorem resolve_append (t : Table) :
    ∀ (a b : List (List Char)) (cur : Int),
      resolve t (a ++ b) cur =
        if resolve t a cur = FAIL then FAIL else resolve t b (resolve t a cur) := by
  intro a
  induction a with
  | nil =>
    intro b cur
    simp only [List.nil_append, resolve_nil]
    split_ifs with h
    · rw [h, resolve_FAIL]
    · rfl
  | cons tok rest ih =>
    intro b cur
    simp only [List.cons_append]
    rw [resolve_cons, resolve_cons]
    by_cases h1 : lookup_sub_node tok (dataOf t cur) = FAIL
    · simp [h1]
    · simp only [h1, if_false]
      exact ih b _

theorem move_traversals_eq {cfg : Config} {t : Table} (hI : Inv cfg t)
    (sparent_name dparent_name : List Char) (sdepth ddepth : Nat) :
    (move_traversals cfg t sparent_name dparent_name sdepth ddepth).1 =
        resolve t (strtok_r sparent_name []) FS_ROOT ∧
    (move_traversals cfg t sparent_name dparent_name sdepth ddepth).2.2.1 =
        resolve t (strtok_r dparent_name []) FS_ROOT := by
  unfold move_traversals
  simp only
  split_ifs <;> simp [aux_lookup_fst hI]

theorem create_eq_create_at (cfg : Config) (t : Table) (name : List Char) (nodeType : type) :
    create cfg t name nodeType =
      create_at cfg t (aux_lookup cfg t (split_parent_child_from_path name).1 []).1
        (split_parent_child_from_path name).2.1 nodeType := rfl

theorem delete_eq_delete_at (cfg : Config) (t : Table) (name : List Char) :
    delete cfg t name =
      delete_at cfg t (aux_lookup cfg t (split_parent_child_from_path name).1 []).1
        (split_parent_child_from_path name).2.1 := rfl

end TecnicoFS

/-! ## Paths made of components: the splitter and the tokenizer -/

namespace TecnicoFS
open type Status

theorem strtok_r_append_slash :
    ∀ (a b tok : List Char),
      strtok_r (a ++ '/' :: b) tok = strtok_r a tok ++ strtok_r b [] := by
  intro a
  induction a with
  | nil =>
    intro b tok
    simp only [List.nil_append, strtok_r]
    split_ifs <;> simp
  | cons c a ih =>
    intro b tok
    simp only [List.cons_append, strtok_r]
    split_ifs with h1 h2
    · exact ih b []
    · simp [ih b []]
    · exact ih b _

theorem strtok_r_no_slash :
    ∀ (c tok : List Char), '/' ∉ c →
      strtok_r c tok = if tok ++ c = [] then [] else [tok ++ c] := by
  intro c
  induction c with
  | nil => intro tok _; simp [strtok_r]
  | cons x c ih =>
    intro tok h
    have hx : x ≠ '/' := fun h0 => h (by simp [h0])
    have hc : '/' ∉ c := fun h0 => h (List.mem_cons_of_mem _ h0)
    simp only [strtok_r, hx, if_false]
    rw [ih _ hc]
    simp

theorem strtok_r_component {c : List Char} (h : is_component c) : strtok_r c [] = [c] := by
  rw [strtok_r_no_slash c [] h.2]
  simp [h.1]

theorem strtok_r_join :
    ∀ (cs : List (List Char)), (∀ c ∈ cs, is_component c) →
      strtok_r (join_components cs) [] = cs := by
  intro cs
  induction cs with
  | nil => intro _; rfl
  | cons c cs ih =>
    intro h
    cases cs with
    | nil => exact strtok_r_component (h c (by simp))
    | cons c1 cs =>
      simp only [join_components]
      rw [strtok_r_append_slash, strtok_r_component (h c (by simp)),
        ih (fun x hx => h x (List.mem_cons_of_mem _ hx))]
      rfl

theorem strtok_r_path_of (leading : Bool) (cs : List (List Char))
    (h : ∀ c ∈ cs, is_component c) : strtok_r (path_of leading cs) [] = cs := by
  unfold path_of
  cases leading with
  | false => simpa using strtok_r_join cs h
  | true =>
    simp only [if_true, strtok_r]
    simpa using strtok_r_join cs h

theorem join_components_append_singleton :
    ∀ (init : List (List Char)) (c : List Char), init ≠ [] →
      join_components (init ++ [c]) = join_components init ++ '/' :: c := by
  intro init
  induction init with
  | nil => intro c h; exact absurd rfl h
  | cons a init ih =>
    intro c _
    cases init with
    | nil => simp [join_components]
    | cons b init =>
      have h1 : join_components (a :: b :: init ++ [c]) =
          a ++ '/' :: join_components (b :: init ++ [c]) := rfl
      have h2 : join_components (a :: b :: init) =
          a ++ '/' :: join_components (b :: init) := rfl
      rw [h1, h2, ih c (by simp)]
      simp

theorem count_slashes_cons (a : Char) (l : List Char) (hl : l ≠ []) (i : Nat) (acc : Nat × Nat) :
    count_slashes (a :: l) i acc =
      if a = '/' then count_slashes l (i + 1) (acc.1 + 1, i)
      else count_slashes l (i + 1) acc := by
  cases l with
  | nil => exact absurd rfl hl
  | cons b l => simp [count_slashes]

theorem count_slashes_no_slash :
    ∀ (c : List Char) (i : Nat) (acc : Nat × Nat), '/' ∉ c → count_slashes c i acc = acc := by
  intro c
  induction c with
  | nil => intro i acc _; simp [count_slashes]
  | cons x c ih =>
    intro i acc h
    have hx : x ≠ '/' := fun h0 => h (by simp [h0])
    have hc : '/' ∉ c := fun h0 => h (List.mem_cons_of_mem _ h0)
    cases c with
    | nil => simp [count_slashes]
    | cons y c =>
      rw [count_slashes_cons x (y :: c) (by simp), if_neg hx]
      exact ih _ _ hc

theorem count_slashes_last :
    ∀ (a c : List Char) (i : Nat) (acc : Nat × Nat), is_component c →
      (count_slashes (a ++ '/' :: c) i acc).2 = i + a.length ∧
      0 < (count_slashes (a ++ '/' :: c) i acc).1 := by
  intro a
  induction a with
  | nil =>
    intro c i acc hc
    simp only [List.nil_append]
    rw [count_slashes_cons '/' c hc.1, if_pos rfl, count_slashes_no_slash c _ _ hc.2]
    simp
  | cons x a ih =>
    intro c i acc hc
    simp only [List.cons_append]
    rw [count_slashes_cons x (a ++ '/' :: c) (by simp)]
    split_ifs with hx
    · obtain ⟨h1, h2⟩ := ih c (i + 1) (acc.1 + 1, i) hc
      exact ⟨by rw [h1]; simp; omega, h2⟩
    · obtain ⟨h1, h2⟩ := ih c (i + 1) acc hc
      exact ⟨by rw [h1]; simp; omega, h2⟩

theorem getLast?_component {c : List Char} (hc : is_component c) (a : List Char) :
    (a ++ c).getLast? ≠ some '/' := by
  intro h
  have h1 : '/' ∈ (a ++ c).getLast? := h
  rw [List.getLast?_append_of_ne_nil a hc.1] at h1
  exact hc.2 (List.mem_of_mem_getLast? h1)

/-- The splitter on a path that ends in `'/'` followed by a component. -/
theorem split_append_component (a c : List Char) (hc : is_component c) :
    (split_parent_child_from_path (a ++ '/' :: c)).1 = a ∧
    (split_parent_child_from_path (a ++ '/' :: c)).2.1 = c := by
  have hl : (a ++ '/' :: c).getLast? ≠ some '/' := by
    have := getLast?_component hc (a ++ ['/'])
    simpa using this
  obtain ⟨h1, h2⟩ := count_slashes_last a c 0 (0, 0) hc
  unfold split_parent_child_from_path
  simp only [hl, if_false]
  rw [if_neg (by omega)]
  simp only [h1]
  simp

/-- The splitter on a single component. -/
theorem split_component (c : List Char) (hc : is_component c) :
    (split_parent_child_from_path c).1 = [] ∧ (split_parent_child_from_path c).2.1 = c := by
  have hl : c.getLast? ≠ some '/' := by
    have := getLast?_component hc []
    simpa using this
  unfold split_parent_child_from_path
  simp only [hl, if_false]
  rw [count_slashes_no_slash c _ _ hc.2]
  simp

/-- On a path made of the components `init ++ [c]`, the splitter returns the child `c` and
a parent string whose tokens are `init`. -/
theorem split_path_of (leading : Bool) (init : List (List Char)) (c : List Char)
    (hinit : ∀ x ∈ init, is_component x) (hc : is_component c) :
    strtok_r (split_parent_child_from_path (path_of leading (init ++ [c]))).1 [] = init ∧
    (split_parent_child_from_path (path_of leading (init ++ [c]))).2.1 = c := by
  by_cases hi : init = []
  · subst hi
    cases leading with
    | false =>
      have := split_component c hc
      simp only [path_of, List.nil_append, join_components]
      simp [this.1, this.2, strtok_r]
    | true =>
      have := split_append_component [] c hc
      simp only [path_of, List.nil_append, join_components, if_true] at this ⊢
      simp [this.1, this.2, strtok_r]
  · cases leading with
    | false =>
      have := split_append_component (join_components init) c hc
      simp only [path_of, join_components_append_singleton init c hi]
      simp only [Bool.false_eq_true, if_false]
      rw [this.1, this.2]
      exact ⟨strtok_r_join init hinit, rfl⟩
    | true =>
      have := split_append_component ('/' :: join_components init) c hc
      simp only [path_of, join_components_append_singleton init c hi, if_true]
      simp only [List.cons_append] at this
      rw [this.1, this.2]
      refine ⟨?_, rfl⟩
      simp only [strtok_r, if_true]
      exact strtok_r_join init hinit

end TecnicoFS

/-! ## A successful create -/

namespace TecnicoFS
open type Status

theorem lookup_sub_node_loop_set_other (tok : List Char) (new : DirEntry)
    (hnew : ¬ (new.inumber ≠ FREE_INODE ∧ new.name = tok)) :
    ∀ (es : List DirEntry) (j : Nat) (e0 : DirEntry), es[j]? = some e0 →
      ¬ (e0.inumber ≠ FREE_INODE ∧ e0.name = tok) →
      lookup_sub_node_loop tok (es.set j new) = lookup_sub_node_loop tok es := by
  intro es
  induction es with
  | nil => intro j e0 h; simp at h
  | cons e es ih =>
    intro j e0 hj he0
    cases j with
    | zero =>
      simp at hj
      subst hj
      simp only [List.set_cons_zero, lookup_sub_node_loop]
      rw [if_neg hnew, if_neg he0]
    | succ j =>
      simp at hj
      simp only [List.set_cons_succ, lookup_sub_node_loop]
      rw [ih j e0 hj he0]

theorem lookup_sub_node_loop_set_match (tok : List Char) (new : DirEntry)
    (hnew : new.inumber ≠ FREE_INODE ∧ new.name = tok) :
    ∀ (es : List DirEntry) (j : Nat), j < es.length →
      (∀ k e, k < j → es[k]? = some e → ¬ (e.inumber ≠ FREE_INODE ∧ e.name = tok)) →
      lookup_sub_node_loop tok (es.set j new) = new.inumber := by
  intro es
  induction es with
  | nil => intro j h; simp at h
  | cons e es ih =>
    intro j hj hbefore
    cases j with
    | zero =>
      simp only [List.set_cons_zero, lookup_sub_node_loop]
      rw [if_pos hnew]
    | succ j =>
      simp only [List.set_cons_succ, lookup_sub_node_loop]
      rw [if_neg (hbefore 0 e (by omega) (by simp))]
      refine ih j (by simpa using hj) ?_
      intro k e1 hk he1
      exact hbefore (k + 1) e1 (by omega) (by simpa using he1)

/-- The shape of a successful `create`: the parent `p` is a directory without a live entry
named `child`, slot `c` was the first `T_NONE` slot, cell `j` was the first free cell of
the parent, and the new table differs from the old one in slot `c` and in that cell. -/
theorem create_at_success {cfg : Config} {t : Table} {p : Int} {child : List Char}
    {nodeType : type}
    (h : (create_at cfg t p child nodeType).2 = Status.SUCCESS) :
    ∃ (c : Nat) (es : List DirEntry) (j : Nat) (e0 : DirEntry),
      nodeTypeOf t p = T_DIRECTORY ∧ dataOf t p = some es ∧
      lookup_sub_node child (dataOf t p) = FAIL ∧
      c < t.length ∧ nodeTypeOf t c = T_NONE ∧
      inode_create cfg t nodeType = (setSlot t c ⟨nodeType, fresh_data cfg nodeType⟩, (c : Int)) ∧
      es[j]? = some e0 ∧ e0.inumber = FREE_INODE ∧
      (∀ i, i < j → ∀ e, es[i]? = some e → e.inumber ≠ FREE_INODE) ∧
      child ≠ [] ∧ nodeType ≠ T_NONE ∧ p ≠ (c : Int) ∧
      (create_at cfg t p child nodeType).1 =
        setSlot (setSlot t c ⟨nodeType, fresh_data cfg nodeType⟩) p
          ⟨T_DIRECTORY, some (es.set j ⟨child, c⟩)⟩ := by
  unfold create_at at h ⊢
  simp only at h ⊢
  split_ifs at h ⊢ with h1 h2 h3 h4 h5
  obtain ⟨hp, hd⟩ := inode_get_dir (not_not.1 h2)
  rw [hd] at h3
  have h3b := not_not.1 h3
  obtain ⟨c, hc, hnone, _, he⟩ := inode_create_success h4
  have hpc : p ≠ (c : Int) := by
    intro h0; rw [h0, hnone] at hp; exact absurd hp (by decide)
  rw [he] at h5 ⊢
  simp only at h5 ⊢
  have hp1 : nodeTypeOf (setSlot t c ⟨nodeType, fresh_data cfg nodeType⟩) p = T_DIRECTORY := by
    rw [nodeTypeOf_inode_create hc]; simp [hpc, hp]
  have hd1 : dataOf (setSlot t c ⟨nodeType, fresh_data cfg nodeType⟩) p = dataOf t p := by
    rw [dataOf_inode_create hc]; simp [hpc]
  rcases dir_add_entry_spec cfg (setSlot t c ⟨nodeType, fresh_data cfg nodeType⟩) p c child
    with hf | ⟨es, j, e0, _, hes, hj, hfree, hfirst, hne, _, hsub, heq⟩
  · rw [hf] at h5; exact absurd rfl h5
  · rw [hd1] at hes
    refine ⟨c, es, j, e0, hp, hes, h3b, hc, hnone, rfl, hj, hfree, hfirst, hne, ?_, hpc, ?_⟩
    · rw [nodeTypeOf_inode_create hc] at hsub
      simpa using hsub
    · rw [heq]

end TecnicoFS

namespace TecnicoFS
open type Status

/-- Walks that avoid the ids in `bad` are the same in two tables that agree on every
`lookup_sub_node` whose result is not in `bad`. -/
theorem resolve_stable {cfg : Config} {t t1 : Table} (hI : Inv cfg t) (bad : Int → Prop)
    (hstep : ∀ cur tok, nodeTypeOf t cur = T_DIRECTORY →
      lookup_sub_node tok (dataOf t cur) ≠ FAIL → ¬ bad (lookup_sub_node tok (dataOf t cur)) →
      lookup_sub_node tok (dataOf t1 cur) = lookup_sub_node tok (dataOf t cur)) :
    ∀ (toks : List (List Char)) (cur : Int), nodeTypeOf t cur ≠ T_NONE →
      resolve t toks cur ≠ FAIL →
      (∀ u v, toks = u ++ v → u ≠ [] → ¬ bad (resolve t u cur)) →
      resolve t1 toks cur = resolve t toks cur := by
  intro toks
  induction toks with
  | nil => intro cur _ _ _; rfl
  | cons tok rest ih =>
    intro cur hcur h hbad
    rw [resolve_cons] at h
    have h1 : lookup_sub_node tok (dataOf t cur) ≠ FAIL := by
      intro h0; rw [if_pos h0] at h; exact h rfl
    rw [if_neg h1] at h
    obtain ⟨hd, _, _, hv, _⟩ := lookup_sub_node_valid hI hcur h1
    have hb : ¬ bad (lookup_sub_node tok (dataOf t cur)) := by
      have := hbad [tok] rest rfl (by simp)
      rw [resolve_cons, if_neg h1, resolve_nil] at this
      exact this
    have he := hstep cur tok hd h1 hb
    rw [resolve_cons, resolve_cons, he, if_neg h1, if_neg h1]
    refine ih _ hv h ?_
    intro u v huv hu
    have := hbad (tok :: u) v (by rw [huv]; rfl) (by simp)
    rw [resolve_cons, if_neg h1] at this
    exact this

theorem nodeTypeOf_FAIL (t : Table) : nodeTypeOf t FAIL = T_NONE := by
  simp [nodeTypeOf, slot, FAIL]

/-- The table after a successful `create`, slot by slot. -/
theorem create_table_pointwise {cfg : Config} {t : Table} {p : Int} {c : Nat}
    {nodeType : type} (es1 : List DirEntry) (hc : c < t.length)
    (hp : nodeTypeOf t p = T_DIRECTORY) (hpc : p ≠ (c : Int)) (x : Int) :
    nodeTypeOf (setSlot (setSlot t c ⟨nodeType, fresh_data cfg nodeType⟩) p
        ⟨T_DIRECTORY, some es1⟩) x = (if x = (c : Int) then nodeType else nodeTypeOf t x) ∧
    dataOf (setSlot (setSlot t c ⟨nodeType, fresh_data cfg nodeType⟩) p
        ⟨T_DIRECTORY, some es1⟩) x =
      (if x = p then some es1 else if x = (c : Int) then fresh_data cfg nodeType
        else dataOf t x) := by
  have hp1 : nodeTypeOf (setSlot t c ⟨nodeType, fresh_data cfg nodeType⟩) p = T_DIRECTORY := by
    rw [nodeTypeOf_inode_create hc]; simp [hpc, hp]
  rw [nodeTypeOf_set_entries hp1, dataOf_set_entries hp1, nodeTypeOf_inode_create hc,
    dataOf_inode_create hc]
  exact ⟨rfl, rfl⟩

/-- Every walk that succeeds before a successful `create` gives the same id after it. -/
theorem resolve_after_create {cfg : Config} {t : Table} (hI : Inv cfg t) {p : Int} {c : Nat}
    {nodeType : type} {es : List DirEntry} {j : Nat} {e0 : DirEntry} {child : List Char}
    (hc : c < t.length) (hnone : nodeTypeOf t c = T_NONE)
    (hp : nodeTypeOf t p = T_DIRECTORY) (hes : dataOf t p = some es)
    (hch : lookup_sub_node child (dataOf t p) = FAIL)
    (hj : es[j]? = some e0) (hfree : e0.inumber = FREE_INODE) (hpc : p ≠ (c : Int))
    (toks : List (List Char)) (cur : Int) (hcur : nodeTypeOf t cur ≠ T_NONE)
    (h : resolve t toks cur ≠ FAIL) :
    resolve (setSlot (setSlot t c ⟨nodeType, fresh_data cfg nodeType⟩) p
        ⟨T_DIRECTORY, some (es.set j ⟨child, c⟩)⟩) toks cur = resolve t toks cur := by
  refine resolve_stable hI (fun _ => False) ?_ toks cur hcur h (fun _ _ _ _ => id)
  intro x tok hx hl _
  rw [(create_table_pointwise (es.set j ⟨child, c⟩) hc hp hpc x).2]
  have hxc : x ≠ (c : Int) := by
    intro h0; rw [h0, hnone] at hx; exact absurd hx (by decide)
  by_cases hxp : x = p
  · subst hxp
    rw [if_pos rfl]
    rw [hes] at hl hch ⊢
    simp only [lookup_sub_node] at hl hch ⊢
    refine lookup_sub_node_loop_set_other tok _ ?_ es j e0 hj ?_
    · rintro ⟨_, h2⟩
      simp only at h2
      rw [h2] at hch
      exact hl hch
    · rintro ⟨h1, _⟩
      exact h1 hfree
  · simp [hxp, hxc]

end TecnicoFS

/-! ## Claim C8: lookup after a successful create -/

namespace TecnicoFS
open type Status

/-- After a successful `create` below the parent reached by the tokens `init`, the tokens
`init ++ [child]` lead to the slot that `inode_create` allocated. -/
theorem create_at_then_resolve {cfg : Config} {t : Table} (hI : Inv cfg t)
    (init : List (List Char)) (child : List Char) (nodeType : type)
    (hs : (create_at cfg t (resolve t init FS_ROOT) child nodeType).2 = Status.SUCCESS) :
    resolve (create_at cfg t (resolve t init FS_ROOT) child nodeType).1 (init ++ [child]) FS_ROOT
        = (inode_create cfg t nodeType).2 ∧
      0 ≤ (inode_create cfg t nodeType).2 ∧
      (inode_create cfg t nodeType).2 < (cfg.INODE_TABLE_SIZE : Int) ∧
      nodeTypeOf t (inode_create cfg t nodeType).2 = T_NONE ∧
      nodeTypeOf (create_at cfg t (resolve t init FS_ROOT) child nodeType).1
        (inode_create cfg t nodeType).2 = nodeType := by
  obtain ⟨c, es, j, e0, hp, hes, hch, hc, hnone, hcr, hj, hfree, hfirst, hne, hk, hpc, heq⟩ :=
    create_at_success hs
  rw [heq, hcr]
  simp only
  have hpF : resolve t init FS_ROOT ≠ FAIL := by
    intro h0; rw [h0, nodeTypeOf_FAIL] at hp; exact absurd hp (by decide)
  have hst := @resolve_after_create cfg t hI _ c nodeType es j e0 child hc hnone hp hes hch hj
    hfree hpc init FS_ROOT (root_valid hI) hpF
  have hjl : j < es.length := (List.getElem?_eq_some.1 hj).1
  have hcpos : (c : Int) ≠ FREE_INODE := by unfold FREE_INODE; omega
  refine ⟨?_, by omega, ?_, hnone, ?_⟩
  · rw [resolve_append, hst, if_neg hpF, resolve_cons, resolve_nil]
    rw [(create_table_pointwise (es.set j ⟨child, c⟩) hc hp hpc _).2, if_pos rfl]
    simp only [lookup_sub_node]
    rw [lookup_sub_node_loop_set_match child ⟨child, c⟩ ⟨hcpos, rfl⟩ es j hjl]
    · simp only
      rw [if_neg]
      exact hcpos
    · intro k e hk he
      rw [hes] at hch
      simp only [lookup_sub_node] at hch
      rintro ⟨h1, h2⟩
      exact (lookup_sub_node_loop_eq_FAIL child es).1 hch e (List.getElem?_mem he) h1 h2
  · have := hI.length_eq
    omega
  · rw [(create_table_pointwise (es.set j ⟨child, c⟩) hc hp hpc _).1, if_pos rfl]

theorem exists_init_last {cs : List (List Char)} (hne : cs ≠ []) :
    ∃ init c, cs = init ++ [c] :=
  ⟨cs.dropLast, cs.getLast hne, (List.dropLast_append_getLast hne).symm⟩

/-- C8: for every table reachable from `init_fs` and every path made of non-empty
components separated by single `'/'` characters, with or without a leading `'/'`: if
`create(p, kind)` returns `SUCCESS` then `lookup(p)` on the resulting table returns the id
of the slot that `inode_create` took, a slot in `[0, INODE_TABLE_SIZE)` that was `T_NONE`
before the call and has type `kind` after it. -/
theorem lookup_after_create (cfg : Config) (t : Table) (h : Reachable cfg t)
    (leading : Bool) (cs : List (List Char)) (nodeType : type)
    (hne : cs ≠ []) (hcs : ∀ c ∈ cs, is_component c)
    (hs : (create cfg t (path_of leading cs) nodeType).2 = Status.SUCCESS) :
    lookup cfg (create cfg t (path_of leading cs) nodeType).1 (path_of leading cs) =
        (inode_create cfg t nodeType).2 ∧
      0 ≤ (inode_create cfg t nodeType).2 ∧
      (inode_create cfg t nodeType).2 < (cfg.INODE_TABLE_SIZE : Int) ∧
      nodeTypeOf t (inode_create cfg t nodeType).2 = T_NONE ∧
      nodeTypeOf (create cfg t (path_of leading cs) nodeType).1
        (inode_create cfg t nodeType).2 = nodeType := by
  have hI := Inv_of_Reachable h
  have hI1 := Inv_create hI (path_of leading cs) nodeType
  obtain ⟨init, c, hic⟩ := exists_init_last hne
  subst hic
  have hinit : ∀ x ∈ init, is_component x := fun x hx => hcs x (by simp [hx])
  have hc : is_component c := hcs c (by simp)
  obtain ⟨hpar, hchild⟩ := split_path_of leading init c hinit hc
  rw [lookup_eq_resolve hI1, strtok_r_path_of leading _ hcs]
  rw [create_eq_create_at, aux_lookup_fst hI, hpar, hchild] at hs ⊢
  obtain ⟨h1, h2, h3, h4, h5⟩ := create_at_then_resolve hI init c nodeType hs
  refine ⟨?_, h2, h3, h4, h5⟩
  rw [h1, if_neg (by omega)]

theorem lookup_after_create_witness :
    lookup cfg0 (create cfg0 tInit (path_of true ["a".toList]) T_FILE).1
        (path_of true ["a".toList]) = (inode_create cfg0 tInit T_FILE).2 ∧
      0 ≤ (inode_create cfg0 tInit T_FILE).2 ∧
      (inode_create cfg0 tInit T_FILE).2 < (cfg0.INODE_TABLE_SIZE : Int) ∧
      nodeTypeOf tInit (inode_create cfg0 tInit T_FILE).2 = T_NONE ∧
      nodeTypeOf (create cfg0 tInit (path_of true ["a".toList]) T_FILE).1
        (inode_create cfg0 tInit T_FILE).2 = T_FILE :=
  lookup_after_create cfg0 tInit reach_tInit true ["a".toList] T_FILE (by decide)
    (by intro c hc; simp at hc; subst hc; exact ⟨by decide, by decide⟩) (by decide)

end TecnicoFS

/-! ## Claim C9: create followed by delete -/

namespace TecnicoFS
open type Status

theorem ne_FAIL_of_nodeType {t : Table} {x : Int} (h : nodeTypeOf t x ≠ T_NONE) : x ≠ FAIL := by
  intro h0; rw [h0, nodeTypeOf_FAIL] at h; exact h rfl

/-- The function `delete_at` when every test passes. -/
theorem delete_at_eq {cfg : Config} {t : Table} {p c : Int} {child : List Char}
    {es es2 : List DirEntry} (hlen : t.length = cfg.INODE_TABLE_SIZE)
    (hp : nodeTypeOf t p = T_DIRECTORY) (hes : dataOf t p = some es)
    (hl : lookup_sub_node child (some es) = c) (hc : nodeTypeOf t c ≠ T_NONE)
    (hempty : ¬ (nodeTypeOf t c = T_DIRECTORY ∧ is_dir_empty (dataOf t c) = FAIL))
    (hr : reset_first c es = some es2) :
    delete_at cfg t p child =
      (setSlot (setSlot t p ⟨T_DIRECTORY, some es2⟩) c
        ⟨T_NONE, dataOf (setSlot t p ⟨T_DIRECTORY, some es2⟩) c⟩, Status.SUCCESS) := by
  have hpv : nodeTypeOf t p ≠ T_NONE := by rw [hp]; decide
  have hpF : p ≠ FAIL := ne_FAIL_of_nodeType hpv
  have hcF : c ≠ FAIL := ne_FAIL_of_nodeType hc
  have hreset : dir_reset_entry cfg t p c =
      (setSlot t p ⟨T_DIRECTORY, some es2⟩, SUCCESS) := by
    rw [dir_reset_entry_eq hlen hp hes hc, hr]
  have hc2 : nodeTypeOf (setSlot t p ⟨T_DIRECTORY, some es2⟩) c ≠ T_NONE := by
    rw [nodeTypeOf_set_entries hp]; exact hc
  have hlen2 : (setSlot t p ⟨T_DIRECTORY, some es2⟩).length = cfg.INODE_TABLE_SIZE := by
    rw [length_setSlot]; exact hlen
  have hdel : inode_delete cfg (setSlot t p ⟨T_DIRECTORY, some es2⟩) c =
      (setSlot (setSlot t p ⟨T_DIRECTORY, some es2⟩) c
        ⟨T_NONE, dataOf (setSlot t p ⟨T_DIRECTORY, some es2⟩) c⟩, SUCCESS) := by
    unfold inode_delete
    rw [invalid_inumber_of_valid hlen2 hc2]
    simp
  unfold delete_at
  rw [if_neg hpF, inode_get_of_valid hlen hpv]
  simp only [hp, hes, hl, ne_eq, not_true_eq_false, if_false, hcF]
  rw [inode_get_of_valid hlen hc]
  simp only
  rw [if_neg hempty, hreset]
  simp only
  rw [if_neg (by decide), hdel]
  simp only
  rw [if_neg (by decide)]

theorem set_getElem?_self {α : Type} :
    ∀ (es : List α) (j : Nat) (e : α), es[j]? = some e → es.set j e = es := by
  intro es
  induction es with
  | nil => intro j e h; simp at h
  | cons a es ih =>
    intro j e h
    cases j with
    | zero => simp at h; simp [h]
    | succ j => simp at h; simp [ih j e h]

theorem reset_first_set (c : Int) (name : List Char) :
    ∀ (es : List DirEntry) (j : Nat), j < es.length → (∀ e ∈ es, e.inumber ≠ c) →
      reset_first c (es.set j ⟨name, c⟩) = some (es.set j ⟨[], FREE_INODE⟩) := by
  intro es
  induction es with
  | nil => intro j h; simp at h
  | cons a es ih =>
    intro j hj hne
    cases j with
    | zero => simp [reset_first]
    | succ j =>
      have ha : a.inumber ≠ c := hne a (by simp)
      simp only [List.set_cons_succ, reset_first, ha, if_false]
      rw [ih j (by simpa using hj) (fun e he => hne e (List.mem_cons_of_mem _ he))]
      rfl

theorem is_dir_empty_fresh (cfg : Config) :
    is_dir_empty (fresh_data cfg T_DIRECTORY) = SUCCESS := by
  simp [is_dir_empty, fresh_data]

end TecnicoFS

namespace TecnicoFS
open type Status

/-- A successful `create_at` followed by `delete_at` with the same parent and child. -/
theorem create_at_then_delete_at {cfg : Config} {t : Table} (hI : Inv cfg t) (p : Int)
    (child : List Char) (nodeType : type)
    (hs : (create_at cfg t p child nodeType).2 = Status.SUCCESS) :
    (delete_at cfg (create_at cfg t p child nodeType).1 p child).2 = Status.SUCCESS ∧
    (delete_at cfg (create_at cfg t p child nodeType).1 p child).1.length = t.length ∧
    (∀ x, nodeTypeOf (delete_at cfg (create_at cfg t p child nodeType).1 p child).1 x =
      nodeTypeOf t x) ∧
    (∀ d, nodeTypeOf t d = T_DIRECTORY →
      dataOf (delete_at cfg (create_at cfg t p child nodeType).1 p child).1 d = dataOf t d) := by
  obtain ⟨c, es, j, e0, hp, hes, hch, hc, hnone, hcr, hj, hfree, hfirst, hne, hk, hpc, heq⟩ :=
    create_at_success hs
  rw [heq]
  have hjl : j < es.length := (List.getElem?_eq_some.1 hj).1
  have hcpos : (c : Int) ≠ FREE_INODE := by unfold FREE_INODE; omega
  have hpw := fun x => @create_table_pointwise cfg t p c nodeType (es.set j ⟨child, c⟩) hc hp
    hpc x
  have hlen1 : (setSlot (setSlot t c ⟨nodeType, fresh_data cfg nodeType⟩) p
      ⟨T_DIRECTORY, some (es.set j ⟨child, c⟩)⟩).length = cfg.INODE_TABLE_SIZE := by
    rw [length_setSlot, length_setSlot]; exact hI.length_eq
  have hp1 := (hpw p).1
  rw [if_neg hpc, hp] at hp1
  have hes1 := (hpw p).2
  rw [if_pos rfl] at hes1
  have hc1 := (hpw c).1
  rw [if_pos rfl] at hc1
  have hdc1 := (hpw c).2
  rw [if_neg (Ne.symm hpc), if_pos rfl] at hdc1
  have hl : lookup_sub_node child (some (es.set j ⟨child, c⟩)) = (c : Int) := by
    simp only [lookup_sub_node]
    rw [lookup_sub_node_loop_set_match child ⟨child, c⟩ ⟨hcpos, rfl⟩ es j hjl]
    intro k e hk he
    rw [hes] at hch
    simp only [lookup_sub_node] at hch
    rintro ⟨h1, h2⟩
    exact (lookup_sub_node_loop_eq_FAIL child es).1 hch e (List.getElem?_mem he) h1 h2
  have he0 : e0 = ⟨[], FREE_INODE⟩ := by
    have hn := hI.free_name p j e0 (by simp [entryAt, hp, hes, hj]) hfree
    cases e0
    simp only at hn hfree
    simp [hn, hfree]
  have hnotc : ∀ e ∈ es, e.inumber ≠ (c : Int) := by
    intro e he h0
    obtain ⟨i, hi⟩ := List.getElem?_of_mem he
    by_cases hf : e.inumber = FREE_INODE
    · rw [h0] at hf; exact hcpos hf
    · have := (hI.valid p i e (liveEntry_intro hp hes hi hf)).2.2
      rw [h0] at this
      exact this hnone
  have hr : reset_first (c : Int) (es.set j ⟨child, c⟩) = some es := by
    rw [reset_first_set c child es j hjl hnotc, ← he0, set_getElem?_self es j e0 hj]
  have hempty : ¬ (nodeTypeOf (setSlot (setSlot t c ⟨nodeType, fresh_data cfg nodeType⟩) p
      ⟨T_DIRECTORY, some (es.set j ⟨child, c⟩)⟩) c = T_DIRECTORY ∧
      is_dir_empty (dataOf (setSlot (setSlot t c ⟨nodeType, fresh_data cfg nodeType⟩) p
      ⟨T_DIRECTORY, some (es.set j ⟨child, c⟩)⟩) c) = FAIL) := by
    rintro ⟨h1, h2⟩
    rw [hc1] at h1
    rw [hdc1, h1, is_dir_empty_fresh] at h2
    exact absurd h2 (by decide)
  rw [delete_at_eq hlen1 hp1 hes1 hl (by rw [hc1]; exact hk) hempty hr]
  simp only
  have hc0 : (0 : Int) ≤ (c : Int) := by omega
  have hnt2 := fun x => @nodeTypeOf_set_entries _ p hp1 es x
  have hdt2 := fun x => @dataOf_set_entries _ p hp1 es x
  have hcl2 : ((c : Int)).toNat < (setSlot (setSlot (setSlot t c
      ⟨nodeType, fresh_data cfg nodeType⟩) p ⟨T_DIRECTORY, some (es.set j ⟨child, c⟩)⟩) p
      ⟨T_DIRECTORY, some es⟩).length := by
    rw [length_setSlot, length_setSlot, length_setSlot]; simpa using hc
  refine ⟨trivial, ?_, ?_, ?_⟩
  · rw [length_setSlot, length_setSlot, length_setSlot, length_setSlot]
  · intro x
    rw [nodeTypeOf_setSlot _ _ _ x hc0 hcl2, hnt2, (hpw x).1]
    by_cases hx : x = (c : Int)
    · simp [hx, hnone]
    · simp [hx]
  · intro d hd
    have hdc : d ≠ (c : Int) := by
      intro h0; rw [h0, hnone] at hd; exact absurd hd (by decide)
    rw [dataOf_setSlot _ _ _ d hc0 hcl2, if_neg hdc, hdt2, (hpw d).2]
    by_cases hdp : d = p
    · simp [hdp, hes]
    · simp [hdp, hdc]

/-- C9: for every table reachable from `init_fs`, every path `p` and kind `k`: if
`create(p, k)` returns `SUCCESS` then the immediately following `delete(p)` returns
`SUCCESS` and leaves the table as it was before the `create`: the same number of slots,
every slot with the same type, every directory with the same entry (name and id) in every
cell, and the slot taken by the `create` is `T_NONE` again. -/
theorem create_then_delete (cfg : Config) (t : Table) (h : Reachable cfg t)
    (name : List Char) (nodeType : type)
    (hs : (create cfg t name nodeType).2 = Status.SUCCESS) :
    (delete cfg (create cfg t name nodeType).1 name).2 = Status.SUCCESS ∧
    (delete cfg (create cfg t name nodeType).1 name).1.length = t.length ∧
    (∀ x, nodeTypeOf (delete cfg (create cfg t name nodeType).1 name).1 x = nodeTypeOf t x) ∧
    (∀ d, nodeTypeOf t d = T_DIRECTORY →
      dataOf (delete cfg (create cfg t name nodeType).1 name).1 d = dataOf t d) ∧
    nodeTypeOf (delete cfg (create cfg t name nodeType).1 name).1
      (inode_create cfg t nodeType).2 = T_NONE := by
  have hI := Inv_of_Reachable h
  have hI1 := Inv_create hI name nodeType
  rw [delete_eq_delete_at, aux_lookup_fst hI1]
  rw [create_eq_create_at, aux_lookup_fst hI] at hs ⊢
  obtain ⟨c, es, j, e0, hp, hes, hch, hc, hnone, hcr, hj, hfree, hfirst, hne, hk, hpc, heq⟩ :=
    create_at_success hs
  have hpF : resolve t (strtok_r (split_parent_child_from_path name).1 []) FS_ROOT ≠ FAIL :=
    ne_FAIL_of_nodeType (by rw [hp]; decide)
  have hst := @resolve_after_create cfg t hI _ c nodeType es j e0 _ hc hnone hp hes hch hj
    hfree hpc _ FS_ROOT (root_valid hI) hpF
  rw [← heq] at hst
  rw [hst]
  obtain ⟨h1, h2, h3, h4⟩ := create_at_then_delete_at hI _ _ nodeType hs
  refine ⟨h1, h2, h3, h4, ?_⟩
  rw [h3, hcr]
  exact hnone

theorem create_then_delete_witness :
    (delete cfg0 (create cfg0 tInit "/a".toList T_DIRECTORY).1 "/a".toList).2 =
      Status.SUCCESS ∧
    (delete cfg0 (create cfg0 tInit "/a".toList T_DIRECTORY).1 "/a".toList).1.length =
      tInit.length ∧
    (∀ x, nodeTypeOf (delete cfg0 (create cfg0 tInit "/a".toList T_DIRECTORY).1
      "/a".toList).1 x = nodeTypeOf tInit x) ∧
    (∀ d, nodeTypeOf tInit d = T_DIRECTORY →
      dataOf (delete cfg0 (create cfg0 tInit "/a".toList T_DIRECTORY).1 "/a".toList).1 d =
        dataOf tInit d) ∧
    nodeTypeOf (delete cfg0 (create cfg0 tInit "/a".toList T_DIRECTORY).1 "/a".toList).1
      (inode_create cfg0 tInit T_DIRECTORY).2 = T_NONE :=
  create_then_delete cfg0 tInit reach_tInit "/a".toList T_DIRECTORY (by decide)

end TecnicoFS

/-! ## Walks from the root never come back to a node -/

namespace TecnicoFS
open type Status

theorem resolve_snoc {t : Table} {w : List (List Char)} {tk : List Char} {cur : Int}
    (h : resolve t (w ++ [tk]) cur ≠ FAIL) :
    resolve t w cur ≠ FAIL ∧
    lookup_sub_node tk (dataOf t (resolve t w cur)) ≠ FAIL ∧
    resolve t (w ++ [tk]) cur = lookup_sub_node tk (dataOf t (resolve t w cur)) := by
  rw [resolve_append] at h ⊢
  by_cases h1 : resolve t w cur = FAIL
  · rw [if_pos h1] at h; exact absurd rfl h
  · rw [if_neg h1] at h ⊢
    rw [resolve_cons, resolve_nil] at h ⊢
    by_cases h2 : lookup_sub_node tk (dataOf t (resolve t w cur)) = FAIL
    · rw [if_pos h2] at h; exact absurd rfl h
    · rw [if_neg h2]
      exact ⟨h1, h2, rfl⟩

/-- A node that a walk from the root reaches is not reached again by a non-empty walk
that starts from it: every id has at most one live entry, and none names the root. -/
theorem resolve_no_revisit {cfg : Config} {t : Table} (hI : Inv cfg t) :
    ∀ (toks1 : List (List Char)) (toks2 : List (List Char)),
      resolve t toks1 FS_ROOT ≠ FAIL → toks2 ≠ [] →
      resolve t toks2 (resolve t toks1 FS_ROOT) ≠ resolve t toks1 FS_ROOT := by
  intro toks1
  induction toks1 using List.reverseRecOn with
  | nil =>
    intro toks2 _ h2 heq
    obtain ⟨w2, tk2, hw⟩ := exists_init_last h2
    subst hw
    rw [resolve_nil] at heq
    have hne : resolve t (w2 ++ [tk2]) FS_ROOT ≠ FAIL := by rw [heq]; decide
    obtain ⟨a1, a2, a3⟩ := resolve_snoc hne
    have hv := resolve_valid hI w2 FS_ROOT (root_valid hI) a1
    obtain ⟨_, hpos, _⟩ := lookup_sub_node_valid hI hv a2
    rw [← a3, heq] at hpos
    exact absurd hpos (by decide)
  | append_singleton w1 tk1 ih =>
    intro toks2 h1 h2 heq
    obtain ⟨w2, tk2, hw⟩ := exists_init_last h2
    subst hw
    obtain ⟨a1, a2, a3⟩ := resolve_snoc h1
    have hv1 := resolve_valid hI w1 FS_ROOT (root_valid hI) a1
    obtain ⟨_, _, _, hvx, i1, e1, hl1, he1, _⟩ := lookup_sub_node_valid hI hv1 a2
    have hne : resolve t (w2 ++ [tk2]) (resolve t (w1 ++ [tk1]) FS_ROOT) ≠ FAIL := by
      rw [heq]; exact h1
    obtain ⟨b1, b2, b3⟩ := resolve_snoc hne
    have hvx1 : nodeTypeOf t (resolve t (w1 ++ [tk1]) FS_ROOT) ≠ T_NONE := by
      rw [a3]; exact hvx
    have hv2 := resolve_valid hI w2 _ hvx1 b1
    obtain ⟨_, _, _, _, i2, e2, hl2, he2, _⟩ := lookup_sub_node_valid hI hv2 b2
    have hsame : e2.inumber = e1.inumber := by
      rw [he2, he1, ← b3, heq, a3]
    obtain ⟨hy, _⟩ := hI.uniq _ i2 e2 _ i1 e1 hl2 hl1 hsame
    refine ih (tk1 :: w2) a1 (by simp) ?_
    rw [resolve_cons, if_neg a2, ← a3]
    exact hy

end TecnicoFS

/-! ## Removing and adding an entry, seen through the live entries -/

namespace TecnicoFS
open type Status

theorem liveEntry_dir {t : Table} {d : Int} {i : Nat} {e : DirEntry} (h : LiveEntry t d i e) :
    nodeTypeOf t d = T_DIRECTORY ∧ ∃ es, dataOf t d = some es ∧ es[i]? = some e := by
  obtain ⟨h1, _⟩ := h
  unfold entryAt at h1
  split_ifs at h1 with hd
  cases hes : dataOf t d with
  | none => simp [hes] at h1
  | some es =>
    simp only [hes] at h1
    exact ⟨hd, es, rfl, h1⟩

theorem entryAt_eq {t : Table} {d : Int} {es : List DirEntry}
    (hd : nodeTypeOf t d = T_DIRECTORY) (hes : dataOf t d = some es) (i : Nat) :
    entryAt t d i = es[i]? := by
  simp [entryAt, hd, hes]

/-- In a table that satisfies the invariant, looking up the name of a live entry in its
directory gives the id of that entry. -/
theorem lookup_sub_node_of_live {cfg : Config} {t : Table} (hI : Inv cfg t) {d : Int} {i : Nat}
    {e : DirEntry} (hl : LiveEntry t d i e) :
    lookup_sub_node e.name (dataOf t d) = e.inumber := by
  obtain ⟨hd, _⟩ := liveEntry_dir hl
  have hne : lookup_sub_node e.name (dataOf t d) ≠ FAIL := by
    intro h0
    exact (lookup_sub_node_eq_FAIL hd e.name).1 h0 i e hl rfl
  obtain ⟨es, i1, e1, _, _, hl1, he1, hn1⟩ := lookup_sub_node_found hd hne
  have hi := hI.names d i1 i e1 e hl1 hl hn1
  subst hi
  have : e1 = e := by
    have h1 := hl1.1
    rw [hl.1] at h1
    exact (Option.some.inj h1).symm
  rw [← he1, this]

/-- Removing the id of a live entry clears exactly the cell of that entry. -/
theorem dir_reset_entry_of_live {cfg : Config} {t : Table} (hI : Inv cfg t) {p : Int} {j : Nat}
    {e : DirEntry} (hl : LiveEntry t p j e) :
    ∃ es, dataOf t p = some es ∧ es[j]? = some e ∧ nodeTypeOf t p = T_DIRECTORY ∧
      dir_reset_entry cfg t p e.inumber =
        (setSlot t p ⟨T_DIRECTORY, some (es.set j ⟨[], FREE_INODE⟩)⟩, SUCCESS) := by
  obtain ⟨hp, es, hes, hj⟩ := liveEntry_dir hl
  refine ⟨es, hes, hj, hp, ?_⟩
  rw [dir_reset_entry_eq hI.length_eq hp hes (hI.valid p j e hl).2.2]
  cases hr : reset_first e.inumber es with
  | none =>
    exact absurd rfl ((reset_first_eq_none _ es).1 hr e (List.getElem?_mem hj))
  | some es1 =>
    obtain ⟨j1, e0, a1, a2, _, a4⟩ := reset_first_spec _ es es1 hr
    have hl0 : LiveEntry t p j1 e0 := liveEntry_intro hp hes a1 (by rw [a2]; exact hl.2)
    obtain ⟨_, hjj⟩ := hI.uniq p j1 e0 p j e hl0 hl a2
    subst hjj
    rw [a4]

/-- Adding an entry to a directory that has a free cell fills the first free cell. -/
theorem dir_add_entry_of_free {cfg : Config} {t : Table} {p sub : Int} {name : List Char}
    {es : List DirEntry} (hlen : t.length = cfg.INODE_TABLE_SIZE)
    (hp : nodeTypeOf t p = T_DIRECTORY) (hes : dataOf t p = some es)
    (hsub : nodeTypeOf t sub ≠ T_NONE) (hname : name ≠ [])
    (hfree : ∃ e ∈ es, e.inumber = FREE_INODE) :
    ∃ i0 e0, es[i0]? = some e0 ∧ e0.inumber = FREE_INODE ∧
      dir_add_entry cfg t p sub name =
        (setSlot t p ⟨T_DIRECTORY, some (es.set i0 ⟨name, sub⟩)⟩, SUCCESS) := by
  rw [dir_add_entry_eq hlen hp hes hsub hname]
  cases hr : add_first sub name es with
  | none =>
    obtain ⟨e, he, hf⟩ := hfree
    exact absurd hf ((add_first_eq_none sub name es).1 hr e he)
  | some es1 =>
    obtain ⟨j, e0, a1, a2, _, a4⟩ := add_first_spec sub name es es1 hr
    exact ⟨j, e0, a1, a2, by rw [a4]⟩

theorem slot_of_fields {t : Table} {x : Int} {ty : type} {dt : Data}
    (h1 : nodeTypeOf t x = ty) (hne : ty ≠ T_NONE) (h2 : dataOf t x = dt) :
    slot t x = some ⟨ty, dt⟩ := by
  obtain ⟨n, hn, _, _⟩ := @slot_isSome_of_nodeType t x (by rw [h1]; exact hne)
  rw [nodeTypeOf_eq_of_slot hn] at h1
  rw [dataOf_eq_of_slot hn] at h2
  rw [hn]
  cases n
  simp only at h1 h2
  simp [h1, h2]

theorem setSlot_self {t : Table} {x : Int} {n : inode_t} (h : slot t x = some n) :
    setSlot t x n = t := by
  unfold slot at h
  unfold setSlot
  split_ifs at h ⊢ with hx
  exact set_getElem?_self t _ n h

theorem setSlot_setSlot (t : Table) (x : Int) (a b : inode_t) :
    setSlot (setSlot t x a) x b = setSlot t x b := by
  unfold setSlot
  split_ifs with hx
  · rfl
  · simp [List.set_set]

end TecnicoFS

/-! ## A move whose removal and insertion both succeed -/

namespace TecnicoFS
open type Status

theorem move_commit_success {cfg : Config} {t : Table} {ps pd : Int} {sc dc : List Char}
    (hs : (move_commit cfg t ps pd sc dc).2 = Status.SUCCESS) :
    nodeTypeOf t pd = T_DIRECTORY ∧ lookup_sub_node dc (dataOf t pd) = FAIL ∧
    nodeTypeOf t ps = T_DIRECTORY ∧ lookup_sub_node sc (dataOf t ps) ≠ FAIL := by
  unfold move_commit at hs
  simp only at hs
  split_ifs at hs with h2 h3 h4
  rw [not_or, not_not, not_not] at h3
  rw [not_or, not_not] at h4
  obtain ⟨a, b⟩ := inode_get_dir h3.1
  obtain ⟨a2, b2⟩ := inode_get_dir h4.1
  have h3b := h3.2
  have h4b := h4.2
  rw [b] at h3b
  rw [b2] at h4b
  exact ⟨a, h3b, a2, h4b⟩

theorem move_commit_eq {cfg : Config} {t : Table} {ps pd : Int} {sc dc : List Char}
    (hlen : t.length = cfg.INODE_TABLE_SIZE)
    (hpd : nodeTypeOf t pd = T_DIRECTORY) (hdc : lookup_sub_node dc (dataOf t pd) = FAIL)
    (hps : nodeTypeOf t ps = T_DIRECTORY) (hm : lookup_sub_node sc (dataOf t ps) ≠ FAIL) :
    move_commit cfg t ps pd sc dc =
      ((dir_add_entry cfg
          (dir_remove_entry cfg t ps (lookup_sub_node sc (dataOf t ps))).1 pd
          (lookup_sub_node sc (dataOf t ps)) dc).1, Status.SUCCESS) := by
  have hpdv : nodeTypeOf t pd ≠ T_NONE := by rw [hpd]; decide
  have hpsv : nodeTypeOf t ps ≠ T_NONE := by rw [hps]; decide
  obtain ⟨a1, _, _⟩ := nodeType_in_range hlen hpdv
  obtain ⟨a2, _, _⟩ := nodeType_in_range hlen hpsv
  unfold move_commit
  rw [if_neg (by omega), inode_get_of_valid hlen hpdv, inode_get_of_valid hlen hpsv]
  simp only [hpd, hps, hdc, hm, ne_eq, not_true_eq_false, or_self, if_false, not_false_eq_true]

theorem dirEntry_eta (e : DirEntry) : e = ⟨e.name, e.inumber⟩ := by
  cases e; rfl

/-- A successful `move` after which the moved id is still held by a live entry: both
`dir_remove_entry` and `dir_add_entry` succeeded. -/
theorem move_commit_done {cfg : Config} {t : Table} (hI : Inv cfg t) {ps pd : Int}
    {sc dc : List Char} (hs : (move_commit cfg t ps pd sc dc).2 = Status.SUCCESS)
    (hlisted : ∃ q i e, LiveEntry (move_commit cfg t ps pd sc dc).1 q i e ∧
      e.inumber = lookup_sub_node sc (dataOf t ps)) :
    ∃ es_s j es_d i0, MoveDone t ps pd sc dc (lookup_sub_node sc (dataOf t ps)) es_s j es_d i0
      (move_commit cfg t ps pd sc dc).1 := by
  obtain ⟨hpd, hdc, hps, hm⟩ := move_commit_success hs
  obtain ⟨es, j, e, hes, hj, hl, he, hn⟩ := lookup_sub_node_found hps hm
  have heta : e = ⟨sc, lookup_sub_node sc (dataOf t ps)⟩ := by
    rw [dirEntry_eta e, hn, he]
  obtain ⟨es0, hes0, _, _, hreset⟩ := @dir_reset_entry_of_live cfg t hI ps j e hl
  rw [hes] at hes0
  have hesEq : es = es0 := Option.some.inj hes0
  subst hesEq
  rw [he] at hreset
  rw [move_commit_eq hI.length_eq hpd hdc hps hm] at hlisted ⊢
  unfold dir_remove_entry at hlisted ⊢
  rw [hreset] at hlisted ⊢
  simp only at hlisted ⊢
  rcases dir_add_entry_spec cfg (setSlot t ps ⟨T_DIRECTORY, some (es.set j ⟨[], FREE_INODE⟩)⟩)
    pd (lookup_sub_node sc (dataOf t ps)) dc with
    hf | ⟨es_d, i0, e1, _, hesd, hi0, hfree, _, _, _, _, heq⟩
  · rw [hf] at hlisted
    obtain ⟨q, i, e2, hl2, he2⟩ := hlisted
    rcases (liveEntry_set_entry hps hes hj _ q i e2).1 hl2 with ⟨_, _, h3⟩ | ⟨h2, h3⟩
    · exact absurd rfl h3
    · exact absurd (hI.uniq q i e2 ps j e h3 hl (by rw [he2, he])) (fun h => h2 h)
  · refine ⟨es, j, es_d, i0, ⟨hpd, hdc, hps, hes, ?_, ?_, hesd, ⟨e1, hi0, hfree⟩, ?_⟩⟩
    · rw [hj, heta]
    · rw [← he]; exact hl.2
    · rw [heq]

end TecnicoFS

namespace TecnicoFS
open type Status

/-- The move back: after a `move` whose removal and insertion both succeeded, the `move`
with the two parents and the two names exchanged succeeds and restores every node type,
every array other than the one of the source parent, and the live entries of every
directory. -/
theorem move_commit_round_trip {cfg : Config} {t t1 : Table} (hI : Inv cfg t)
    (hI1 : Inv cfg t1) {ps pd : Int} {sc dc : List Char} {m : Int} {es_s : List DirEntry}
    {j : Nat} {es_d : List DirEntry} {i0 : Nat}
    (hd : MoveDone t ps pd sc dc m es_s j es_d i0 t1) :
    (move_commit cfg t1 pd ps dc sc).2 = Status.SUCCESS ∧
    (move_commit cfg t1 pd ps dc sc).1.length = t.length ∧
    (∀ x, nodeTypeOf (move_commit cfg t1 pd ps dc sc).1 x = nodeTypeOf t x) ∧
    (∀ d e, (∃ i, LiveEntry (move_commit cfg t1 pd ps dc sc).1 d i e) ↔
      (∃ i, LiveEntry t d i e)) ∧
    (∀ d, d ≠ ps → dataOf (move_commit cfg t1 pd ps dc sc).1 d = dataOf t d) := by
  obtain ⟨hpd, hdc, hps, hes, hj, hm, hesd, ⟨e1, hi0, hfree1⟩, ht1⟩ := hd
  have hlm : LiveEntry t ps j ⟨sc, m⟩ := liveEntry_intro hps hes hj hm
  have hmF : m ≠ FAIL := hm
  -- the table after the removal
  have hIR : Inv cfg (setSlot t ps ⟨T_DIRECTORY, some (es_s.set j ⟨[], FREE_INODE⟩)⟩) :=
    Inv_set_entry hI hps hes hj _ (Or.inl ⟨rfl, rfl⟩)
  have hpsR := @nodeTypeOf_set_entries t ps hps (es_s.set j ⟨[], FREE_INODE⟩) ps
  rw [hps] at hpsR
  have hpdR := @nodeTypeOf_set_entries t ps hps (es_s.set j ⟨[], FREE_INODE⟩) pd
  rw [hpd] at hpdR
  have hesR := @dataOf_set_entries t ps hps (es_s.set j ⟨[], FREE_INODE⟩) ps
  rw [if_pos rfl] at hesR
  have liveR := fun d i e => liveEntry_set_entry hps hes hj ⟨[], FREE_INODE⟩ d i e
  -- the table after the first move
  have live1 := fun d i e => liveEntry_set_entry hpdR hesd hi0 ⟨dc, m⟩ d i e
  rw [← ht1] at live1
  have hnt1 : ∀ x, nodeTypeOf t1 x = nodeTypeOf t x := by
    intro x
    rw [ht1, nodeTypeOf_set_entries hpdR, nodeTypeOf_set_entries hps]
  have hdt1 : dataOf t1 pd = some (es_d.set i0 ⟨dc, m⟩) := by
    rw [ht1, dataOf_set_entries hpdR, if_pos rfl]
  have hlnew : LiveEntry t1 pd i0 ⟨dc, m⟩ :=
    (live1 pd i0 ⟨dc, m⟩).2 (Or.inl ⟨⟨rfl, rfl⟩, rfl, hm⟩)
  have hps1 : nodeTypeOf t1 ps = T_DIRECTORY := by rw [hnt1, hps]
  have hpd1 : nodeTypeOf t1 pd = T_DIRECTORY := by rw [hnt1, hpd]
  -- the tests of the move back
  have hsc1 : lookup_sub_node sc (dataOf t1 ps) = FAIL := by
    rw [lookup_sub_node_eq_FAIL hps1]
    intro i e hl hname
    rcases (live1 ps i e).1 hl with ⟨⟨h1, _⟩, h2, _⟩ | ⟨_, h2⟩
    · have h3 := lookup_sub_node_of_live hI hlm
      simp only at h3
      rw [h2] at hname
      simp only at hname
      rw [← hname, h1, hdc] at h3
      exact hmF h3.symm
    · obtain ⟨h3, h4⟩ := (liveR ps i e).1 h2 |>.resolve_left (fun h => h.2.2 rfl)
      have := hI.names ps i j e ⟨sc, m⟩ h4 hlm hname
      exact h3 ⟨rfl, this⟩
  have hdc1 : lookup_sub_node dc (dataOf t1 pd) = m := lookup_sub_node_of_live hI1 hlnew
  have hdc1F : lookup_sub_node dc (dataOf t1 pd) ≠ FAIL := by rw [hdc1]; exact hmF
  rw [move_commit_eq hI1.length_eq hps1 hsc1 hpd1 hdc1F, hdc1]
  simp only
  -- the removal of the move back gives the table after the first removal
  have he1 : e1 = ⟨[], FREE_INODE⟩ := by
    have hn := hIR.free_name pd i0 e1 (by rw [entryAt_eq hpdR hesd]; exact hi0) hfree1
    rw [dirEntry_eta e1, hn, hfree1]
  have hrem : (dir_remove_entry cfg t1 pd m).1 =
      setSlot t ps ⟨T_DIRECTORY, some (es_s.set j ⟨[], FREE_INODE⟩)⟩ := by
    obtain ⟨es1, hes1, _, _, hreset⟩ := @dir_reset_entry_of_live cfg t1 hI1 pd i0 ⟨dc, m⟩ hlnew
    rw [hdt1] at hes1
    have : es_d.set i0 ⟨dc, m⟩ = es1 := Option.some.inj hes1
    subst this
    unfold dir_remove_entry
    simp only at hreset
    rw [hreset]
    simp only
    have hset : (es_d.set i0 ⟨dc, m⟩).set i0 ⟨[], FREE_INODE⟩ = es_d := by
      rw [List.set_set, ← he1, set_getElem?_self es_d i0 e1 hi0]
    rw [hset, ht1, setSlot_setSlot]
    exact setSlot_self (slot_of_fields hpdR (by decide) hesd)
  rw [hrem]
  -- the insertion of the move back
  have hjl : j < es_s.length := (List.getElem?_eq_some.1 hj).1
  have hfreeR : ∃ e ∈ es_s.set j ⟨[], FREE_INODE⟩, e.inumber = FREE_INODE := by
    refine ⟨⟨[], FREE_INODE⟩, ?_, rfl⟩
    apply List.getElem?_mem (n := j)
    simp [hjl]
  have hmR : nodeTypeOf (setSlot t ps ⟨T_DIRECTORY, some (es_s.set j ⟨[], FREE_INODE⟩)⟩) m
      ≠ T_NONE := by
    rw [nodeTypeOf_set_entries hps]
    exact (hI.valid ps j _ hlm).2.2
  have hscne : sc ≠ [] := hI.name_ne ps j _ hlm
  obtain ⟨i1, e0, hi1, hfree0, hadd⟩ :=
    @dir_add_entry_of_free cfg _ ps m sc _ hIR.length_eq hpsR hesR hmR hscne hfreeR
  rw [hadd]
  simp only
  have live2 := fun d i e => liveEntry_set_entry hpsR hesR hi1 ⟨sc, m⟩ d i e
  refine ⟨trivial, ?_, ?_, ?_, ?_⟩
  · rw [length_setSlot, length_setSlot]
  · intro x
    rw [nodeTypeOf_set_entries hpsR, nodeTypeOf_set_entries hps]
  · intro d e
    constructor
    · rintro ⟨i, hl⟩
      rcases (live2 d i e).1 hl with ⟨⟨h1, _⟩, h2, _⟩ | ⟨_, h2⟩
      · exact ⟨j, by rw [h1, h2]; exact hlm⟩
      · rcases (liveR d i e).1 h2 with ⟨_, _, h3⟩ | ⟨_, h3⟩
        · exact absurd rfl h3
        · exact ⟨i, h3⟩
    · rintro ⟨i, hl⟩
      by_cases hc : d = ps ∧ i = j
      · obtain ⟨hc1, hc2⟩ := hc
        subst hc1 hc2
        have : e = ⟨sc, m⟩ := by
          have h1 := hl.1
          rw [hlm.1] at h1
          exact (Option.some.inj h1).symm
        exact ⟨i1, (live2 d i1 e).2 (Or.inl ⟨⟨rfl, rfl⟩, this, hm⟩)⟩
      · have hlR := (liveR d i e).2 (Or.inr ⟨hc, hl⟩)
        refine ⟨i, (live2 d i e).2 (Or.inr ⟨?_, hlR⟩)⟩
        rintro ⟨hc1, hc2⟩
        subst hc1 hc2
        have h1 := hlR.1
        rw [entryAt_eq hpsR hesR, hi1] at h1
        have : e0 = e := Option.some.inj h1
        rw [this] at hfree0
        exact hlR.2 hfree0
  · intro d hdne
    rw [dataOf_set_entries hpsR, if_neg hdne, dataOf_set_entries hps, if_neg hdne]

end TecnicoFS

namespace TecnicoFS
open type Status

theorem MoveDone.live_new {t t1 : Table} {ps pd : Int} {sc dc : List Char} {m : Int}
    {es_s : List DirEntry} {j : Nat} {es_d : List DirEntry} {i0 : Nat}
    (hd : MoveDone t ps pd sc dc m es_s j es_d i0 t1) : LiveEntry t1 pd i0 ⟨dc, m⟩ := by
  obtain ⟨hpd, _, hps, _, _, hm, hesd, ⟨e1, hi0, _⟩, ht1⟩ := hd
  have hpdR := @nodeTypeOf_set_entries t ps hps (es_s.set j ⟨[], FREE_INODE⟩) pd
  rw [hpd] at hpdR
  rw [ht1]
  exact (liveEntry_set_entry hpdR hesd hi0 ⟨dc, m⟩ pd i0 ⟨dc, m⟩).2
    (Or.inl ⟨⟨rfl, rfl⟩, rfl, hm⟩)

theorem MoveDone.live_transfer {t t1 : Table} {ps pd : Int} {sc dc : List Char} {m : Int}
    {es_s : List DirEntry} {j : Nat} {es_d : List DirEntry} {i0 : Nat}
    (hd : MoveDone t ps pd sc dc m es_s j es_d i0 t1) {d : Int} {i : Nat} {e : DirEntry}
    (hl : LiveEntry t d i e) (hne : e.inumber ≠ m) : LiveEntry t1 d i e := by
  obtain ⟨hpd, _, hps, hes, hj, hm, hesd, ⟨e1, hi0, hfree1⟩, ht1⟩ := hd
  have hpdR := @nodeTypeOf_set_entries t ps hps (es_s.set j ⟨[], FREE_INODE⟩) pd
  rw [hpd] at hpdR
  have hc : ¬ (d = ps ∧ i = j) := by
    rintro ⟨h1, h2⟩
    subst h1 h2
    have h3 := hl.1
    rw [entryAt_eq hps hes, hj] at h3
    have : (⟨sc, m⟩ : DirEntry) = e := Option.some.inj h3
    rw [← this] at hne
    exact hne rfl
  have hlR := (liveEntry_set_entry hps hes hj ⟨[], FREE_INODE⟩ d i e).2 (Or.inr ⟨hc, hl⟩)
  have hc2 : ¬ (d = pd ∧ i = i0) := by
    rintro ⟨h1, h2⟩
    subst h1 h2
    have h3 := hlR.1
    rw [entryAt_eq hpdR hesd, hi0] at h3
    have : e1 = e := Option.some.inj h3
    rw [this] at hfree1
    exact hlR.2 hfree1
  rw [ht1]
  exact (liveEntry_set_entry hpdR hesd hi0 ⟨dc, m⟩ d i e).2 (Or.inr ⟨hc2, hlR⟩)

/-- The test `move_to_itself` of the move back cannot fire when the first move passed its
tests on paths made of components. -/
theorem move_back_not_to_itself {t : Table} {spS dpS : List Char} {dc : List Char}
    (hdcomp : is_component dc)
    (hps : resolve t (strtok_r spS []) FS_ROOT ≠ FAIL)
    (hdc : lookup_sub_node dc (dataOf t (resolve t (strtok_r dpS []) FS_ROOT)) = FAIL) :
    move_to_itself dpS dc spS = false := by
  by_contra hcon
  have htrue : move_to_itself dpS dc spS = true := by
    cases h : move_to_itself dpS dc spS with
    | true => rfl
    | false => exact absurd h hcon
  unfold move_to_itself at htrue
  have key : strtok_r spS [] = [dc] ∧ dpS = [] := by
    split_ifs at htrue with hh
    · simp only [Bool.and_eq_true, decide_eq_true_eq] at htrue
      obtain ⟨h1, h2⟩ := htrue
      refine ⟨?_, h2⟩
      cases spS with
      | nil => simp at hh
      | cons x tl =>
        simp only [List.head?_cons, Option.some.injEq] at hh
        simp only [List.tail_cons] at h1
        subst hh h1
        simp only [strtok_r, if_true]
        exact strtok_r_component hdcomp
    · simp only [Bool.and_eq_true, decide_eq_true_eq] at htrue
      obtain ⟨h1, h2⟩ := htrue
      subst h1
      exact ⟨strtok_r_component hdcomp, h2⟩
  obtain ⟨k1, k2⟩ := key
  subst k2
  rw [k1, resolve_cons] at hps
  have : strtok_r [] [] = ([] : List (List Char)) := rfl
  rw [this, resolve_nil] at hdc
  rw [if_pos hdc] at hps
  exact hps rfl

end TecnicoFS

/-! ## Claim C10: move followed by the move back -/

namespace TecnicoFS
open type Status

theorem reach_tGap : Reachable cfg0 tGap :=
  Reachable.delete _ _ (Reachable.create _ _ _ (Reachable.create _ _ _ reach_tInit))

/-- C10 as stated fails: in the reachable table `tGap` cell 0 of the root is free and cell
1 holds `("a", 2)`.  `move("/a", "/b")` and then `move("/b", "/a")` both return `SUCCESS`,
and the entry `("a", 2)` ends in cell 0: the root does not have the same entry in every
cell as before. -/
theorem move_back_permutes_cells :
    Reachable cfg0 tGap ∧
    (move cfg0 tGap "/a".toList "/b".toList).2 = Status.SUCCESS ∧
    (move cfg0 (move cfg0 tGap "/a".toList "/b".toList).1 "/b".toList "/a".toList).2 =
      Status.SUCCESS ∧
    nodeTypeOf tGap 0 = T_DIRECTORY ∧
    dataOf tGap 0 =
      some (⟨[], FREE_INODE⟩ :: ⟨"a".toList, 2⟩ :: List.replicate 18 ⟨[], FREE_INODE⟩) ∧
    dataOf (move cfg0 (move cfg0 tGap "/a".toList "/b".toList).1 "/b".toList "/a".toList).1 0 =
      some (⟨"a".toList, 2⟩ :: ⟨[], FREE_INODE⟩ :: List.replicate 18 ⟨[], FREE_INODE⟩) ∧
    dataOf (move cfg0 (move cfg0 tGap "/a".toList "/b".toList).1 "/b".toList "/a".toList).1 0 ≠
      dataOf tGap 0 :=
  ⟨reach_tGap, by decide, by decide, by decide, by decide, by decide, by decide⟩

/-- C10 (amended): for every table reachable from `init_fs` and all paths `a`, `b` made
of non-empty components separated by single `'/'` characters (with or without a leading
`'/'`), with a negative `TECNICOFS_ERROR_FILE_NOT_FOUND`: if `move(a, b)` returns `SUCCESS`
and `lookup(b)` then returns the id that `lookup(a)` returned before, the immediately
following `move(b, a)` returns `SUCCESS` and leaves the table with the same number of
slots, every slot with the same type, every directory with the same live entries (name
and id) as before the first move, and every entry array other than the one of the parent
of `a` identical cell by cell. -/
theorem move_then_move_back (cfg : Config) (t : Table) (h : Reachable cfg t)
    (la lb : Bool) (ca cb : List (List Char))
    (hane : ca ≠ []) (hbne : cb ≠ [])
    (hca : ∀ c ∈ ca, is_component c) (hcb : ∀ c ∈ cb, is_component c)
    (hneg : cfg.TECNICOFS_ERROR_FILE_NOT_FOUND < 0)
    (hs : (move cfg t (path_of la ca) (path_of lb cb)).2 = Status.SUCCESS)
    (hlk : lookup cfg (move cfg t (path_of la ca) (path_of lb cb)).1 (path_of lb cb) =
      lookup cfg t (path_of la ca)) :
    (move cfg (move cfg t (path_of la ca) (path_of lb cb)).1 (path_of lb cb)
      (path_of la ca)).2 = Status.SUCCESS ∧
    (move cfg (move cfg t (path_of la ca) (path_of lb cb)).1 (path_of lb cb)
      (path_of la ca)).1.length = t.length ∧
    (∀ x, nodeTypeOf (move cfg (move cfg t (path_of la ca) (path_of lb cb)).1 (path_of lb cb)
      (path_of la ca)).1 x = nodeTypeOf t x) ∧
    (∀ d e, (∃ i, LiveEntry (move cfg (move cfg t (path_of la ca) (path_of lb cb)).1
      (path_of lb cb) (path_of la ca)).1 d i e) ↔ (∃ i, LiveEntry t d i e)) ∧
    (∀ d, d ≠ (aux_lookup cfg t (split_parent_child_from_path (path_of la ca)).1 []).1 →
      dataOf (move cfg (move cfg t (path_of la ca) (path_of lb cb)).1 (path_of lb cb)
        (path_of la ca)).1 d = dataOf t d) := by
  have hI := Inv_of_Reachable h
  have hI1 := Inv_move hI (path_of la ca) (path_of lb cb)
  obtain ⟨ia, sc, hia⟩ := exists_init_last hane
  obtain ⟨ib, dc, hib⟩ := exists_init_last hbne
  subst hia hib
  have hiac : ∀ x ∈ ia, is_component x := fun x hx => hca x (by simp [hx])
  have hibc : ∀ x ∈ ib, is_component x := fun x hx => hcb x (by simp [hx])
  have hscc : is_component sc := hca sc (by simp)
  have hdcc : is_component dc := hcb dc (by simp)
  obtain ⟨hpa, hca1⟩ := split_path_of la ia sc hiac hscc
  obtain ⟨hpb, hcb1⟩ := split_path_of lb ib dc hibc hdcc
  -- the first move
  have hmove : move cfg t (path_of la (ia ++ [sc])) (path_of lb (ib ++ [dc])) =
      move_commit cfg t (resolve t ia FS_ROOT) (resolve t ib FS_ROOT) sc dc := by
    rw [move_eq] at hs ⊢
    by_cases hself : move_to_itself (split_parent_child_from_path (path_of la (ia ++ [sc]))).1
        (split_parent_child_from_path (path_of la (ia ++ [sc]))).2.1
        (split_parent_child_from_path (path_of lb (ib ++ [dc]))).1 = true
    · rw [if_pos hself] at hs
      simp at hs
    · rw [if_neg hself]
      rw [(move_traversals_eq hI _ _ _ _).1, (move_traversals_eq hI _ _ _ _).2, hpa, hpb,
        hca1, hcb1]
  rw [aux_lookup_fst hI, hpa]
  rw [hmove] at hs hlk hI1 ⊢
  obtain ⟨hpd, hdc, hps, hm⟩ := move_commit_success hs
  have hpsF : resolve t ia FS_ROOT ≠ FAIL := ne_FAIL_of_nodeType (by rw [hps]; decide)
  have hpsv : nodeTypeOf t (resolve t ia FS_ROOT) ≠ T_NONE := by rw [hps]; decide
  obtain ⟨_, hmpos, _⟩ := lookup_sub_node_valid hI hpsv hm
  -- the id that lookup(a) returned before
  have hla : lookup cfg t (path_of la (ia ++ [sc])) =
      lookup_sub_node sc (dataOf t (resolve t ia FS_ROOT)) := by
    rw [lookup_eq_resolve hI, strtok_r_path_of la _ hca, resolve_append, if_neg hpsF,
      resolve_cons, if_neg hm, resolve_nil, if_neg (by omega)]
  -- lookup(b) after the first move
  rw [hla, lookup_eq_resolve hI1, strtok_r_path_of lb _ hcb] at hlk
  have hR : resolve (move_commit cfg t (resolve t ia FS_ROOT) (resolve t ib FS_ROOT) sc dc).1
      (ib ++ [dc]) FS_ROOT = lookup_sub_node sc (dataOf t (resolve t ia FS_ROOT)) := by
    split_ifs at hlk with hlt
    · omega
    · exact hlk
  have hRF : resolve (move_commit cfg t (resolve t ia FS_ROOT) (resolve t ib FS_ROOT) sc dc).1
      (ib ++ [dc]) FS_ROOT ≠ FAIL := by rw [hR]; exact hm
  obtain ⟨hq, hqdc, hqeq⟩ := resolve_snoc hRF
  have hqv := resolve_valid hI1 ib FS_ROOT (root_valid hI1) hq
  obtain ⟨_, _, _, _, iq, eq, hlq, heq, _⟩ := lookup_sub_node_valid hI1 hqv hqdc
  rw [← hqeq, hR] at heq
  obtain ⟨es_s, j, es_d, i0, hdone⟩ := move_commit_done hI hs ⟨_, iq, eq, hlq, heq⟩
  -- the parents are found again after the first move
  have hpd1 : resolve (move_commit cfg t (resolve t ia FS_ROOT) (resolve t ib FS_ROOT)
      sc dc).1 ib FS_ROOT = resolve t ib FS_ROOT :=
    (hI1.uniq _ iq eq _ i0 _ hlq hdone.live_new heq).1
  have hps1 : resolve (move_commit cfg t (resolve t ia FS_ROOT) (resolve t ib FS_ROOT)
      sc dc).1 ia FS_ROOT = resolve t ia FS_ROOT := by
    refine resolve_stable hI
      (fun v => v = lookup_sub_node sc (dataOf t (resolve t ia FS_ROOT))) ?_ ia FS_ROOT
      (root_valid hI) hpsF ?_
    · intro cur tok hcur hl hbad
      obtain ⟨es, i, e, _, _, hle, he, hn⟩ := lookup_sub_node_found hcur hl
      have hl1 := hdone.live_transfer hle (by rw [he]; exact hbad)
      have := lookup_sub_node_of_live hI1 hl1
      rw [hn, he] at this
      exact this
    · intro u v huv hu hbad
      have hbad1 : resolve t u FS_ROOT = lookup_sub_node sc (dataOf t (resolve t ia FS_ROOT)) :=
        hbad
      have huF : resolve t u FS_ROOT ≠ FAIL := by rw [hbad1]; exact hm
      have hnr := resolve_no_revisit hI u (v ++ [sc]) huF (by simp)
      apply hnr
      have hv : resolve t v (resolve t u FS_ROOT) = resolve t ia FS_ROOT := by
        rw [huv, resolve_append, if_neg huF]
      rw [resolve_append, hv, if_neg hpsF, resolve_cons, if_neg hm, resolve_nil, hbad1]
  -- the move back
  have hself : move_to_itself (split_parent_child_from_path (path_of lb (ib ++ [dc]))).1 dc
      (split_parent_child_from_path (path_of la (ia ++ [sc]))).1 = false := by
    apply move_back_not_to_itself hdcc
    · rw [hpa]; exact hpsF
    · rw [hpb]; exact hdc
  have hback : move cfg (move_commit cfg t (resolve t ia FS_ROOT) (resolve t ib FS_ROOT)
        sc dc).1 (path_of lb (ib ++ [dc])) (path_of la (ia ++ [sc])) =
      move_commit cfg (move_commit cfg t (resolve t ia FS_ROOT) (resolve t ib FS_ROOT)
        sc dc).1 (resolve t ib FS_ROOT) (resolve t ia FS_ROOT) dc sc := by
    rw [move_eq, hcb1, hca1, hself]
    simp only [Bool.false_eq_true, if_false]
    rw [(move_traversals_eq hI1 _ _ _ _).1, (move_traversals_eq hI1 _ _ _ _).2, hpa, hpb,
      hpd1, hps1]
  rw [hback]
  exact move_commit_round_trip hI hI1 hdone

theorem move_then_move_back_witness :
    (move cfg0 (move cfg0 tA (path_of true ["a".toList]) (path_of true ["b".toList])).1
      (path_of true ["b".toList]) (path_of true ["a".toList])).2 = Status.SUCCESS ∧
    (move cfg0 (move cfg0 tA (path_of true ["a".toList]) (path_of true ["b".toList])).1
      (path_of true ["b".toList]) (path_of true ["a".toList])).1.length = tA.length ∧
    (∀ x, nodeTypeOf (move cfg0 (move cfg0 tA (path_of true ["a".toList])
      (path_of true ["b".toList])).1 (path_of true ["b".toList])
      (path_of true ["a".toList])).1 x = nodeTypeOf tA x) ∧
    (∀ d e, (∃ i, LiveEntry (move cfg0 (move cfg0 tA (path_of true ["a".toList])
      (path_of true ["b".toList])).1 (path_of true ["b".toList])
      (path_of true ["a".toList])).1 d i e) ↔ (∃ i, LiveEntry tA d i e)) ∧
    (∀ d, d ≠ (aux_lookup cfg0 tA
        (split_parent_child_from_path (path_of true ["a".toList])).1 []).1 →
      dataOf (move cfg0 (move cfg0 tA (path_of true ["a".toList])
        (path_of true ["b".toList])).1 (path_of true ["b".toList])
        (path_of true ["a".toList])).1 d = dataOf tA d) :=
  move_then_move_back cfg0 tA reach_tA true true ["a".toList] ["b".toList]
    (by decide) (by decide)
    (by intro c hc; simp at hc; subst hc; exact ⟨by decide, by decide⟩)
    (by intro c hc; simp at hc; subst hc; exact ⟨by decide, by decide⟩)
    (by decide) (by decide) (by decide)

end TecnicoFS

/-! ## Validation errors of create (claims C11, C12) -/

namespace TecnicoFS
open type Status

theorem create_at_invalid_parent (cfg : Config) (t : Table) (child : List Char)
    (nodeType : type) :
    create_at cfg t FAIL child nodeType = (t, TECNICOFS_ERROR_INVALID_PARENT_DIR) := by
  unfold create_at
  simp

theorem create_at_parent_file {cfg : Config} {t : Table} {p : Int} (child : List Char)
    (nodeType : type) (hp : nodeTypeOf t p = T_FILE) :
    create_at cfg t p child nodeType = (t, TECNICOFS_ERROR_PARENT_NOT_DIR) := by
  have hpF : p ≠ FAIL := ne_FAIL_of_nodeType (by rw [hp]; decide)
  unfold create_at inode_get
  rw [if_neg hpF]
  by_cases hg : invalid_inumber cfg t p = true
  · simp [hg]
  · simp [hg, hp]

theorem lookup_sub_node_ne_FAIL_of_live {t : Table} {p : Int} {i : Nat} {e : DirEntry}
    (hl : LiveEntry t p i e) : lookup_sub_node e.name (dataOf t p) ≠ FAIL := by
  obtain ⟨hp, _⟩ := liveEntry_dir hl
  intro h0
  exact (lookup_sub_node_eq_FAIL hp e.name).1 h0 i e hl rfl

theorem create_at_exists {cfg : Config} {t : Table} {p : Int} {child : List Char}
    (nodeType : type) (hlen : t.length = cfg.INODE_TABLE_SIZE)
    (hp : nodeTypeOf t p = T_DIRECTORY)
    (hch : lookup_sub_node child (dataOf t p) ≠ FAIL) :
    create_at cfg t p child nodeType = (t, TECNICOFS_ERROR_FILE_ALREADY_EXISTS) := by
  have hpv : nodeTypeOf t p ≠ T_NONE := by rw [hp]; decide
  have hpF : p ≠ FAIL := ne_FAIL_of_nodeType hpv
  unfold create_at
  rw [if_neg hpF, inode_get_of_valid hlen hpv]
  simp [hp, hch]

theorem create_at_table_full {cfg : Config} {t : Table} {p : Int} {child : List Char}
    (nodeType : type) (hlen : t.length = cfg.INODE_TABLE_SIZE)
    (hp : nodeTypeOf t p = T_DIRECTORY)
    (hch : lookup_sub_node child (dataOf t p) = FAIL)
    (hfull : ∀ n ∈ t, n.nodeType ≠ T_NONE) :
    create_at cfg t p child nodeType = (t, TECNICOFS_ERROR_COULDNT_ALLOCATE_INODE) := by
  have hpv : nodeTypeOf t p ≠ T_NONE := by rw [hp]; decide
  have hpF : p ≠ FAIL := ne_FAIL_of_nodeType hpv
  have hcr : inode_create cfg t nodeType = (t, FAIL) := by
    rcases inode_create_spec cfg t nodeType with ⟨h, _⟩ | ⟨c, hc, hnone, _, _⟩
    · exact h
    · exfalso
      obtain ⟨n, hn, _, _⟩ := @slot_isSome_of_nodeType t p hpv
      have hc0 : ¬ ((c : Int) < 0) := by omega
      have hget : t[c]? = some t[c] := List.getElem?_eq_getElem hc
      have : nodeTypeOf t c = t[c].nodeType := by
        simp [nodeTypeOf, slot, hc0, hget]
      rw [this] at hnone
      exact hfull _ (List.getElem_mem hc) hnone
  unfold create_at
  rw [if_neg hpF, inode_get_of_valid hlen hpv]
  simp [hp, hch, hcr]

/-- C11: for every table with `INODE_TABLE_SIZE` slots and every path, with `parent` and
`child` the strings the splitter returns and `p` the id `aux_lookup` returns for `parent`:
`create` returns `TECNICOFS_ERROR_INVALID_PARENT_DIR` when `p` is `FAIL`,
`TECNICOFS_ERROR_PARENT_NOT_DIR` when slot `p` is a file, and
`TECNICOFS_ERROR_FILE_ALREADY_EXISTS` when slot `p` is a directory with a live entry named
`child`; in each case the table returned is the table passed in. -/
theorem create_validation_errors (cfg : Config) (t : Table)
    (hlen : t.length = cfg.INODE_TABLE_SIZE) (name : List Char) (nodeType : type) :
    ((aux_lookup cfg t (split_parent_child_from_path name).1 []).1 = FAIL →
      create cfg t name nodeType = (t, TECNICOFS_ERROR_INVALID_PARENT_DIR)) ∧
    (nodeTypeOf t (aux_lookup cfg t (split_parent_child_from_path name).1 []).1 = T_FILE →
      create cfg t name nodeType = (t, TECNICOFS_ERROR_PARENT_NOT_DIR)) ∧
    (nodeTypeOf t (aux_lookup cfg t (split_parent_child_from_path name).1 []).1 = T_DIRECTORY →
      (∃ i e, LiveEntry t (aux_lookup cfg t (split_parent_child_from_path name).1 []).1 i e ∧
        e.name = (split_parent_child_from_path name).2.1) →
      create cfg t name nodeType = (t, TECNICOFS_ERROR_FILE_ALREADY_EXISTS)) := by
  rw [create_eq_create_at]
  refine ⟨?_, ?_, ?_⟩
  · intro h
    rw [h]
    exact create_at_invalid_parent cfg t _ nodeType
  · intro h
    exact create_at_parent_file _ nodeType h
  · rintro h ⟨i, e, hl, hn⟩
    refine create_at_exists nodeType hlen h ?_
    rw [← hn]
    exact lookup_sub_node_ne_FAIL_of_live hl

theorem create_validation_errors_witness :
    create cfg0 tA "/x/y".toList T_FILE = (tA, TECNICOFS_ERROR_INVALID_PARENT_DIR) ∧
    create cfg0 tA "/a/b".toList T_FILE = (tA, TECNICOFS_ERROR_PARENT_NOT_DIR) ∧
    create cfg0 tA "/a".toList T_DIRECTORY = (tA, TECNICOFS_ERROR_FILE_ALREADY_EXISTS) :=
  ⟨(create_validation_errors cfg0 tA (by decide) "/x/y".toList T_FILE).1 (by decide),
   (create_validation_errors cfg0 tA (by decide) "/a/b".toList T_FILE).2.1 (by decide),
   (create_validation_errors cfg0 tA (by decide) "/a".toList T_DIRECTORY).2.2 (by decide)
     ⟨0, ⟨"a".toList, 1⟩, ⟨by decide, by decide⟩, by decide⟩⟩

end TecnicoFS

namespace TecnicoFS
open type Status

/-- C12: for every table with `INODE_TABLE_SIZE` slots none of which is `T_NONE`, and
every path whose parent (the id `aux_lookup` returns for the parent string) is a directory
without a live entry named like the child: `create` returns
`TECNICOFS_ERROR_COULDNT_ALLOCATE_INODE` and the table returned is the table passed in. -/
theorem create_on_full_table (cfg : Config) (t : Table)
    (hlen : t.length = cfg.INODE_TABLE_SIZE) (name : List Char) (nodeType : type)
    (hfull : ∀ n ∈ t, n.nodeType ≠ T_NONE)
    (hp : nodeTypeOf t (aux_lookup cfg t (split_parent_child_from_path name).1 []).1 =
      T_DIRECTORY)
    (hch : ∀ i e, LiveEntry t (aux_lookup cfg t (split_parent_child_from_path name).1 []).1 i e →
      e.name ≠ (split_parent_child_from_path name).2.1) :
    create cfg t name nodeType = (t, TECNICOFS_ERROR_COULDNT_ALLOCATE_INODE) := by
  rw [create_eq_create_at]
  exact create_at_table_full nodeType hlen hp ((lookup_sub_node_eq_FAIL hp _).2 hch) hfull

set_option maxRecDepth 1000000 in
theorem tAllUsed_facts :
    tAllUsed.length = cfg0.INODE_TABLE_SIZE ∧ (∀ n ∈ tAllUsed, n.nodeType ≠ T_NONE) ∧
    nodeTypeOf tAllUsed (aux_lookup cfg0 tAllUsed
      (split_parent_child_from_path "/z".toList).1 []).1 = T_DIRECTORY ∧
    lookup_sub_node (split_parent_child_from_path "/z".toList).2.1
      (dataOf tAllUsed (aux_lookup cfg0 tAllUsed
        (split_parent_child_from_path "/z".toList).1 []).1) = FAIL := by
  decide

theorem create_on_full_table_witness :
    create cfg0 tAllUsed "/z".toList T_FILE =
      (tAllUsed, TECNICOFS_ERROR_COULDNT_ALLOCATE_INODE) :=
  create_on_full_table cfg0 tAllUsed tAllUsed_facts.1 "/z".toList T_FILE
    tAllUsed_facts.2.1 tAllUsed_facts.2.2.1
    ((lookup_sub_node_eq_FAIL tAllUsed_facts.2.2.1 _).1 tAllUsed_facts.2.2.2)

end TecnicoFS

/-! ## The self-move test of move (claim C14) and the trailing separator (claim C16) -/

namespace TecnicoFS
open type Status

/-- C14 as stated fails: splitting `"//"` yields the parent `""` and the child `"/"`,
splitting `"//x"` yields the parent `"/"`, equal to that child, and `move("//", "//x")`
on the initial table returns `TECNICOFS_ERROR_FILE_NOT_FOUND`: the test strips the leading
`'/'` of the destination parent before it compares. -/
theorem move_self_test_misses_slash_child :
    (split_parent_child_from_path "//".toList).1 = [] ∧
    (split_parent_child_from_path "//".toList).2.1 = "/".toList ∧
    (split_parent_child_from_path "//x".toList).1 = (split_parent_child_from_path "//".toList).2.1 ∧
    move cfg0 tInit "//".toList "//x".toList = (tInit, TECNICOFS_ERROR_FILE_NOT_FOUND) := by
  decide

/-- C14 (amended): for every table and every `src`, `dest` such that splitting `src` yields
the parent `""` and a child `c`, and splitting `dest` yields a parent equal to `"/"`
followed by `c`, or equal to `c` where `c` does not begin with `'/'`: `move(src, dest)`
returns `TECNICOFS_ERROR_MOVE_TO_ITSELF` and the table returned is the table passed in. -/
theorem move_to_itself_rejected (cfg : Config) (t : Table) (src dest : List Char)
    (hsp : (split_parent_child_from_path src).1 = [])
    (hdp : (split_parent_child_from_path dest).1 =
        '/' :: (split_parent_child_from_path src).2.1 ∨
      ((split_parent_child_from_path dest).1 = (split_parent_child_from_path src).2.1 ∧
        (split_parent_child_from_path src).2.1.head? ≠ some '/')) :
    move cfg t src dest = (t, TECNICOFS_ERROR_MOVE_TO_ITSELF) := by
  rw [move_eq]
  have hself : move_to_itself (split_parent_child_from_path src).1
      (split_parent_child_from_path src).2.1 (split_parent_child_from_path dest).1 = true := by
    unfold move_to_itself
    rcases hdp with h | ⟨h, hh⟩
    · rw [h, hsp]
      simp
    · rw [h, hsp, if_neg hh]
      simp
  rw [if_pos hself]

theorem move_to_itself_rejected_witness :
    move cfg0 tAB "/a".toList "/a/a".toList = (tAB, TECNICOFS_ERROR_MOVE_TO_ITSELF) :=
  move_to_itself_rejected cfg0 tAB "/a".toList "/a/a".toList (by decide)
    (Or.inl (by decide))

/-- C16: for every non-empty path that does not end in `'/'`, the splitter returns for the
path followed by `'/'` the parent, the child and the depth it returns for the path. -/
theorem split_ignores_trailing_slash (p : List Char) (hne : p ≠ [])
    (hlast : p.getLast? ≠ some '/') :
    split_parent_child_from_path (p ++ ['/']) = split_parent_child_from_path p := by
  unfold split_parent_child_from_path
  simp [hlast]

theorem split_ignores_trailing_slash_witness :
    split_parent_child_from_path ("a/x".toList ++ ['/']) =
      split_parent_child_from_path "a/x".toList :=
  split_ignores_trailing_slash "a/x".toList (by decide) (by decide)

end TecnicoFS

/-! ## The splitter against its specification (claim C15) -/

namespace TecnicoFS
open type Status

theorem internal_separators_cons (c : Char) (l : List Char) :
    internal_separators (c :: l) =
      (if c = '/' ∧ l ≠ [] then [0] else []) ++ (internal_separators l).map (· + 1) := by
  unfold internal_separators
  rw [List.length_cons, List.range_succ_eq_map, List.filter_cons, List.filter_map]
  have h0 : (decide ((c :: l)[0]? = some '/') && decide (0 + 1 < l.length + 1)) =
      decide (c = '/' ∧ l ≠ []) := by
    cases l with
    | nil => simp
    | cons x xs => simp
  rw [h0]
  have hf : ((fun i => decide ((c :: l)[i]? = some '/') && decide (i + 1 < l.length + 1)) ∘
      Nat.succ) = (fun i => decide (l[i]? = some '/') && decide (i + 1 < l.length)) := by
    funext i
    simp
  rw [hf]
  by_cases h : c = '/' ∧ l ≠ []
  · simp [h]
  · simp [h]

/-- The loop of the splitter computes the number of internal separators and the index of
the last one. -/
theorem count_slashes_eq :
    ∀ (l : List Char) (i : Nat) (acc : Nat × Nat),
      count_slashes l i acc =
        (acc.1 + (internal_separators l).length,
          match (internal_separators l).getLast? with
          | none => acc.2
          | some last => i + last) := by
  intro l
  induction l with
  | nil => intro i acc; simp [count_slashes, internal_separators]
  | cons c l ih =>
    intro i acc
    cases l with
    | nil => simp [count_slashes, internal_separators]
    | cons c1 rest =>
      rw [count_slashes_cons c (c1 :: rest) (by simp), internal_separators_cons]
      by_cases hc : c = '/'
      · rw [if_pos hc, ih, if_pos ⟨hc, by simp⟩]
        cases hS : (internal_separators (c1 :: rest)).getLast? with
        | none =>
          have h0 : internal_separators (c1 :: rest) = [] := List.getLast?_eq_none_iff.1 hS
          rw [h0]
          simp only [List.map_nil, List.append_nil, List.getLast?_singleton, List.length_nil,
            List.length_singleton, Nat.add_zero]
        | some last =>
          have hgl : ([0] ++ (internal_separators (c1 :: rest)).map (· + 1)).getLast? =
              some (last + 1) := by
            rw [List.getLast?_append, List.getLast?_map, hS]
            rfl
          rw [hgl]
          simp only [List.length_append, List.length_map, List.length_singleton]
          refine Prod.ext ?_ ?_
          · simp only
            omega
          · simp only
            ac_rfl
      · rw [if_neg hc, ih, if_neg (fun h => hc h.1)]
        cases hS : (internal_separators (c1 :: rest)).getLast? with
        | none =>
          have h0 : internal_separators (c1 :: rest) = [] := List.getLast?_eq_none_iff.1 hS
          rw [h0]
          simp
        | some last =>
          have hgl : ([] ++ (internal_separators (c1 :: rest)).map (· + 1)).getLast? =
              some (last + 1) := by
            rw [List.nil_append, List.getLast?_map, hS]
            rfl
          rw [hgl]
          simp only [List.nil_append, List.length_map]
          refine Prod.ext ?_ ?_
          · simp only
          · simp only
            ac_rfl

/-- C15: for every non-empty path the splitter returns what the specification says: with
`q` the path after removal of one trailing `'/'` and the internal separators of `q` the
indices of a `'/'` followed by a further character, the result is the empty parent, the
child `q` and depth 0 when `q` has no internal separator, and otherwise the prefix of `q`
before the last internal separator, the suffix after it and the number of internal
separators. -/
theorem split_meets_spec (p : List Char) (hne : p ≠ []) :
    split_parent_child_from_path p = split_spec p := by
  unfold split_parent_child_from_path split_spec strip_trailing_slash
  simp only
  rw [count_slashes_eq]
  cases hS : (internal_separators (if p.getLast? = some '/' then p.dropLast else p)).getLast? with
  | none =>
    have : internal_separators (if p.getLast? = some '/' then p.dropLast else p) = [] :=
      List.getLast?_eq_none_iff.1 hS
    simp [this]
  | some last =>
    have hne1 : internal_separators (if p.getLast? = some '/' then p.dropLast else p) ≠ [] := by
      intro h0; rw [h0] at hS; simp at hS
    have hlen : (internal_separators
        (if p.getLast? = some '/' then p.dropLast else p)).length ≠ 0 := by
      intro h0; exact hne1 (List.length_eq_zero.1 h0)
    simp [hlen]

theorem split_meets_spec_witness :
    split_parent_child_from_path "/a/b/".toList = split_spec "/a/b/".toList :=
  split_meets_spec "/a/b/".toList (by decide)

end TecnicoFS

/-! ## A leading separator (claim C17) -/

namespace TecnicoFS
open type Status

theorem strtok_r_leading_slash (p : List Char) : strtok_r ('/' :: p) [] = strtok_r p [] := by
  simp [strtok_r]

theorem aux_lookup_congr (cfg : Config) (t : Table) {n1 n2 : List Char}
    (already_locked : List Int) (h : strtok_r n1 [] = strtok_r n2 []) :
    aux_lookup cfg t n1 already_locked = aux_lookup cfg t n2 already_locked := by
  unfold aux_lookup
  rw [h]

theorem strip_leading_slash {p : List Char} (hne : p ≠ []) (hhead : p.head? ≠ some '/') :
    strip_trailing_slash ('/' :: p) = '/' :: strip_trailing_slash p ∧
    strip_trailing_slash p ≠ [] := by
  unfold strip_trailing_slash
  cases p with
  | nil => exact absurd rfl hne
  | cons x xs =>
    rw [List.getLast?_cons_cons]
    by_cases hl : (x :: xs).getLast? = some '/'
    · rw [if_pos hl, if_pos hl, List.dropLast_cons_of_ne_nil (by simp)]
      refine ⟨rfl, ?_⟩
      cases xs with
      | nil =>
        simp at hl
        simp at hhead
        exact absurd hl hhead
      | cons y ys => simp
    · rw [if_neg hl, if_neg hl]
      exact ⟨rfl, by simp⟩

theorem split_eq_of_strip (p : List Char) :
    split_parent_child_from_path p =
      (if (count_slashes (strip_trailing_slash p) 0 (0, 0)).1 = 0 then
        ([], strip_trailing_slash p, (count_slashes (strip_trailing_slash p) 0 (0, 0)).1)
      else ((strip_trailing_slash p).take (count_slashes (strip_trailing_slash p) 0 (0, 0)).2,
        (strip_trailing_slash p).drop ((count_slashes (strip_trailing_slash p) 0 (0, 0)).2 + 1),
        (count_slashes (strip_trailing_slash p) 0 (0, 0)).1)) := rfl

theorem count_slashes_leading {q : List Char} (hq : q ≠ []) :
    count_slashes ('/' :: q) 0 (0, 0) =
      ((count_slashes q 0 (0, 0)).1 + 1,
        if (count_slashes q 0 (0, 0)).1 = 0 then 0 else (count_slashes q 0 (0, 0)).2 + 1) := by
  rw [count_slashes_eq ('/' :: q), count_slashes_eq q, internal_separators_cons,
    if_pos (show '/' = '/' ∧ q ≠ [] from ⟨rfl, hq⟩)]
  cases hS : (internal_separators q).getLast? with
  | none =>
    have h0 : internal_separators q = [] := List.getLast?_eq_none_iff.1 hS
    rw [h0]
    simp
  | some last =>
    have hne1 : internal_separators q ≠ [] := by
      intro h0; rw [h0] at hS; simp at hS
    have hlen : (internal_separators q).length ≠ 0 := by
      intro h0; exact hne1 (List.length_eq_zero.1 h0)
    have hgl : ([0] ++ (internal_separators q).map (· + 1)).getLast? = some (last + 1) := by
      rw [List.getLast?_append, List.getLast?_map, hS]
      rfl
    rw [hgl]
    simp only [List.length_append, List.length_map, List.length_singleton, Nat.zero_add]
    rw [if_neg hlen]
    refine Prod.ext ?_ ?_
    · simp only
      omega
    · simp only

/-- With a leading `'/'` put in front of a path that has none, the splitter returns the
same child and a parent with the same tokens. -/
theorem split_leading_slash {p : List Char} (hne : p ≠ []) (hhead : p.head? ≠ some '/') :
    (split_parent_child_from_path ('/' :: p)).2.1 = (split_parent_child_from_path p).2.1 ∧
    strtok_r (split_parent_child_from_path ('/' :: p)).1 [] =
      strtok_r (split_parent_child_from_path p).1 [] := by
  obtain ⟨hs, hq⟩ := strip_leading_slash hne hhead
  rw [split_eq_of_strip, split_eq_of_strip, hs, count_slashes_leading hq]
  simp only
  rw [if_neg (by omega)]
  by_cases h0 : (count_slashes (strip_trailing_slash p) 0 (0, 0)).1 = 0
  · rw [if_pos h0, if_pos h0]
    simp [strtok_r]
  · rw [if_neg h0, if_neg h0]
    simp only [List.take_succ_cons, List.drop_succ_cons]
    exact ⟨trivial, strtok_r_leading_slash _⟩

/-- C17: for every table and every non-empty path `p` that does not begin with `'/'`:
`lookup` returns for `'/'` followed by `p` what it returns for `p`, and `create` and
`delete` called with `'/'` followed by `p` return the status and the table they return
when called with `p`. -/
theorem leading_slash_tolerated (cfg : Config) (t : Table) (p : List Char) (nodeType : type)
    (hne : p ≠ []) (hhead : p.head? ≠ some '/') :
    lookup cfg t ('/' :: p) = lookup cfg t p ∧
    create cfg t ('/' :: p) nodeType = create cfg t p nodeType ∧
    delete cfg t ('/' :: p) = delete cfg t p := by
  obtain ⟨hc, hp⟩ := split_leading_slash hne hhead
  refine ⟨?_, ?_, ?_⟩
  · unfold lookup
    rw [strtok_r_leading_slash]
  · rw [create_eq_create_at, create_eq_create_at, hc, aux_lookup_congr cfg t [] hp]
  · rw [delete_eq_delete_at, delete_eq_delete_at, hc, aux_lookup_congr cfg t [] hp]

theorem leading_slash_tolerated_witness :
    lookup cfg0 tAB ('/' :: "a/b".toList) = lookup cfg0 tAB "a/b".toList ∧
    create cfg0 tAB ('/' :: "a/b".toList) T_FILE = create cfg0 tAB "a/b".toList T_FILE ∧
    delete cfg0 tAB ('/' :: "a/b".toList) = delete cfg0 tAB "a/b".toList :=
  leading_slash_tolerated cfg0 tAB "a/b".toList T_FILE (by decide) (by decide)

end TecnicoFS

/-! ## Deleting a directory that is not empty (claim C13) -/

namespace TecnicoFS
open type Status

theorem is_dir_empty_of_live {t : Table} {d : Int} {i : Nat} {e : DirEntry}
    (hl : LiveEntry t d i e) : is_dir_empty (dataOf t d) = FAIL := by
  obtain ⟨_, es, hes, hi⟩ := liveEntry_dir hl
  rw [hes]
  unfold is_dir_empty
  simp only
  rw [if_neg]
  intro hall
  have := List.all_eq_true.1 hall e (List.getElem?_mem hi)
  simp only [decide_eq_true_eq] at this
  exact hl.2 this

theorem delete_at_dir_not_empty {cfg : Config} {t : Table} {p : Int} {child : List Char}
    (hlen : t.length = cfg.INODE_TABLE_SIZE) (hp : nodeTypeOf t p = T_DIRECTORY)
    (hc : lookup_sub_node child (dataOf t p) ≠ FAIL)
    (hd : nodeTypeOf t (lookup_sub_node child (dataOf t p)) = T_DIRECTORY)
    (hempty : is_dir_empty (dataOf t (lookup_sub_node child (dataOf t p))) = FAIL) :
    delete_at cfg t p child = (t, TECNICOFS_ERROR_DIR_NOT_EMPTY) := by
  have hpv : nodeTypeOf t p ≠ T_NONE := by rw [hp]; decide
  have hpF : p ≠ FAIL := ne_FAIL_of_nodeType hpv
  have hdv : nodeTypeOf t (lookup_sub_node child (dataOf t p)) ≠ T_NONE := by rw [hd]; decide
  unfold delete_at
  rw [if_neg hpF, inode_get_of_valid hlen hpv]
  simp only [hp, ne_eq, not_true_eq_false, if_false, hc]
  rw [inode_get_of_valid hlen hdv]
  simp only
  rw [if_pos ⟨hd, hempty⟩]

theorem split_append_slash (p : List Char) (hlast : p.getLast? ≠ some '/') :
    split_parent_child_from_path (p ++ ['/']) = split_parent_child_from_path p := by
  unfold split_parent_child_from_path
  simp [hlast]

theorem strtok_r_trailing_slash (p : List Char) :
    strtok_r (p ++ ['/']) [] = strtok_r p [] := by
  rw [strtok_r_append_slash]
  simp [strtok_r]

theorem path_of_getLast {leading : Bool} {init : List (List Char)} {c : List Char}
    (hc : is_component c) : (path_of leading (init ++ [c])).getLast? ≠ some '/' := by
  unfold path_of
  by_cases hi : init = []
  · subst hi
    cases leading with
    | false => simpa [join_components] using getLast?_component hc []
    | true => simpa [join_components] using getLast?_component hc ['/']
  · rw [join_components_append_singleton init c hi]
    cases leading with
    | false =>
      have := getLast?_component hc (join_components init ++ ['/'])
      simpa using this
    | true =>
      have := getLast?_component hc ('/' :: join_components init ++ ['/'])
      simpa using this

/-- C13 as stated fails: in the reachable table `tA` the path `"/"` resolves to the root,
a directory with the live entry `("a", 1)`, and `delete("/")` returns
`TECNICOFS_ERROR_DOESNT_EXIST_IN_DIR`: the root has no entry in a parent directory. -/
theorem delete_root_not_dir_not_empty :
    Reachable cfg0 tA ∧ lookup cfg0 tA "/".toList = 0 ∧ nodeTypeOf tA 0 = T_DIRECTORY ∧
    LiveEntry tA 0 0 ⟨"a".toList, 1⟩ ∧
    delete cfg0 tA "/".toList = (tA, TECNICOFS_ERROR_DOESNT_EXIST_IN_DIR) :=
  ⟨reach_tA, by decide, by decide, ⟨by decide, by decide⟩, by decide⟩

/-- C13 (amended): for every table reachable from `init_fs`, with a negative
`TECNICOFS_ERROR_FILE_NOT_FOUND`, and every path made of at least one non-empty component,
the components separated by single `'/'` characters, with or without a leading `'/'` and
with or without a trailing `'/'`: if `lookup` of the path returns the id of a directory
with at least one live entry, `delete` of the path returns
`TECNICOFS_ERROR_DIR_NOT_EMPTY` and the table returned is the table passed in. -/
theorem delete_non_empty_directory (cfg : Config) (t : Table) (h : Reachable cfg t)
    (leading trailing : Bool) (cs : List (List Char))
    (hne : cs ≠ []) (hcs : ∀ c ∈ cs, is_component c)
    (hneg : cfg.TECNICOFS_ERROR_FILE_NOT_FOUND < 0)
    (hd : nodeTypeOf t (lookup cfg t
      (path_of leading cs ++ if trailing then ['/'] else [])) = T_DIRECTORY)
    (hlive : ∃ i e, LiveEntry t (lookup cfg t
      (path_of leading cs ++ if trailing then ['/'] else [])) i e) :
    delete cfg t (path_of leading cs ++ if trailing then ['/'] else []) =
      (t, TECNICOFS_ERROR_DIR_NOT_EMPTY) := by
  have hI := Inv_of_Reachable h
  obtain ⟨init, c, hic⟩ := exists_init_last hne
  subst hic
  have hinit : ∀ x ∈ init, is_component x := fun x hx => hcs x (by simp [hx])
  have hc : is_component c := hcs c (by simp)
  obtain ⟨hpar, hchild⟩ := split_path_of leading init c hinit hc
  have hsplit : split_parent_child_from_path
      (path_of leading (init ++ [c]) ++ if trailing then ['/'] else []) =
      split_parent_child_from_path (path_of leading (init ++ [c])) := by
    cases trailing with
    | false => simp
    | true =>
      simp only [if_true]
      exact split_append_slash _ (path_of_getLast hc)
  have htok : strtok_r (path_of leading (init ++ [c]) ++ if trailing then ['/'] else []) [] =
      init ++ [c] := by
    cases trailing with
    | false => simpa using strtok_r_path_of leading _ hcs
    | true =>
      simp only [if_true]
      rw [strtok_r_trailing_slash]
      exact strtok_r_path_of leading _ hcs
  rw [lookup_eq_resolve hI, htok] at hd hlive
  have hR : ¬ resolve t (init ++ [c]) FS_ROOT < 0 := by
    intro hlt
    rw [if_pos hlt] at hd
    have hv : nodeTypeOf t cfg.TECNICOFS_ERROR_FILE_NOT_FOUND ≠ T_NONE := by rw [hd]; decide
    obtain ⟨h0, _⟩ := nodeType_in_range hI.length_eq hv
    omega
  rw [if_neg hR] at hd hlive
  have hRF : resolve t (init ++ [c]) FS_ROOT ≠ FAIL := by
    intro h0; rw [h0] at hR; exact hR (by decide)
  obtain ⟨a1, a2, a3⟩ := resolve_snoc hRF
  have hpv := resolve_valid hI init FS_ROOT (root_valid hI) a1
  obtain ⟨hpd, _⟩ := lookup_sub_node_valid hI hpv a2
  rw [a3] at hd hlive
  obtain ⟨i, e, hl⟩ := hlive
  rw [delete_eq_delete_at, hsplit, aux_lookup_fst hI, hpar, hchild]
  exact delete_at_dir_not_empty hI.length_eq hpd a2 hd (is_dir_empty_of_live hl)

theorem delete_non_empty_directory_witness :
    delete cfg0 tAB (path_of true ["a".toList] ++ if true then ['/'] else []) =
      (tAB, TECNICOFS_ERROR_DIR_NOT_EMPTY) :=
  delete_non_empty_directory cfg0 tAB reach_tAB true true ["a".toList] (by decide)
    (by intro c hc; simp at hc; subst hc; exact ⟨by decide, by decide⟩)
    (by decide) (by decide) ⟨0, ⟨"b".toList, 2⟩, ⟨by decide, by decide⟩⟩

end TecnicoFS

/-! ## The lock list of aux_lookup (claim C19) and inode_create (claim C20) -/

namespace TecnicoFS
open type Status

/-- C19 (evaluation of the code): in the reachable table `tAB` (`/a` is slot 1, `/a/b` is
slot 2) the traversal of `"/a"` with nothing held acquires the root and slot 1.  The
traversal of `"/a/b"` with `already_locked = [0, 1]` then skips the root, acquires slot 1,
which is in `already_locked`, and does not acquire slot 2, which is not: its `locked`
list is `[1]`.  These are the two traversals `move` runs for a source of depth 2 below
`/a` and a destination of depth 3 below `/a/b`. -/
theorem aux_lookup_reacquires_held_node :
    Reachable cfg0 tAB ∧
    aux_lookup cfg0 tAB "/a".toList [] = (1, [0, 1]) ∧
    aux_lookup cfg0 tAB "/a/b".toList [0, 1] = (2, [1]) ∧
    move_traversals cfg0 tAB "/a".toList "/a/b".toList 2 3 = (1, [0, 1], 2, [1]) :=
  ⟨reach_tAB, by decide, by decide, by decide⟩

/-- C20: for every table and every type, `inode_create` returns `FAIL` exactly when no
slot is `T_NONE`, and then returns the table unchanged; otherwise it returns the smallest
index `c` whose slot is `T_NONE`, the new table has the same number of slots, its slot `c`
has the requested type and, for a directory, an entry array of `MAX_DIR_ENTRIES` entries
all marked `FREE_INODE` (for any other type the NULL payload), and every other slot is
unchanged. -/
theorem inode_create_meets_spec (cfg : Config) (t : Table) (nType : type) :
    ((inode_create cfg t nType).2 = FAIL ↔ ∀ n ∈ t, n.nodeType ≠ T_NONE) ∧
    ((inode_create cfg t nType).2 = FAIL → (inode_create cfg t nType).1 = t) ∧
    ((inode_create cfg t nType).2 ≠ FAIL →
      ∃ c : Nat, (inode_create cfg t nType).2 = (c : Int) ∧ c < t.length ∧
        (∃ n, t[c]? = some n ∧ n.nodeType = T_NONE) ∧
        (∀ j, j < c → ∀ n, t[j]? = some n → n.nodeType ≠ T_NONE) ∧
        (inode_create cfg t nType).1.length = t.length ∧
        (∀ j, j ≠ c → (inode_create cfg t nType).1[j]? = t[j]?) ∧
        (∃ n1, (inode_create cfg t nType).1[c]? = some n1 ∧ n1.nodeType = nType ∧
          (nType = T_DIRECTORY → ∃ es, n1.data = some es ∧
            es.length = cfg.MAX_DIR_ENTRIES ∧ ∀ e ∈ es, e.inumber = FREE_INODE) ∧
          (nType ≠ T_DIRECTORY → n1.data = none))) := by
  unfold inode_create
  cases h : first_none t 0 with
  | none =>
    have hall := (first_none_eq_none t 0).1 h
    refine ⟨⟨fun _ => hall, fun _ => rfl⟩, fun _ => rfl, fun hne => absurd rfl hne⟩
  | some r =>
    obtain ⟨c, n, h1, h2, h3, h4⟩ := first_none_spec t 0 r h
    have hrc : r = c := by omega
    subst hrc
    have hl : r < t.length := (List.getElem?_eq_some.1 h2).1
    have hrF : (r : Int) ≠ FAIL := by unfold FAIL; omega
    refine ⟨⟨fun hF => absurd hF hrF, fun hall => ?_⟩, fun hF => absurd hF hrF, fun _ => ?_⟩
    · exact absurd h3 (hall n (List.getElem?_mem h2))
    · refine ⟨r, rfl, hl, ⟨n, h2, h3⟩, h4, by simp, ?_, ?_⟩
      · intro j hj
        simp only
        exact List.getElem?_set_ne (Ne.symm hj)
      · refine ⟨⟨nType, fresh_data cfg nType⟩, by simp [hl], rfl, ?_, ?_⟩
        · intro hk
          refine ⟨List.replicate cfg.MAX_DIR_ENTRIES ⟨[], FREE_INODE⟩, by simp [fresh_data, hk],
            by simp, ?_⟩
          intro e he
          rw [List.eq_of_mem_replicate he]
        · intro hk
          simp [fresh_data, hk]

end TecnicoFS

/-! ## The bounds of the table in inode_delete (claim C21) -/

namespace TecnicoFS

open type

theorem slot_eq_none_of_length (t : Table) (x : Int) (h : (t.length : Int) ≤ x) :
    slot t x = none := by
  unfold slot
  have h0 : ¬ x < 0 := by omega
  rw [if_neg h0]
  apply List.getElem?_eq_none
  omega

theorem slot_isSome_of_lt (t : Table) (x : Int) (h0 : 0 ≤ x) (h : x < (t.length : Int)) :
    ∃ n, slot t x = some n := by
  unfold slot
  have h1 : ¬ x < 0 := by omega
  rw [if_neg h1]
  have h2 : x.toNat < t.length := by omega
  exact ⟨t[x.toNat], List.getElem?_eq_getElem h2⟩

/-- Whenever the guard stays inside the array, it has the value the total model gives it. -/
theorem guard_checked_zero {cfg : Config} {t : Table} {x : Int} {b : Bool}
    (h : guard_checked cfg t 0 x = some b) : invalid_inumber cfg t x = b := by
  unfold guard_checked at h
  unfold invalid_inumber
  by_cases h1 : x < 0
  · rw [if_pos h1] at h
    simp at h
    subst h
    simp [h1]
  · rw [if_neg h1] at h
    by_cases h2 : x > (cfg.INODE_TABLE_SIZE : Int)
    · rw [if_pos h2] at h
      simp at h
      subst h
      simp [h2]
    · rw [if_neg h2] at h
      unfold read_nodeType at h
      cases hs : slot t x with
      | none => simp [hs] at h
      | some n =>
        simp [hs] at h
        simp [h1, h2, nodeTypeOf, hs, ← h]

/-- The guard stays inside the array at every index other than `INODE_TABLE_SIZE`. -/
theorem guard_checked_defined {cfg : Config} {t : Table}
    (hlen : t.length = cfg.INODE_TABLE_SIZE) (lo : Int) (hlo : 0 ≤ lo) {x : Int}
    (hx : x ≠ (cfg.INODE_TABLE_SIZE : Int)) :
    ∃ b, guard_checked cfg t lo x = some b := by
  unfold guard_checked
  by_cases h1 : x < lo
  · exact ⟨true, by rw [if_pos h1]⟩
  · rw [if_neg h1]
    by_cases h2 : x > (cfg.INODE_TABLE_SIZE : Int)
    · exact ⟨true, by rw [if_pos h2]⟩
    · rw [if_neg h2]
      obtain ⟨n, hn⟩ := slot_isSome_of_lt t x (by omega) (by omega)
      exact ⟨decide (n.nodeType = T_NONE), by simp [read_nodeType, hn]⟩

/-- A run of `inode_delete` that stays inside the array returns what the total model
returns. -/
theorem inode_delete_checked_eq {cfg : Config} {t : Table} {x : Int} {r : Table × Int}
    (h : inode_delete_checked cfg t x = some r) : inode_delete cfg t x = r := by
  unfold inode_delete_checked at h
  unfold inode_delete
  cases hg : guard_checked cfg t 0 x with
  | none => simp [hg] at h
  | some b =>
    have hb := guard_checked_zero hg
    cases b with
    | true => simp [hg] at h; simp [hb, h]
    | false => simp [hg] at h; simp [hb, h]

/-- At every id other than `INODE_TABLE_SIZE` the function `inode_delete` stays inside the
array and does what the specification of `release` says: it fails and leaves the table as
it was when the id is out of range or the slot is `T_NONE`, and otherwise returns `SUCCESS`,
sets the slot to `T_NONE` and keeps the type of every other slot. -/
theorem inode_delete_within_bounds (cfg : Config) (t : Table)
    (hlen : t.length = cfg.INODE_TABLE_SIZE) (x : Int)
    (hx : x ≠ (cfg.INODE_TABLE_SIZE : Int)) :
    inode_delete_checked cfg t x = some (inode_delete cfg t x) ∧
    ((x < 0 ∨ (cfg.INODE_TABLE_SIZE : Int) ≤ x ∨ nodeTypeOf t x = T_NONE) →
      inode_delete cfg t x = (t, FAIL)) ∧
    (¬ (x < 0 ∨ (cfg.INODE_TABLE_SIZE : Int) ≤ x ∨ nodeTypeOf t x = T_NONE) →
      (inode_delete cfg t x).2 = SUCCESS ∧
      (inode_delete cfg t x).1.length = t.length ∧
      nodeTypeOf (inode_delete cfg t x).1 x = T_NONE ∧
      ∀ y, y ≠ x → slot (inode_delete cfg t x).1 y = slot t y) := by
  refine ⟨?_, ?_, ?_⟩
  · have hd : ∃ r, inode_delete_checked cfg t x = some r := by
      obtain ⟨b, hb⟩ := guard_checked_defined hlen 0 (le_refl 0) hx
      unfold inode_delete_checked
      cases b <;> simp [hb]
    obtain ⟨r, hr⟩ := hd
    rw [hr, inode_delete_checked_eq hr]
  · intro h
    have hi : invalid_inumber cfg t x = true := by
      unfold invalid_inumber
      rcases h with h | h | h
      · simp [h]
      · have h2 : x > (cfg.INODE_TABLE_SIZE : Int) := by omega
        simp [h2]
      · simp [h]
    simp [inode_delete, hi]
  · intro h
    push_neg at h
    obtain ⟨h0, h1, h2⟩ := h
    have hi : invalid_inumber cfg t x = false := invalid_inumber_of_valid hlen h2
    have hl : x.toNat < t.length := by omega
    simp only [inode_delete, hi, Bool.false_eq_true, if_false]
    refine ⟨trivial, length_setSlot _ _ _, ?_, ?_⟩
    · rw [nodeTypeOf_setSlot _ _ _ _ h0 hl]; simp
    · intro y hy
      rw [slot_setSlot _ _ _ _ h0]
      simp [hy]

/-- Claim C21 (code departs from it): in a table of `INODE_TABLE_SIZE` slots the id
`INODE_TABLE_SIZE` lies outside the table, and `inode_delete` at that id passes the two
comparisons of its guard (`inumber > INODE_TABLE_SIZE` is false) and indexes
`inode_table` at `INODE_TABLE_SIZE`, outside the array. -/
theorem inode_delete_indexes_past_table (cfg : Config) (t : Table)
    (hlen : t.length = cfg.INODE_TABLE_SIZE) :
    slot t (cfg.INODE_TABLE_SIZE : Int) = none ∧
    guard_checked cfg t 0 (cfg.INODE_TABLE_SIZE : Int) = none ∧
    inode_delete_checked cfg t (cfg.INODE_TABLE_SIZE : Int) = none := by
  have hs : slot t (cfg.INODE_TABLE_SIZE : Int) = none :=
    slot_eq_none_of_length t _ (by omega)
  have hg : guard_checked cfg t 0 (cfg.INODE_TABLE_SIZE : Int) = none := by
    unfold guard_checked
    have h1 : ¬ ((cfg.INODE_TABLE_SIZE : Int) < 0) := by omega
    rw [if_neg h1, if_neg (lt_irrefl _)]
    simp [read_nodeType, hs]
  refine ⟨hs, hg, ?_⟩
  unfold inode_delete_checked
  rw [hg]

set_option maxRecDepth 100000 in
/-- The failing input of claim C21 after `init_fs`: `inode_delete(50)` on the table of 50
slots. -/
theorem inode_delete_indexes_past_table_witness :
    tInit.length = cfg0.INODE_TABLE_SIZE ∧
    slot tInit (cfg0.INODE_TABLE_SIZE : Int) = none ∧
    guard_checked cfg0 tInit 0 (cfg0.INODE_TABLE_SIZE : Int) = none ∧
    inode_delete_checked cfg0 tInit (cfg0.INODE_TABLE_SIZE : Int) = none :=
  ⟨by decide, inode_delete_indexes_past_table cfg0 tInit (by decide)⟩

end TecnicoFS

/-! ## The guards of dir_reset_entry (claim C22) -/

namespace TecnicoFS

open type

/-- Whenever a guard stays inside the array, it has the value the total model gives it. -/
theorem guard_checked_eq {cfg : Config} {t : Table} {lo x : Int} {b : Bool}
    (h : guard_checked cfg t lo x = some b) :
    (decide (x < lo) || decide (x > (cfg.INODE_TABLE_SIZE : Int)) ||
      decide (nodeTypeOf t x = T_NONE)) = b := by
  unfold guard_checked at h
  by_cases h1 : x < lo
  · rw [if_pos h1] at h
    simp at h
    subst h
    simp [h1]
  · rw [if_neg h1] at h
    by_cases h2 : x > (cfg.INODE_TABLE_SIZE : Int)
    · rw [if_pos h2] at h
      simp at h
      subst h
      simp [h2]
    · rw [if_neg h2] at h
      unfold read_nodeType at h
      cases hs : slot t x with
      | none => simp [hs] at h
      | some n =>
        simp [hs] at h
        simp [h1, h2, nodeTypeOf, hs, ← h]

/-- A run of `dir_reset_entry` that stays inside the array returns what the total model
returns. -/
theorem dir_reset_entry_checked_eq {cfg : Config} {t : Table} {p sub : Int} {r : Table × Int}
    (h : dir_reset_entry_checked cfg t p sub = some r) : dir_reset_entry cfg t p sub = r := by
  unfold dir_reset_entry_checked at h
  unfold dir_reset_entry
  cases hg : guard_checked cfg t 0 p with
  | none => simp [hg] at h
  | some b =>
    have hb := guard_checked_zero hg
    cases b with
    | true => simp [hg] at h; simp [hb, h]
    | false =>
      simp only [hg] at h
      simp only [hb, Bool.false_eq_true, if_false]
      by_cases hd : nodeTypeOf t p ≠ T_DIRECTORY
      · rw [if_pos hd] at h
        rw [if_pos hd]
        exact Option.some.inj h
      · rw [if_neg hd] at h
        rw [if_neg hd]
        cases hg2 : guard_checked cfg t FREE_INODE sub with
        | none => simp [hg2] at h
        | some b2 =>
          have hb2 := guard_checked_eq hg2
          cases b2 with
          | true =>
            simp only [hg2] at h
            rw [hb2, if_pos rfl]
            exact Option.some.inj h
          | false =>
            simp only [hg2] at h
            rw [hb2]
            simp only [Bool.false_eq_true, if_false]
            cases hda : dataOf t p with
            | none => simp [hda] at h
            | some es =>
              simp only [hda] at h
              cases hr : reset_first sub es with
              | none =>
                simp only [hr, Option.some.injEq] at h
                simp only [hr]
                exact h
              | some es1 =>
                simp only [hr, Option.some.injEq] at h
                simp only [hr]
                exact h

/-- With `sub_inumber = FREE_INODE` the comparison `sub_inumber < FREE_INODE` is false and
`dir_reset_entry` on a directory indexes `inode_table` at `-1`; with
`sub_inumber = INODE_TABLE_SIZE` it indexes the table at `INODE_TABLE_SIZE`.  Both indices
are outside the array. -/
theorem dir_reset_entry_indexes_outside_table (cfg : Config) (t : Table)
    (hlen : t.length = cfg.INODE_TABLE_SIZE) (p : Int) (es : List DirEntry)
    (hdir : slot t p = some ⟨T_DIRECTORY, some es⟩) :
    dir_reset_entry_checked cfg t p FREE_INODE = none ∧
    dir_reset_entry_checked cfg t p (cfg.INODE_TABLE_SIZE : Int) = none := by
  have hty : nodeTypeOf t p = T_DIRECTORY := nodeTypeOf_eq_of_slot hdir
  have hnn : nodeTypeOf t p ≠ T_NONE := by rw [hty]; decide
  obtain ⟨h0, h1, _⟩ := nodeType_in_range hlen hnn
  have hg : guard_checked cfg t 0 p = some false := by
    unfold guard_checked
    rw [if_neg (by omega), if_neg (by omega)]
    simp [read_nodeType, hdir]
  have hg1 : guard_checked cfg t FREE_INODE FREE_INODE = none := by
    unfold guard_checked
    have hs : slot t FREE_INODE = none := by simp [slot, FREE_INODE]
    rw [if_neg (lt_irrefl _), if_neg (by simp [FREE_INODE]; omega)]
    simp [read_nodeType, hs]
  have hg2 : guard_checked cfg t FREE_INODE (cfg.INODE_TABLE_SIZE : Int) = none := by
    unfold guard_checked
    have hs : slot t (cfg.INODE_TABLE_SIZE : Int) = none :=
      slot_eq_none_of_length t _ (by omega)
    rw [if_neg (by simp [FREE_INODE]; omega), if_neg (lt_irrefl _)]
    simp [read_nodeType, hs]
  constructor
  · unfold dir_reset_entry_checked
    simp [hg, hty, hg1]
  · unfold dir_reset_entry_checked
    simp [hg, hty, hg2]

set_option maxRecDepth 100000 in
/-- Claim C22 as stated fails: after `inode_create(T_FILE)`, `dir_add_entry(0, 1, "a")` and
`inode_delete(1)` the root has the live entry `("a", 1)`, and `dir_reset_entry(0, 1)`
returns `FAIL` with the table as it was, because slot 1 is `T_NONE`.  The run stays inside
the array. -/
theorem dir_reset_entry_rejects_dangling_entry :
    nodeTypeOf tDangling 0 = T_DIRECTORY ∧
    (dataOf tDangling 0).map (fun es => es.head?) = some (some ⟨"a".toList, 1⟩) ∧
    (1 : Int) ≠ FREE_INODE ∧
    nodeTypeOf tDangling 1 = T_NONE ∧
    dir_reset_entry cfg0 tDangling 0 1 = (tDangling, FAIL) ∧
    dir_reset_entry_checked cfg0 tDangling 0 1 = some (tDangling, FAIL) ∧
    FAIL ≠ SUCCESS := by
  decide

/-- Claim C22 (amended): in a table of `INODE_TABLE_SIZE` slots, for a directory `inumber`
with entry array `es` and every `sub_inumber` other than `FREE_INODE` and
`INODE_TABLE_SIZE`, `dir_reset_entry` stays inside the array; it returns `FAIL` and the
table as it was when `sub_inumber` is outside `[0, INODE_TABLE_SIZE)`, or slot
`sub_inumber` is `T_NONE`, or no entry of the directory has child id `sub_inumber`;
otherwise it returns `SUCCESS`, the first entry with child id `sub_inumber` becomes a
`FREE_INODE` entry with the empty name, and every other entry and every other slot is as
it was. -/
theorem dir_reset_entry_meets_spec (cfg : Config) (t : Table)
    (hlen : t.length = cfg.INODE_TABLE_SIZE) (inumber sub_inumber : Int) (es : List DirEntry)
    (hdir : slot t inumber = some ⟨T_DIRECTORY, some es⟩)
    (hfree : sub_inumber ≠ FREE_INODE)
    (hsize : sub_inumber ≠ (cfg.INODE_TABLE_SIZE : Int)) :
    dir_reset_entry_checked cfg t inumber sub_inumber =
      some (dir_reset_entry cfg t inumber sub_inumber) ∧
    ((sub_inumber < 0 ∨ (cfg.INODE_TABLE_SIZE : Int) ≤ sub_inumber ∨
        nodeTypeOf t sub_inumber = T_NONE ∨ ∀ e ∈ es, e.inumber ≠ sub_inumber) →
      dir_reset_entry cfg t inumber sub_inumber = (t, FAIL)) ∧
    (¬ (sub_inumber < 0 ∨ (cfg.INODE_TABLE_SIZE : Int) ≤ sub_inumber ∨
        nodeTypeOf t sub_inumber = T_NONE ∨ ∀ e ∈ es, e.inumber ≠ sub_inumber) →
      ∃ (j : Nat) (e0 : DirEntry), es[j]? = some e0 ∧ e0.inumber = sub_inumber ∧
        (∀ k, k < j → ∀ e, es[k]? = some e → e.inumber ≠ sub_inumber) ∧
        (dir_reset_entry cfg t inumber sub_inumber).2 = SUCCESS ∧
        slot (dir_reset_entry cfg t inumber sub_inumber).1 inumber =
          some ⟨T_DIRECTORY, some (es.set j ⟨[], FREE_INODE⟩)⟩ ∧
        (dir_reset_entry cfg t inumber sub_inumber).1.length = t.length ∧
        ∀ y, y ≠ inumber → slot (dir_reset_entry cfg t inumber sub_inumber).1 y = slot t y) := by
  have hty : nodeTypeOf t inumber = T_DIRECTORY := nodeTypeOf_eq_of_slot hdir
  have hda : dataOf t inumber = some es := dataOf_eq_of_slot hdir
  have hnn : nodeTypeOf t inumber ≠ T_NONE := by rw [hty]; decide
  obtain ⟨h0, h1, h2⟩ := nodeType_in_range hlen hnn
  have hi : invalid_inumber cfg t inumber = false := invalid_inumber_of_valid hlen hnn
  have hg : guard_checked cfg t 0 inumber = some false := by
    unfold guard_checked
    rw [if_neg (by omega), if_neg (by omega)]
    simp [read_nodeType, hdir]
  refine ⟨?_, ?_, ?_⟩
  · have hd : ∃ r, dir_reset_entry_checked cfg t inumber sub_inumber = some r := by
      have hg2 : ∃ b, guard_checked cfg t FREE_INODE sub_inumber = some b := by
        unfold guard_checked
        by_cases c1 : sub_inumber < FREE_INODE
        · exact ⟨true, by rw [if_pos c1]⟩
        · rw [if_neg c1]
          by_cases c2 : sub_inumber > (cfg.INODE_TABLE_SIZE : Int)
          · exact ⟨true, by rw [if_pos c2]⟩
          · rw [if_neg c2]
            have c3 : 0 ≤ sub_inumber := by
              unfold FREE_INODE at c1 hfree
              omega
            obtain ⟨n, hn⟩ := slot_isSome_of_lt t sub_inumber c3 (by omega)
            exact ⟨decide (n.nodeType = T_NONE), by simp [read_nodeType, hn]⟩
      obtain ⟨b, hb⟩ := hg2
      unfold dir_reset_entry_checked
      simp only [hg, hty, ne_eq, not_true_eq_false, if_false, hb, hda]
      cases b with
      | true => exact ⟨_, rfl⟩
      | false =>
        cases reset_first sub_inumber es with
        | none => exact ⟨_, rfl⟩
        | some es1 => exact ⟨_, rfl⟩
    obtain ⟨r, hr⟩ := hd
    rw [hr, dir_reset_entry_checked_eq hr]
  · intro h
    unfold dir_reset_entry
    simp only [hi, Bool.false_eq_true, if_false, hty, ne_eq, not_true_eq_false, hda]
    by_cases hG : (decide (sub_inumber < FREE_INODE) ||
        decide (sub_inumber > (cfg.INODE_TABLE_SIZE : Int)) ||
        decide (nodeTypeOf t sub_inumber = T_NONE)) = true
    · rw [if_pos hG]
    · rw [if_neg hG]
      simp at hG
      obtain ⟨⟨g1, g2⟩, g3⟩ := hG
      have hr : reset_first sub_inumber es = none := by
        rw [reset_first_eq_none]
        rcases h with h | h | h | h
        · unfold FREE_INODE at g1 hfree
          omega
        · omega
        · exact absurd h g3
        · exact h
      simp [hr]
  · intro h
    push_neg at h
    obtain ⟨c0, c1, c2, c3⟩ := h
    have hG : (decide (sub_inumber < FREE_INODE) ||
        decide (sub_inumber > (cfg.INODE_TABLE_SIZE : Int)) ||
        decide (nodeTypeOf t sub_inumber = T_NONE)) = false := by
      have a1 : ¬ sub_inumber < FREE_INODE := by unfold FREE_INODE; omega
      have a2 : ¬ sub_inumber > (cfg.INODE_TABLE_SIZE : Int) := by omega
      simp [a1, a2, c2]
    cases hr : reset_first sub_inumber es with
    | none =>
      rw [reset_first_eq_none] at hr
      obtain ⟨e, he, hes⟩ := c3
      exact absurd hes (hr e he)
    | some es1 =>
      obtain ⟨j, e0, hj, he0, hfirst, hes1⟩ := reset_first_spec sub_inumber es es1 hr
      have hres : dir_reset_entry cfg t inumber sub_inumber =
          (setSlot t inumber ⟨T_DIRECTORY, some es1⟩, SUCCESS) := by
        unfold dir_reset_entry
        simp only [hi, Bool.false_eq_true, if_false, hty, ne_eq, not_true_eq_false, hda, hG, hr]
      refine ⟨j, e0, hj, he0, hfirst, ?_, ?_, ?_, ?_⟩
      · rw [hres]
      · rw [hres, slot_setSlot _ _ _ _ h0, hes1]
        simp [h2]
      · rw [hres]
        exact length_setSlot _ _ _
      · intro y hy
        rw [hres, slot_setSlot _ _ _ _ h0]
        simp [hy]

set_option maxRecDepth 100000 in
/-- The amended claim C22 on the table after `create("/a", T_DIRECTORY)` and
`create("/a/b", T_DIRECTORY)`: the root and `sub_inumber = 1`. -/
theorem dir_reset_entry_meets_spec_witness :
    tAB.length = cfg0.INODE_TABLE_SIZE ∧
    slot tAB 0 = some ⟨T_DIRECTORY,
      some (⟨"a".toList, 1⟩ :: List.replicate 19 ⟨[], FREE_INODE⟩)⟩ ∧
    (1 : Int) ≠ FREE_INODE ∧ (1 : Int) ≠ (cfg0.INODE_TABLE_SIZE : Int) ∧
    dir_reset_entry_checked cfg0 tAB 0 1 = some (dir_reset_entry cfg0 tAB 0 1) :=
  ⟨by decide, by decide, by decide, by decide,
    (dir_reset_entry_meets_spec cfg0 tAB (by decide) 0 1
      (⟨"a".toList, 1⟩ :: List.replicate 19 ⟨[], FREE_INODE⟩) (by decide) (by decide)
      (by decide)).1⟩

end TecnicoFS
